import Mathlib

/-!
LightwaveRF receiver (LwRx.cpp): shallow embedding and verified properties.

The C++ globals of `LwRx.cpp` become the fields of one record `Ctx`; every routine
becomes a function on `Ctx`.  Arrays are maps from index to value.  `byte` values
are naturals kept below 256, `unsigned int` is 16 bits wide (AVR), `unsigned long`
is 32 bits wide; truncation is written out where the C arithmetic can overflow.
The clock and pin reads (`micros()`, `millis()`, `digitalRead`) are inputs.
-/

namespace LwRx

/-- Constants declared in `LwRx.h`, which is not part of the sources: they are
taken as parameters of the model. -/
structure Header where
  rx_maxpairs : Nat
  rx_stat_count : Nat
  rx_stat_high_ave : Nat
  rx_stat_high_max : Nat
  rx_stat_high_min : Nat
  rx_stat_low0_ave : Nat
  rx_stat_low0_max : Nat
  rx_stat_low0_min : Nat
  rx_stat_low1_ave : Nat
  rx_stat_low1_max : Nat
  rx_stat_low1_min : Nat

/-- The `#define EEPROMaddr 16`. -/
def EEPROMaddr : Int := 16

/-- The code-word table `rx_nibble[]`. -/
def rx_nibble : List Nat :=
  [0xF6,0xEE,0xED,0xEB,0xDE,0xDD,0xDB,0xBE,0xBD,0xBB,0xB7,0x7E,0x7D,0x7B,0x77,0x6F]

/-- The constant `rx_msglen`. -/
def rx_msglen : Nat := 10

def rx_state_idle : Nat := 0
def rx_state_msgstartfound : Nat := 1
def rx_state_bytestartfound : Nat := 2
def rx_state_getbyte : Nat := 3

/-- The table `lwrx_statsdflt`. -/
def lwrx_statsdflt : List Nat := [5000,0,5000,20000,0,2500,4000,0,500]

/-- The file-scope variables of `LwRx.cpp` together with the persistent byte store. -/
structure Ctx where
  rx_msg : Nat → Nat
  rx_buf : Nat → Nat
  rx_prev : Nat
  rx_msgcomplete : Bool
  rx_translate : Bool
  rx_state : Nat
  rx_num_bits : Nat
  rx_num_bytes : Nat
  rx_paircount : Nat
  rx_pairs : Nat → Nat → Nat
  rx_pairtimeout : Nat
  rx_repeats : Nat
  rx_repeatcount : Nat
  rx_timeout : Nat
  rx_prevpkttime : Nat
  rx_pairstarttime : Nat
  lwrx_stats : Nat → Nat
  lwrx_stats_enable : Bool
  eeprom : Int → Nat

/-- Array store `a[i] = v`. -/
def aset {ι : Type} [DecidableEq ι] (a : ι → Nat) (i : ι) (v : Nat) : ι → Nat :=
  fun k => if k = i then v else a k

/-- Store into a two-dimensional array, `a[i][j] = v`. -/
def aset2 (a : Nat → Nat → Nat) (i j v : Nat) : Nat → Nat → Nat :=
  fun k => if k = i then aset (a k) j v else a k

/-- The call `memcpy(dst, src, n)` on byte arrays. -/
def memcpy (dst src : Nat → Nat) (n : Nat) : Nat → Nat :=
  fun k => if k < n then src k else dst k

/-- Difference of two `unsigned long` values (32-bit wrap-around). -/
def sub32 (a b : Nat) : Nat := (a % 4294967296 + 4294967296 - b % 4294967296) % 4294967296

/-- Loop of `rx_findNibble`, entered with index `i`. -/
def rx_findNibble_loop (data : Nat) : Nat → Int
  | 0 => if rx_nibble.getD 0 0 = data then 0 else -1
  | i + 1 => if rx_nibble.getD (i + 1) 0 = data then ((i + 1 : Nat) : Int)
             else rx_findNibble_loop data i

/-- Find nibble from byte; returns -1 if none found. -/
def rx_findNibble (data : Nat) : Int := rx_findNibble_loop data 15

/-- Inner `do ... while (j >= 0 && pairfound)` loop of `rx_checkPairs`, entered with
index `j` and `pairfound = true`; the result is `pairfound` at loop exit. -/
def rx_checkPairs_inner (row buf : Nat → Nat) : Nat → Bool
  | 0 =>
    let pairfound := if (0 : Nat) ≠ 1 then (if row 0 ≠ buf 0 then false else true) else true
    pairfound
  | j + 1 =>
    let pairfound := if j + 1 ≠ 1 then (if row (j + 1) ≠ buf (j + 1) then false else true) else true
    if pairfound then rx_checkPairs_inner row buf j else pairfound

/-- Outer `do ... while (i >= 0 && !pairfound)` loop of `rx_checkPairs`, entered with
index `i`. -/
def rx_checkPairs_outer (pairs : Nat → Nat → Nat) (buf : Nat → Nat) : Nat → Bool
  | 0 => rx_checkPairs_inner (pairs 0) buf 7
  | i + 1 =>
    let pairfound := rx_checkPairs_inner (pairs (i + 1)) buf 7
    if !pairfound then rx_checkPairs_outer pairs buf i else pairfound

/-- Check to see if message matches one of the pairs. -/
def rx_checkPairs (c : Ctx) (buf : Nat → Nat) : Bool :=
  if c.rx_paircount = 0 then true
  else rx_checkPairs_outer c.rx_pairs buf (c.rx_paircount - 1)

/-- The `for` loop of `rx_paircommit` writing the eight bytes of the new entry,
from index `8 - n` on. -/
def rx_paircommit_write (c : Ctx) : Nat → (Int → Nat) → (Int → Nat)
  | 0, e => e
  | n + 1, e =>
    let i := 8 - (n + 1)
    rx_paircommit_write c n
      (aset e (EEPROMaddr + 1 + 8 * (c.rx_paircount : Int) + (i : Int)) (c.rx_pairs c.rx_paircount i))

/-- Check and commit pair. -/
def rx_paircommit (c : Ctx) : Ctx :=
  if c.rx_paircount = 0 ∨ !rx_checkPairs c (c.rx_pairs c.rx_paircount) then
    let c := if EEPROMaddr ≥ 0 then { c with eeprom := rx_paircommit_write c 8 c.eeprom } else c
    let c := { c with rx_paircount := (c.rx_paircount + 1) % 256 }
    if EEPROMaddr ≥ 0 then { c with eeprom := aset c.eeprom EEPROMaddr c.rx_paircount } else c
  else c

/-- Add pair from message buffer. -/
def rx_addpairfrommsg (h : Header) (c : Ctx) : Ctx :=
  if c.rx_paircount < h.rx_maxpairs then
    rx_paircommit
      { c with rx_pairs := fun k => if k = c.rx_paircount
                                    then memcpy (c.rx_pairs k) (fun j => c.rx_msg (j + 2)) 8
                                    else c.rx_pairs k }
  else c

/-- The loop `do { i--; } while ((i >= 0) && (rx_msg[i] == rx_buf[i]))` of the repeat
test, after the decrement to `i`; the result is the value of `i` at loop exit. -/
def rx_samemsg_loop (msg buf : Nat → Nat) : Nat → Int
  | 0 => if msg 0 = buf 0 then -1 else 0
  | i + 1 => if msg (i + 1) = buf (i + 1) then rx_samemsg_loop msg buf i
             else ((i + 1 : Nat) : Int)

/-- The repeat filter of message finalization: the `if (rx_repeats > 0) ... else ...`
statement that sets `rx_repeatcount`. -/
def rx_repeat_filter (currMillis : Nat) (c : Ctx) : Ctx :=
  if c.rx_repeats > 0 then
    if sub32 currMillis c.rx_prevpkttime / 100 > c.rx_timeout then
      { c with rx_repeatcount := 1 }
    else
      let i := rx_samemsg_loop c.rx_msg c.rx_buf (rx_msglen - 1)
      if i < 0 then { c with rx_repeatcount := (c.rx_repeatcount + 1) % 256 }
      else { c with rx_repeatcount := 1 }
  else { c with rx_repeatcount := 0 }

/-- The condition `rx_repeats == 0 || rx_repeatcount == rx_repeats` under which a
completed candidate is considered for acceptance. -/
def rx_eligible (c : Ctx) : Prop := c.rx_repeats = 0 ∨ c.rx_repeatcount = c.rx_repeats

instance (c : Ctx) : Decidable (rx_eligible c) := by
  unfold rx_eligible
  exact inferInstance

/-- The acceptance step of message finalization: pairing capture and pair filter,
the statement `if (rx_repeats == 0 || rx_repeatcount == rx_repeats) ...`. -/
def rx_accept (h : Header) (currMillis : Nat) (c : Ctx) : Ctx :=
  if rx_eligible c then
    let c :=
      if c.rx_pairtimeout ≠ 0 then
        if sub32 currMillis c.rx_pairstarttime / 100 ≤ c.rx_pairtimeout then
          rx_addpairfrommsg h c
        else { c with rx_pairtimeout := 0 }
      else c
    let c :=
      if c.rx_pairtimeout = 0 ∧ rx_checkPairs c (fun j => c.rx_msg (j + 2)) = true then
        { c with rx_msgcomplete := true }
      else c
    { c with rx_pairtimeout := 0 }
  else c

/-- Message finalization: the block of `rx_process_bits` executed when the tenth byte
is complete (from `currMillis = millis()` to `rx_state = rx_state_idle`). -/
def rx_finalize (h : Header) (currMillis : Nat) (c : Ctx) : Ctx :=
  let c := rx_repeat_filter currMillis c
  let c := { c with rx_prevpkttime := currMillis }
  let c := { c with rx_msg := memcpy c.rx_msg c.rx_buf rx_msglen }
  let c := rx_accept h currMillis c
  { c with rx_state := rx_state_idle }

/-- The three statistics assignments made for one pulse of duration `dur`. -/
def rx_stats_update (s : Nat → Nat) (imax imin iave dur : Nat) : Nat → Nat :=
  let s := aset s imax (max (s imax) dur)
  let s := aset s imin (min (s imin) dur)
  aset s iave ((s iave - (s iave >>> 4) + dur) % 65536)

/-- The inner `switch(event)` of the state `rx_state_getbyte`. -/
def rx_getbyte_event (h : Header) (event dur : Nat) (c : Ctx) : Ctx :=
  if event = 2 then
    if c.lwrx_stats_enable then
      { c with lwrx_stats := rx_stats_update c.lwrx_stats h.rx_stat_high_max
                               h.rx_stat_high_min h.rx_stat_high_ave dur }
    else c
  else if event = 3 then
    let c := { c with rx_buf := aset c.rx_buf c.rx_num_bytes
                                  ((c.rx_buf c.rx_num_bytes <<< 1 ||| 1) % 256) }
    let c := { c with rx_num_bits := (c.rx_num_bits + 1) % 256 }
    if c.lwrx_stats_enable then
      { c with lwrx_stats := rx_stats_update c.lwrx_stats h.rx_stat_low1_max
                               h.rx_stat_low1_min h.rx_stat_low1_ave dur }
    else c
  else if event = 5 then
    let c := { c with rx_buf := aset c.rx_buf c.rx_num_bytes
                                  ((c.rx_buf c.rx_num_bytes <<< 2 ||| 2) % 256) }
    let c := { c with rx_num_bits := (c.rx_num_bits + 1) % 256 }
    let c := { c with rx_num_bits := (c.rx_num_bits + 1) % 256 }
    if c.lwrx_stats_enable then
      { c with lwrx_stats := rx_stats_update c.lwrx_stats h.rx_stat_low0_max
                               h.rx_stat_low0_min h.rx_stat_low0_ave dur }
    else c
  else { c with rx_state := rx_state_idle }

/-- The state machine of `rx_process_bits` (the outer `switch(rx_state)`), for the
event code `event` computed from a pulse of duration `dur`; `currMillis` is the value
`millis()` returns during the call.  The second component tells whether the
message-finalization block was executed. -/
def rx_transitions_traced (h : Header) (event dur currMillis : Nat) (c : Ctx) : Ctx × Bool :=
  if c.rx_state = rx_state_idle then
    if event = 7 then ({ c with rx_state := rx_state_msgstartfound }, false) else (c, false)
  else if c.rx_state = rx_state_msgstartfound then
    if event = 2 then (c, false)
    else if event = 3 then
      ({ c with rx_num_bytes := 0, rx_state := rx_state_bytestartfound }, false)
    else ({ c with rx_state := rx_state_idle }, false)
  else if c.rx_state = rx_state_bytestartfound then
    if event = 2 then (c, false)
    else if event = 3 then ({ c with rx_state := rx_state_getbyte, rx_num_bits := 0 }, false)
    else if event = 5 then
      ({ c with rx_state := rx_state_getbyte, rx_num_bits := 1,
                rx_buf := aset c.rx_buf c.rx_num_bytes 0 }, false)
    else ({ c with rx_state := rx_state_idle }, false)
  else if c.rx_state = rx_state_getbyte then
    let c := rx_getbyte_event h event dur c
    if c.rx_num_bits ≥ 8 then
      let c := { c with rx_num_bytes := (c.rx_num_bytes + 1) % 256 }
      let c := { c with rx_num_bits := 0 }
      if c.rx_num_bytes ≥ rx_msglen then (rx_finalize h currMillis c, true)
      else ({ c with rx_state := rx_state_bytestartfound }, false)
    else (c, false)
  else (c, false)

/-- The state machine of `rx_process_bits`: the context after the call. -/
def rx_transitions (h : Header) (event dur currMillis : Nat) (c : Ctx) : Ctx :=
  (rx_transitions_traced h event dur currMillis c).1

/-- The event code computed at the top of `rx_process_bits` from the pin level and
the 16-bit pulse duration. -/
def rx_event (level dur : Nat) : Nat :=
  if dur < 120 then level
  else if dur < 500 then (level + 2) % 256
  else if dur < 2000 then (level + 4) % 256
  else if dur > 5000 then (level + 6) % 256
  else 8

/-- Pin change interrupt routine.  Here `level` is the value of `digitalRead(rx_pin)`,
`curr` the value of `micros()` and `currMillis` the value of `millis()`. -/
def rx_process_bits (h : Header) (level curr currMillis : Nat) (c : Ctx) : Ctx :=
  let event := level
  let dur := sub32 curr c.rx_prev % 65536
  let c := { c with rx_prev := curr }
  let event := rx_event event dur
  rx_transitions h event dur currMillis c

/-- Test if a message has arrived. -/
def lwrx_message (c : Ctx) : Bool := c.rx_msgcomplete

/-- Set translate mode. -/
def lwrx_settranslate (rxtranslate : Bool) (c : Ctx) : Ctx :=
  { c with rx_translate := rxtranslate }

/-- Conversion of an `int` to `byte` on assignment. -/
def toByte (j : Int) : Nat := (j % 256).toNat

/-- The `switch(len)` in the loop of `lwrx_getmessage`, at index `i` with value `j`
(case 4 falls through into case 2). -/
def lwrx_getmessage_store (len i : Nat) (j : Int) (buf : Nat → Nat) : Nat → Nat :=
  if len = 4 then
    let buf := if i = 9 then aset buf 2 (toByte j) else buf
    let buf := if i = 2 then aset buf 3 (toByte j) else buf
    let buf := if i = 3 then aset buf 0 (toByte j) else buf
    let buf := if i = 0 then aset buf 1 (toByte (j * 16)) else buf
    if i = 1 then aset buf 1 (toByte ((buf 1 : Int) + j)) else buf
  else if len = 2 then
    let buf := if i = 3 then aset buf 0 (toByte j) else buf
    let buf := if i = 0 then aset buf 1 (toByte (j * 16)) else buf
    if i = 1 then aset buf 1 (toByte ((buf 1 : Int) + j)) else buf
  else if len = 10 then aset buf i (toByte j)
  else buf

/-- One pass through the body of the `for` loop of `lwrx_getmessage` at index `i`:
the new values of `ret` and of the caller's buffer. -/
def lwrx_getmessage_body (c : Ctx) (len i : Nat) (ret : Bool) (buf : Nat → Nat) :
    Bool × (Nat → Nat) :=
  if c.rx_translate = true ∨ len ≠ rx_msglen then
    let j := rx_findNibble (c.rx_msg i)
    let ret := if j < 0 then false else ret
    (ret, lwrx_getmessage_store len i j buf)
  else
    let j : Int := (c.rx_msg i : Int)
    (ret, lwrx_getmessage_store len i j buf)

/-- The loop `for (byte i = 0; ret && i < rx_msglen; i++)` of `lwrx_getmessage`, with at
most `n` passes left. -/
def lwrx_getmessage_loop (c : Ctx) (len : Nat) : Nat → Nat → Bool → (Nat → Nat) →
    Bool × (Nat → Nat)
  | 0, _, ret, buf => (ret, buf)
  | n + 1, i, ret, buf =>
    if ret = true ∧ i < rx_msglen then
      let r := lwrx_getmessage_body c len i ret buf
      lwrx_getmessage_loop c len n (i + 1) r.1 r.2
    else (ret, buf)

/-- Transfer a message to user buffer: the returned flag, the caller's buffer and the
context after the call. -/
def lwrx_getmessage (buf : Nat → Nat) (len : Nat) (c : Ctx) : Bool × (Nat → Nat) × Ctx :=
  if c.rx_msgcomplete = true ∧ len ≤ rx_msglen then
    let r := lwrx_getmessage_loop c len rx_msglen 0 true buf
    (r.1, r.2, { c with rx_msgcomplete := false })
  else (false, buf, c)

/-- Return time in milliseconds since last packet received. -/
def lwrx_packetinterval (currMillis : Nat) (c : Ctx) : Nat := sub32 currMillis c.rx_prevpkttime

/-- Set up repeat filtering of received messages. -/
def lwrx_setfilter (repeats timeout : Nat) (c : Ctx) : Ctx :=
  { c with rx_repeats := repeats, rx_timeout := timeout }

/-- The `for` loop of `lwrx_addpair` translating the eight values, from index `8 - n`
on. -/
def lwrx_addpair_loop (pairdata : Nat → Nat) (cnt : Nat) : Nat → (Nat → Nat → Nat) →
    (Nat → Nat → Nat)
  | 0, pairs => pairs
  | n + 1, pairs =>
    let i := 8 - (n + 1)
    lwrx_addpair_loop pairdata cnt n (aset2 pairs cnt i (rx_nibble.getD (pairdata i) 0))

/-- Add a pair to filter received messages: the returned count and the context after
the call. -/
def lwrx_addpair (h : Header) (pairdata : Nat → Nat) (c : Ctx) : Nat × Ctx :=
  let c :=
    if c.rx_paircount < h.rx_maxpairs then
      rx_paircommit { c with rx_pairs := lwrx_addpair_loop pairdata c.rx_paircount 8 c.rx_pairs }
    else c
  (c.rx_paircount, c)

/-- Make a pair from next message successfully received. -/
def lwrx_makepair (timeout currMillis : Nat) (c : Ctx) : Ctx :=
  { c with rx_pairtimeout := timeout, rx_pairstarttime := currMillis }

/-- The `for` loop of `lwrx_getpair`, from index `8 - n` on. -/
def lwrx_getpair_loop (c : Ctx) (pairnumber : Nat) : Nat → (Nat → Nat) → (Nat → Nat)
  | 0, pairdata => pairdata
  | n + 1, pairdata =>
    let i := 8 - (n + 1)
    let j := rx_findNibble (c.rx_pairs pairnumber i)
    lwrx_getpair_loop c pairnumber n (if j ≥ 0 then aset pairdata i (toByte j) else pairdata)

/-- Get pair data (translated back to nibble form): the caller's buffer after the call
and the returned count. -/
def lwrx_getpair (pairdata : Nat → Nat) (pairnumber : Nat) (c : Ctx) : (Nat → Nat) × Nat :=
  if pairnumber < c.rx_paircount then (lwrx_getpair_loop c pairnumber 8 pairdata, c.rx_paircount)
  else (pairdata, c.rx_paircount)

/-- Clear all pairing. -/
def lwrx_clearpairing (c : Ctx) : Ctx :=
  let c := { c with rx_paircount := 0 }
  if EEPROMaddr ≥ 0 then { c with eeprom := aset c.eeprom EEPROMaddr 0 } else c

/-- Return stats on high and low pulses: the flag and the caller's buffer. -/
def lwrx_getstats (h : Header) (stats : Nat → Nat) (c : Ctx) : Bool × (Nat → Nat) :=
  if c.lwrx_stats_enable then (true, memcpy stats c.lwrx_stats h.rx_stat_count)
  else (false, stats)

/-- Set stats mode. -/
def lwrx_setstatsenable (rx_stats_enable : Bool) (c : Ctx) : Ctx :=
  let c := { c with lwrx_stats_enable := rx_stats_enable }
  if !c.lwrx_stats_enable then
    { c with lwrx_stats := memcpy c.lwrx_stats (fun k => lwrx_statsdflt.getD k 0)
                             lwrx_statsdflt.length }
  else c

/-- Inner loop of `restoreEEPROMPairing` reading the eight bytes of entry `i`, from
index `8 - n` on. -/
def restoreEEPROMPairing_row (e : Int → Nat) (i : Nat) : Nat → (Nat → Nat → Nat) →
    (Nat → Nat → Nat)
  | 0, pairs => pairs
  | n + 1, pairs =>
    let j := 8 - (n + 1)
    restoreEEPROMPairing_row e i n
      (aset2 pairs i j (e (EEPROMaddr + 1 + 8 * (i : Int) + (j : Int))))

/-- Outer loop of `restoreEEPROMPairing` over the entries `cnt - n .. cnt - 1`. -/
def restoreEEPROMPairing_loop (e : Int → Nat) (cnt : Nat) : Nat → (Nat → Nat → Nat) →
    (Nat → Nat → Nat)
  | 0, pairs => pairs
  | n + 1, pairs =>
    let i := cnt - (n + 1)
    restoreEEPROMPairing_loop e cnt n (restoreEEPROMPairing_row e i 8 pairs)

/-- Retrieve and set up pairing data from EEPROM if used. -/
def restoreEEPROMPairing (h : Header) (c : Ctx) : Ctx :=
  if EEPROMaddr ≥ 0 then
    let c := { c with rx_paircount := c.eeprom EEPROMaddr }
    if c.rx_paircount > h.rx_maxpairs then
      let c := { c with rx_paircount := 0 }
      { c with eeprom := aset c.eeprom EEPROMaddr 0 }
    else
      { c with rx_pairs := restoreEEPROMPairing_loop c.eeprom c.rx_paircount c.rx_paircount
                             c.rx_pairs }
  else c

/-- Set things up to receive LightwaveRF 434MHz messages (the pin selection and the
interrupt attachment are outside the model). -/
def lwrx_setup (h : Header) (c : Ctx) : Ctx :=
  let c := restoreEEPROMPairing h c
  { c with lwrx_stats := memcpy c.lwrx_stats (fun k => lwrx_statsdflt.getD k 0)
                           lwrx_statsdflt.length }

/-- A context with every variable at its initial value of `LwRx.cpp`, arrays zeroed
and an erased persistent store (all bytes 255). -/
def ctx0 : Ctx :=
  { rx_msg := fun _ => 0, rx_buf := fun _ => 0, rx_prev := 0, rx_msgcomplete := false,
    rx_translate := true, rx_state := 0, rx_num_bits := 0, rx_num_bytes := 0,
    rx_paircount := 0, rx_pairs := fun _ _ => 0, rx_pairtimeout := 0, rx_repeats := 2,
    rx_repeatcount := 0, rx_timeout := 20, rx_prevpkttime := 0, rx_pairstarttime := 0,
    lwrx_stats := fun _ => 0, lwrx_stats_enable := true, eeprom := fun _ => 255 }

/-- The layout of `LwRx.h` as published with the library (ten pairs, statistics in the
order average, maximum, minimum for high, low0, low1), used for concrete examples. -/
def hdr0 : Header :=
  { rx_maxpairs := 10, rx_stat_count := 9,
    rx_stat_high_ave := 0, rx_stat_high_max := 1, rx_stat_high_min := 2,
    rx_stat_low0_ave := 3, rx_stat_low0_max := 4, rx_stat_low0_min := 5,
    rx_stat_low1_ave := 6, rx_stat_low1_max := 7, rx_stat_low1_min := 8 }

/-- The writes of the loop of `lwrx_getmessage` when no pass clears `ret`: index `i`
onwards, at most `n` passes. -/
def lwrx_getmessage_writes (c : Ctx) (len : Nat) : Nat → Nat → (Nat → Nat) → (Nat → Nat)
  | 0, _, buf => buf
  | n + 1, i, buf =>
    if i < rx_msglen then
      lwrx_getmessage_writes c len n (i + 1) (lwrx_getmessage_body c len i true buf).2
    else buf

/-- Pass `k` of the loop of `lwrx_getmessage` translates and the symbol is no code
word. -/
def lwrx_getmessage_bad (c : Ctx) (len k : Nat) : Prop :=
  (c.rx_translate = true ∨ len ≠ rx_msglen) ∧ rx_findNibble (c.rx_msg k) < 0

/-- A context holding a ready message whose symbols are the code words of the
nibbles 0, 1, ..., 9. -/
def ctxReady : Ctx :=
  { ctx0 with rx_msgcomplete := true,
              rx_msg := fun i => [0xF6,0xEE,0xED,0xEB,0xDE,0xDD,0xDB,0xBE,0xBD,0xBB].getD i 0 }

/-- Two pair entries are equivalent when they agree at every index `0..7` other than
index 1. -/
def pairEquiv (a b : Nat → Nat) : Prop := ∀ j, j < 8 → j ≠ 1 → a j = b j

/-- Some stored entry of the context is equivalent to the candidate. -/
def pairStored (c : Ctx) (cand : Nat → Nat) : Prop :=
  ∃ i, i < c.rx_paircount ∧ pairEquiv (c.rx_pairs i) cand

/-- Whether message finalization at time `currMillis` executes the assignment
`rx_msgcomplete = true`: the flag after finalization from a context whose flag is
clear. -/
def rx_raises (h : Header) (currMillis : Nat) (c : Ctx) : Bool :=
  (rx_finalize h currMillis { c with rx_msgcomplete := false }).rx_msgcomplete

/-- The context on which the acceptance step of message finalization runs: repeat
counter updated, candidate time recorded, candidate copied into `rx_msg`. -/
def rx_candidate_ctx (currMillis : Nat) (c : Ctx) : Ctx :=
  { c with rx_repeatcount := (rx_repeat_filter currMillis c).rx_repeatcount,
           rx_prevpkttime := currMillis,
           rx_msg := memcpy c.rx_msg c.rx_buf rx_msglen }

/-- Context `b` carries on the repeat filter of context `a`: whatever happened in
between left the stored candidate, the repeat counter, the candidate time, the filter
settings, the pairing session and the pair count as they were. -/
def filterSame (a b : Ctx) : Prop :=
  (∀ i, i < 10 → b.rx_msg i = a.rx_msg i) ∧ b.rx_repeatcount = a.rx_repeatcount ∧
  b.rx_prevpkttime = a.rx_prevpkttime ∧ b.rx_repeats = a.rx_repeats ∧
  b.rx_timeout = a.rx_timeout ∧ b.rx_pairtimeout = a.rx_pairtimeout ∧
  b.rx_paircount = a.rx_paircount

/-- A run of further candidates after the finalization that left `last`: each item is
the time and the context at which the next finalization runs; the context carries on
from the previous finalization, its buffer holds the bytes `m`, and it arrives inside
the timeout window of the previous candidate. -/
def rx_chain (h : Header) (m : Nat → Nat) : Ctx → List (Nat × Ctx) → Prop
  | _, [] => True
  | last, (t, c) :: rest =>
    filterSame last c ∧ (∀ i, i < 10 → c.rx_buf i = m i) ∧
    ¬ (sub32 t last.rx_prevpkttime / 100 > last.rx_timeout) ∧
    rx_chain h m (rx_finalize h t c) rest

/-- State of the repeat filter after the `k`-th candidate of a run of candidates `m`
under threshold `t`, with no pairing session and an empty pair store. -/
def repeatRun (t : Nat) (m : Nat → Nat) (k : Nat) (r : Ctx) : Prop :=
  r.rx_repeatcount = k ∧ (∀ i, i < 10 → r.rx_msg i = m i) ∧ r.rx_repeats = t ∧
  r.rx_pairtimeout = 0 ∧ r.rx_paircount = 0

/-- A context at its initial values whose reception buffer holds the bytes 1, 2, ... -/
def ctxBuf : Ctx := { ctx0 with rx_buf := fun i => i + 1 }

/-- The context `ctxBuf` with a pairing session of 5 units begun at millisecond 1000
and the repeat filter switched off. -/
def ctxPairing : Ctx :=
  { ctxBuf with rx_pairtimeout := 5, rx_pairstarttime := 1000, rx_repeats := 0 }

/-- One call of `rx_process_bits` as seen by the state machine: the event code, the
pulse duration and the value of `millis()` during the call. -/
structure Pulse where
  event : Nat
  dur : Nat
  currMillis : Nat

/-- The state machine run over a sequence of calls. -/
def rx_run (h : Header) : List Pulse → Ctx → Ctx
  | [], c => c
  | p :: ps, c => rx_run h ps (rx_transitions h p.event p.dur p.currMillis c)

/-- Number of calls in a run that executed message finalization. -/
def rx_finals (h : Header) : List Pulse → Ctx → Nat
  | [], _ => 0
  | p :: ps, c =>
    (if (rx_transitions_traced h p.event p.dur p.currMillis c).2 then 1 else 0) +
      rx_finals h ps (rx_transitions h p.event p.dur p.currMillis c)

/-- The event codes of a sequence of calls with the event-2 edges left out. -/
def signalEvents (ps : List Pulse) : List Nat :=
  (ps.map (fun p => p.event)).filter (fun e => decide (e ≠ 2))

/-- The eight bits of a byte, most significant first. -/
def byteBits (b : Nat) : List Bool :=
  [b.testBit 7, b.testBit 6, b.testBit 5, b.testBit 4,
   b.testBit 3, b.testBit 2, b.testBit 1, b.testBit 0]

/-- A byte with no two adjacent zero bits. -/
def validByte (b : Nat) : Prop :=
  b < 256 ∧ ∀ k, k < 7 → (b.testBit k = true ∨ b.testBit (k + 1) = true)

instance (b : Nat) : Decidable (validByte b) := by
  unfold validByte
  exact inferInstance

/-- Events of a bit string that starts with a 1: event 5 for each pair `1,0`, event 3
for each other `1`. -/
def bitEvents : List Bool → List Nat
  | true :: false :: r => 5 :: bitEvents r
  | true :: r => 3 :: bitEvents r
  | _ => []

/-- Canonical events of one byte: the start event (3 if the top bit is 1, 5 if it is
0) followed by the events of the remaining bits. -/
def byteEvents (b : Nat) : List Nat :=
  match byteBits b with
  | true :: r => 3 :: bitEvents (true :: r)
  | false :: r => 5 :: bitEvents r
  | [] => []

/-- Canonical events of the bytes of a packet, one byte after the other. -/
def bytesEvents : List Nat → List Nat
  | [] => []
  | b :: r => byteEvents b ++ bytesEvents r

/-- Canonical event sequence of a packet: event 7, event 3 (message start), then the
events of each byte. -/
def packetEvents (pkt : List Nat) : List Nat := 7 :: 3 :: bytesEvents pkt

/-- Edges of a signal that produces the given events: before each event a falling edge
250 microseconds after the previous edge, then the rising edge of the event after a low
time of 10000 (event 7), 1250 (event 5) or 250 (event 3) microseconds.  Each edge is a
pair of pin level and microseconds since the previous edge. -/
def signalEdges : List Nat → List (Nat × Nat)
  | [] => []
  | e :: r =>
    (0, 250) :: (1, if e = 7 then 10000 else if e = 5 then 1250 else 250) :: signalEdges r

/-- One call of `rx_process_bits`: the pin level read by `digitalRead`, and the values
of `micros()` and `millis()` during the call. -/
structure Edge where
  level : Nat
  curr : Nat
  currMillis : Nat

/-- The interrupt routine together with the flag telling whether the call executed
message finalization. -/
def rx_process_bits_traced (h : Header) (level curr currMillis : Nat) (c : Ctx) : Ctx × Bool :=
  let dur := sub32 curr c.rx_prev % 65536
  let c := { c with rx_prev := curr }
  rx_transitions_traced h (rx_event level dur) dur currMillis c

/-- The interrupt routine called on each edge of a sequence. -/
def rx_calls (h : Header) : List Edge → Ctx → Ctx
  | [], c => c
  | e :: es, c => rx_calls h es (rx_process_bits h e.level e.curr e.currMillis c)

/-- Number of calls of the interrupt routine, in a sequence of calls, that executed
message finalization. -/
def rx_calls_finals (h : Header) : List Edge → Ctx → Nat
  | [], _ => 0
  | e :: es, c =>
    (if (rx_process_bits_traced h e.level e.curr e.currMillis c).2 then 1 else 0) +
      rx_calls_finals h es (rx_process_bits h e.level e.curr e.currMillis c)

/-- What the state machine sees of a sequence of calls, the previous edge having been
at time `prev`: event code, duration and `millis()` of each call. -/
def rx_pulses (prev : Nat) : List Edge → List Pulse
  | [] => []
  | e :: es =>
    { event := rx_event e.level (sub32 e.curr prev % 65536),
      dur := sub32 e.curr prev % 65536, currMillis := e.currMillis } :: rx_pulses e.curr es

/-- Time of the last edge of a sequence (`prev` if there is none). -/
def rx_lastcurr (prev : Nat) : List Edge → Nat
  | [] => prev
  | e :: es => rx_lastcurr e.curr es

/-- The calls made for a signal given as pairs of pin level and microseconds since the
previous edge, starting at time `t0`; `millis()` is `micros() / 1000`. -/
def edgesFrom (t0 : Nat) : List (Nat × Nat) → List Edge
  | [] => []
  | p :: r =>
    { level := p.1, curr := t0 + p.2, currMillis := (t0 + p.2) / 1000 } ::
      edgesFrom (t0 + p.2) r

/-- A packet from the paired device: symbols of the nibbles 0,0 then 0,1,...,7. -/
def pktPaired : List Nat := [0xF6,0xF6,0xF6,0xEE,0xED,0xEB,0xDE,0xDD,0xDB,0xBE]

/-- A packet from another device: ten times the symbol of the nibble 15. -/
def pktOther : List Nat := [0x6F,0x6F,0x6F,0x6F,0x6F,0x6F,0x6F,0x6F,0x6F,0x6F]

/-- Initial context after `lwrx_addpair` of the pair with nibbles 0,1,...,7: one stored
pair, no pairing session, default repeat filter (2 repeats). -/
def ctxOnePair : Ctx := (lwrx_addpair hdr0 (fun i => i) ctx0).2

/-- The context after the paired packet was received twice and then the other packet
once, with nobody reading in between. -/
def ctxAfterOther : Ctx :=
  rx_calls hdr0
    (edgesFrom 0
      (signalEdges (packetEvents pktPaired ++ packetEvents pktPaired ++ packetEvents pktOther)))
    ctxOnePair

/-- A context about to receive the last bit of a packet, repeat filter off. -/
def ctxLastBit : Ctx :=
  { ctx0 with rx_state := 3, rx_num_bytes := 9, rx_num_bits := 7, rx_repeats := 0 }

/-- The value obtained by shifting the bits `bs` into `x`, most significant first. -/
def shiftIn (x : Nat) : List Bool → Nat
  | [] => x
  | b :: r => shiftIn (2 * x + (if b then 1 else 0)) r

/-- Bit strings that `bitEvents` encodes completely: every 0 follows a 1. -/
def wfBits : List Bool → Bool
  | [] => true
  | true :: false :: r => wfBits r
  | true :: r => wfBits r
  | false :: _ => false

/-- No initial part of the run `ps` that leaves a signal event still to come has
executed message finalization. -/
def noEarlyFinal (h : Header) (ps : List Pulse) (c : Ctx) : Prop :=
  ∀ pre post, ps = pre ++ post → signalEvents post ≠ [] → rx_finals h pre c = 0

/-- Outcome of a run `ps` from context `c` that completes byte number `k` with value
`v`: for a byte before the tenth the decoder waits for the next byte start and no
finalization has run; for the tenth byte the decoder is idle, `rx_msg` holds the
buffer, and finalization ran once, not before the last signal event. -/
def byteDone (h : Header) (k v : Nat) (c : Ctx) (ps : List Pulse) : Prop :=
  (k + 1 < 10 →
    (rx_run h ps c).rx_state = 2 ∧ (rx_run h ps c).rx_num_bytes = k + 1 ∧
    (rx_run h ps c).rx_buf = aset c.rx_buf k v ∧ rx_finals h ps c = 0) ∧
  (k + 1 = 10 →
    (rx_run h ps c).rx_state = 0 ∧
    (∀ i, i < 10 → (rx_run h ps c).rx_msg i = aset c.rx_buf k v i) ∧
    rx_finals h ps c = 1 ∧ noEarlyFinal h ps c)

/-- The calls that can change the context: the interrupt routine on an edge, and the
library calls of the main program.  Pairing capture (`rx_addpairfrommsg`) is listed
on its own although the code only calls it from `rx_process_bits`. -/
inductive Op where
  | edge (level curr currMillis : Nat)
  | getmessage (len : Nat)
  | settranslate (rxtranslate : Bool)
  | setfilter (repeats timeout : Nat)
  | addpair (pairdata : Nat → Nat)
  | makepair (timeout currMillis : Nat)
  | clearpairing
  | setstatsenable (enable : Bool)
  | capture

/-- The context after one call. -/
def rx_op (h : Header) : Op → Ctx → Ctx
  | Op.edge level curr currMillis, c => rx_process_bits h level curr currMillis c
  | Op.getmessage len, c => (lwrx_getmessage (fun _ => 0) len c).2.2
  | Op.settranslate b, c => lwrx_settranslate b c
  | Op.setfilter repeats timeout, c => lwrx_setfilter repeats timeout c
  | Op.addpair pairdata, c => (lwrx_addpair h pairdata c).2
  | Op.makepair timeout currMillis, c => lwrx_makepair timeout currMillis c
  | Op.clearpairing, c => lwrx_clearpairing c
  | Op.setstatsenable b, c => lwrx_setstatsenable b c
  | Op.capture, c => rx_addpairfrommsg h c

/-- The context after a sequence of calls. -/
def rx_ops (h : Header) : List Op → Ctx → Ctx
  | [], c => c
  | op :: ops, c => rx_ops h ops (rx_op h op c)

/-- The contexts the program can be in: it starts idle with both counters 0 (any
contents of the other variables) and then makes calls. -/
inductive Reachable (h : Header) : Ctx → Prop
  | init (c : Ctx) : c.rx_state = rx_state_idle → c.rx_num_bits = 0 → c.rx_num_bytes = 0 →
      Reachable h c
  | step (op : Op) (c : Ctx) : Reachable h c → Reachable h (rx_op h op c)

/-- Bounds on the decoder variables: a known state, fewer than 8 bits assembled, and
fewer than 10 bytes while a byte is awaited or assembled. -/
def decoderInv (c : Ctx) : Prop :=
  c.rx_state ≤ 3 ∧ c.rx_num_bits < 8 ∧
  ((c.rx_state = rx_state_bytestartfound ∨ c.rx_state = rx_state_getbyte) →
    c.rx_num_bytes < rx_msglen)

/-- An event that makes the state machine start again in the given state: anything but
7 in the idle state, anything but 2 and 3 when the message start was found, anything
but 2, 3 and 5 when a byte start was found or a byte is assembled. -/
def rx_resync (state event : Nat) : Prop :=
  (state = rx_state_idle ∧ event ≠ 7) ∨
  (state = rx_state_msgstartfound ∧ event ≠ 2 ∧ event ≠ 3) ∨
  ((state = rx_state_bytestartfound ∨ state = rx_state_getbyte) ∧
    event ≠ 2 ∧ event ≠ 3 ∧ event ≠ 5)

/-- The persistent store mirrors the pair store: the byte at the base offset is the
count and the bytes after it are the entries below the count. -/
def storeMirror (c : Ctx) : Prop :=
  c.eeprom EEPROMaddr = c.rx_paircount ∧
  ∀ i j : Nat, i < c.rx_paircount → j < 8 →
    c.eeprom (EEPROMaddr + 1 + 8 * (i : Int) + (j : Int)) = c.rx_pairs i j

instance (state event : Nat) : Decidable (rx_resync state event) := by
  unfold rx_resync
  exact inferInstance

/-- A decoder that received the message start and the start of the first byte: the
edges of event 7, event 3 and event 3 from the initial context. -/
def ctxGetbyte : Ctx :=
  rx_op hdr0 (Op.edge 1 10500 10)
    (rx_op hdr0 (Op.edge 1 10250 10) (rx_op hdr0 (Op.edge 1 10000 10) ctx0))

/-- A context whose stored candidate equals the reception buffer, received at
millisecond 0 with repeat counter 1, under the default filter (2 repeats, timeout 20
units). -/
def ctxRepeat : Ctx :=
  { ctx0 with rx_msg := fun i => i + 1, rx_buf := fun i => i + 1, rx_repeatcount := 1 }

/-- Message finalization run at each of the given times in turn, the reception buffer
holding the same bytes every time: for each finalization, whether the candidate was
eligible for acceptance (the condition `rx_repeats == 0 || rx_repeatcount == rx_repeats`
as evaluated in it). -/
def rx_eligible_run (h : Header) : List Nat → Ctx → List Bool
  | [], _ => []
  | t :: ts, c =>
    decide (rx_eligible (rx_repeat_filter t c)) :: rx_eligible_run h ts (rx_finalize h t c)

/-- The context after the finalizations of `rx_eligible_run`. -/
def rx_finalize_run (h : Header) : List Nat → Ctx → Ctx
  | [], c => c
  | t :: ts, c => rx_finalize_run h ts (rx_finalize h t c)

/-- The times 5000, 5200, 5400, ... of `n` candidates 200 milliseconds apart. -/
def runTimes (n : Nat) : List Nat := (List.range n).map (fun k => 5000 + 200 * k)

/-- The low1 sample taken by a call, if any: the pulse duration of an edge classified
as event 3 while the decoder is in the state `rx_state_getbyte`. -/
def rx_low1_sample (op : Op) (c : Ctx) : List Nat :=
  match op with
  | Op.edge level curr _ =>
    if c.rx_state = rx_state_getbyte ∧ rx_event level (sub32 curr c.rx_prev % 65536) = 3
    then [sub32 curr c.rx_prev % 65536] else []
  | _ => []

/-- The low1 samples taken by a sequence of calls, in order. -/
def rx_low1_samples (h : Header) : List Op → Ctx → List Nat
  | [], _ => []
  | op :: ops, c => rx_low1_sample op c ++ rx_low1_samples h ops (rx_op h op c)

/-- The nine statistics indices of `LwRx.h`. -/
def statIndices (h : Header) : List Nat :=
  [h.rx_stat_high_ave, h.rx_stat_high_max, h.rx_stat_high_min,
   h.rx_stat_low0_ave, h.rx_stat_low0_max, h.rx_stat_low0_min,
   h.rx_stat_low1_ave, h.rx_stat_low1_max, h.rx_stat_low1_min]

/-- A call that is not `lwrx_setstatsenable` and, if it is an edge, reads pin level 0
or 1. -/
def statsOp (op : Op) : Prop :=
  match op with
  | Op.edge level _ _ => level ≤ 1
  | Op.setstatsenable _ => False
  | _ => True

/-- The exponential average of the samples `ds` started at `a`, without wrap-around:
`a - floor(a / 16) + d` for each sample in turn. -/
def aveRecurrence (a : Nat) (ds : List Nat) : Nat := ds.foldl (fun a d => a - a / 16 + d) a

/-- Edges that bring the initial decoder into GettingByte and then deliver three low1
samples of 250, 300 and 200 microseconds. -/
def opsLow1 : List Op :=
  [Op.edge 1 10000 10, Op.edge 1 10250 10, Op.edge 1 10500 10,
   Op.edge 1 10750 10, Op.edge 1 11050 11, Op.edge 1 11250 11]

/-- The initial context after `lwrx_setup`. -/
def ctxSetup : Ctx := lwrx_setup hdr0 ctx0

/-- Eleven calls of `lwrx_addpair` with eleven different pairs (first nibble 0, 1, ...,
10). -/
def opsEleven : List Op :=
  (List.range 11).map (fun k => Op.addpair (fun i => if i = 0 then k else 0))

/-- Whether every call of the sequence that completes a candidate while the
message-ready flag is already set completes one whose bytes 2..9 pass the pair
membership test: the candidate is the reception buffer after the call, which message
finalization has copied over the unread message. -/
def rx_overwrites_paired (h : Header) : List Edge → Ctx → Bool
  | [], _ => true
  | e :: es, c =>
    (!(c.rx_msgcomplete && (rx_process_bits_traced h e.level e.curr e.currMillis c).2) ||
      rx_checkPairs (rx_process_bits h e.level e.curr e.currMillis c)
        (fun j => (rx_process_bits h e.level e.curr e.currMillis c).rx_buf (j + 2))) &&
    rx_overwrites_paired h es (rx_process_bits h e.level e.curr e.currMillis c)

/-- The edges of the paired packet received three times in a row. -/
def edgesPairedThrice : List Edge :=
  edgesFrom 0
    (signalEdges (packetEvents pktPaired ++ packetEvents pktPaired ++ packetEvents pktPaired))

/-- A pairing session of 5 units begun by `lwrx_makepair` at millisecond 1000, with the
repeat filter switched off by `lwrx_setfilter` and a candidate in the reception buffer,
followed by an edge that starts a message. -/
def ctxSession : Ctx :=
  rx_calls hdr0 [{ level := 1, curr := 10000, currMillis := 1010 }]
    (lwrx_makepair 5 1000 (lwrx_setfilter 0 20 ctxBuf))

/-! Verified properties -/

/-! Pair membership test -/

theorem rx_checkPairs_inner_iff (row buf : Nat → Nat) (n : Nat) :
    rx_checkPairs_inner row buf n = true ↔ ∀ j, j ≤ n → j ≠ 1 → row j = buf j := by
  induction n with
  | zero =>
    simp only [rx_checkPairs_inner]
    constructor
    · intro hz j hj _
      have hj0 : j = 0 := by omega
      subst hj0
      by_contra hne
      simp [hne] at hz
    · intro hall
      simp [hall 0 (le_refl 0) (by decide)]
  | succ k ih =>
    simp only [rx_checkPairs_inner]
    by_cases hk : k + 1 = 1
    · have hk0 : k = 0 := by omega
      subst hk0
      simp only [ne_eq, not_true_eq_false, ↓reduceIte, ih]
      constructor
      · intro hall j hj hj1
        exact hall j (by omega) hj1
      · intro hall j hj hj1
        exact hall j (by omega) hj1
    · by_cases hr : row (k + 1) = buf (k + 1)
      · simp only [ne_eq, hk, not_false_eq_true, ↓reduceIte, hr, not_true_eq_false, ih]
        constructor
        · intro hall j hj hj1
          by_cases hjk : j = k + 1
          · subst hjk; exact hr
          · exact hall j (by omega) hj1
        · intro hall j hj hj1
          exact hall j (by omega) hj1
      · simp only [ne_eq, hk, not_false_eq_true, ↓reduceIte, hr]
        constructor
        · intro hf; simp at hf
        · intro hall; exact absurd (hall (k + 1) (le_refl _) hk) hr

theorem rx_checkPairs_outer_iff (pairs : Nat → Nat → Nat) (buf : Nat → Nat) (n : Nat) :
    rx_checkPairs_outer pairs buf n = true ↔
      ∃ i, i ≤ n ∧ ∀ j, j < 8 → j ≠ 1 → pairs i j = buf j := by
  have hrow : ∀ i, rx_checkPairs_inner (pairs i) buf 7 = true ↔
      ∀ j, j < 8 → j ≠ 1 → pairs i j = buf j := by
    intro i
    rw [rx_checkPairs_inner_iff]
    constructor
    · intro hall j hj hj1; exact hall j (by omega) hj1
    · intro hall j hj hj1; exact hall j (by omega) hj1
  induction n with
  | zero =>
    simp only [rx_checkPairs_outer, hrow]
    constructor
    · intro hall; exact ⟨0, le_refl 0, hall⟩
    · rintro ⟨i, hi, hall⟩
      have hi0 : i = 0 := by omega
      subst hi0; exact hall
  | succ k ih =>
    simp only [rx_checkPairs_outer]
    by_cases hr : rx_checkPairs_inner (pairs (k + 1)) buf 7 = true
    · simp only [hr, Bool.not_true, Bool.false_eq_true, ↓reduceIte, true_iff]
      exact ⟨k + 1, le_refl _, (hrow (k + 1)).1 hr⟩
    · have hrf : rx_checkPairs_inner (pairs (k + 1)) buf 7 = false := by
        simpa using hr
      simp only [hrf, Bool.not_false, ↓reduceIte, ih]
      constructor
      · rintro ⟨i, hi, hall⟩; exact ⟨i, by omega, hall⟩
      · rintro ⟨i, hi, hall⟩
        by_cases hik : i = k + 1
        · subst hik; exact absurd ((hrow (k + 1)).2 hall) hr
        · exact ⟨i, by omega, hall⟩

/-- Characterisation of the membership test used by every caller. -/
theorem rx_checkPairs_iff (c : Ctx) (buf : Nat → Nat) :
    rx_checkPairs c buf = true ↔
      (c.rx_paircount = 0 ∨
        ∃ i, i < c.rx_paircount ∧ ∀ j, j < 8 → j ≠ 1 → c.rx_pairs i j = buf j) := by
  unfold rx_checkPairs
  by_cases h0 : c.rx_paircount = 0
  · simp [h0]
  · simp only [h0, ↓reduceIte, false_or, rx_checkPairs_outer_iff]
    constructor
    · rintro ⟨i, hi, hall⟩; exact ⟨i, by omega, hall⟩
    · rintro ⟨i, hi, hall⟩; exact ⟨i, by omega, hall⟩

/-- C3 (pair membership): `rx_checkPairs` returns true exactly when the store is empty
or some stored entry `i < count` agrees with the candidate at every index `0..7` other
than index 1; an empty store accepts every candidate and a one-entry store accepts
exactly the candidates agreeing with the entry on indices 0,2,3,4,5,6,7. -/
theorem rx_checkPairs_membership (c : Ctx) (buf : Nat → Nat) :
    (rx_checkPairs c buf = true ↔
      (c.rx_paircount = 0 ∨
        ∃ i, i < c.rx_paircount ∧ ∀ j, j < 8 → j ≠ 1 → c.rx_pairs i j = buf j)) ∧
    (c.rx_paircount = 0 → rx_checkPairs c buf = true) ∧
    (c.rx_paircount = 1 →
      (rx_checkPairs c buf = true ↔ ∀ j, j < 8 → j ≠ 1 → c.rx_pairs 0 j = buf j)) := by
  refine ⟨rx_checkPairs_iff c buf, ?_, ?_⟩
  · intro h0
    exact (rx_checkPairs_iff c buf).2 (Or.inl h0)
  · intro h1
    rw [rx_checkPairs_iff, h1]
    constructor
    · rintro (h | ⟨i, hi, hall⟩)
      · omega
      · have hi0 : i = 0 := by omega
        subst hi0; exact hall
    · intro hall
      exact Or.inr ⟨0, by omega, hall⟩

/-- C3 at a concrete input: an empty store accepts, and the one-entry store holding the
all-zero entry accepts the candidate that differs from it at index 1 only. -/
theorem rx_checkPairs_membership_witness :
    rx_checkPairs ctx0 (fun _ => 7) = true ∧
    (rx_checkPairs { ctx0 with rx_paircount := 1 } (fun j => if j = 1 then 9 else 0) = true ↔
      ∀ j, j < 8 → j ≠ 1 →
        ({ ctx0 with rx_paircount := 1 } : Ctx).rx_pairs 0 j = (fun j => if j = 1 then 9 else 0) j) :=
  ⟨(rx_checkPairs_membership ctx0 (fun _ => 7)).2.1 rfl,
   (rx_checkPairs_membership { ctx0 with rx_paircount := 1 }
      (fun j => if j = 1 then 9 else 0)).2.2 rfl⟩

/-! Nibble codec -/

theorem rx_findNibble_loop_spec (data : Nat) (n : Nat) :
    (rx_findNibble_loop data n = -1 ∧ ∀ k, k ≤ n → rx_nibble.getD k 0 ≠ data) ∨
    (∃ k : Nat, k ≤ n ∧ rx_findNibble_loop data n = (k : Int) ∧ rx_nibble.getD k 0 = data) := by
  induction n with
  | zero =>
    simp only [rx_findNibble_loop]
    by_cases h : rx_nibble.getD 0 0 = data
    · right; exact ⟨0, le_refl 0, by rw [if_pos h]; rfl, h⟩
    · left
      refine ⟨by rw [if_neg h], ?_⟩
      intro k hk
      have : k = 0 := by omega
      subst this; exact h
  | succ m ih =>
    simp only [rx_findNibble_loop]
    by_cases h : rx_nibble.getD (m + 1) 0 = data
    · right; exact ⟨m + 1, le_refl _, by rw [if_pos h], h⟩
    · rw [if_neg h]
      rcases ih with ⟨h1, h2⟩ | ⟨k, hk, h1, h2⟩
      · left
        refine ⟨h1, ?_⟩
        intro k hk
        by_cases hkm : k = m + 1
        · subst hkm; exact h
        · exact h2 k (by omega)
      · right; exact ⟨k, by omega, h1, h2⟩

theorem rx_nibble_mem_iff (b : Nat) :
    b ∈ rx_nibble ↔ ∃ k, k ≤ 15 ∧ rx_nibble.getD k 0 = b := by
  constructor
  · intro h
    simp only [rx_nibble, List.mem_cons, List.mem_singleton, List.not_mem_nil, or_false] at h
    rcases h with h | h | h | h | h | h | h | h | h | h | h | h | h | h | h | h
    all_goals subst h
    exacts [⟨0, by decide, rfl⟩, ⟨1, by decide, rfl⟩, ⟨2, by decide, rfl⟩, ⟨3, by decide, rfl⟩,
      ⟨4, by decide, rfl⟩, ⟨5, by decide, rfl⟩, ⟨6, by decide, rfl⟩, ⟨7, by decide, rfl⟩,
      ⟨8, by decide, rfl⟩, ⟨9, by decide, rfl⟩, ⟨10, by decide, rfl⟩, ⟨11, by decide, rfl⟩,
      ⟨12, by decide, rfl⟩, ⟨13, by decide, rfl⟩, ⟨14, by decide, rfl⟩, ⟨15, by decide, rfl⟩]
  · rintro ⟨k, hk, rfl⟩
    interval_cases k <;> decide

/-- Every call of `rx_findNibble` either returns -1 on a byte outside the table or the
index of the byte in the table. -/
theorem rx_findNibble_cases (b : Nat) :
    (rx_findNibble b = -1 ∧ b ∉ rx_nibble) ∨
    (∃ k : Nat, k ≤ 15 ∧ rx_findNibble b = (k : Int) ∧ rx_nibble.getD k 0 = b) := by
  rcases rx_findNibble_loop_spec b 15 with ⟨h1, h2⟩ | ⟨k, hk, h1, h2⟩
  · left
    refine ⟨h1, ?_⟩
    intro hmem
    obtain ⟨k, hk, hkb⟩ := (rx_nibble_mem_iff b).1 hmem
    exact h2 k hk hkb
  · right; exact ⟨k, hk, h1, h2⟩

theorem rx_findNibble_neg_iff (b : Nat) : rx_findNibble b < 0 ↔ b ∉ rx_nibble := by
  rcases rx_findNibble_cases b with ⟨h1, h2⟩ | ⟨k, hk, h1, h2⟩
  · simp [h1, h2]
  · have hmem : b ∈ rx_nibble := (rx_nibble_mem_iff b).2 ⟨k, hk, h2⟩
    constructor
    · intro hlt; rw [h1] at hlt; omega
    · intro hn; exact absurd hmem hn

/-- C7 (codec is an exact partial inverse): the 16 code words are pairwise distinct;
`rx_findNibble (rx_nibble[n]) = n` for every `n` in `0..15`; whenever
`rx_findNibble b = i` with `i >= 0` then `i <= 15` and `rx_nibble[i] = b`; and a byte
that is not a code word gives -1. -/
theorem rx_findNibble_partial_inverse :
    rx_nibble.length = 16 ∧ rx_nibble.Nodup ∧
    (∀ n, n < 16 → rx_findNibble (rx_nibble.getD n 0) = (n : Int)) ∧
    (∀ (b : Nat) (i : Int), rx_findNibble b = i → 0 ≤ i →
      i ≤ 15 ∧ rx_nibble.getD i.toNat 0 = b) ∧
    (∀ b, b ∉ rx_nibble → rx_findNibble b = -1) := by
  refine ⟨rfl, by decide, by decide, ?_, ?_⟩
  · intro b i hi h0
    rcases rx_findNibble_cases b with ⟨h1, _⟩ | ⟨k, hk, h1, h2⟩
    · rw [h1] at hi; omega
    · rw [h1] at hi
      subst hi
      refine ⟨by omega, ?_⟩
      simpa using h2
  · intro b hb
    rcases rx_findNibble_cases b with ⟨h1, _⟩ | ⟨k, hk, _, h2⟩
    · exact h1
    · exact absurd ((rx_nibble_mem_iff b).2 ⟨k, hk, h2⟩) hb

/-- C7 at concrete inputs: index 3, the code word 0xEB and the byte 0. -/
theorem rx_findNibble_partial_inverse_witness :
    rx_findNibble (rx_nibble.getD 3 0) = 3 ∧
    ((15 : Int) ≤ 15 ∧ rx_nibble.getD (15 : Int).toNat 0 = 0x6F) ∧
    rx_findNibble 0 = -1 :=
  ⟨rx_findNibble_partial_inverse.2.2.1 3 (by decide),
   rx_findNibble_partial_inverse.2.2.2.1 0x6F 15 (by decide) (by decide),
   rx_findNibble_partial_inverse.2.2.2.2 0 (by decide)⟩

/-! Reading a message: `lwrx_getmessage` -/

theorem lwrx_getmessage_body_fst (c : Ctx) (len i : Nat) (ret : Bool) (buf : Nat → Nat) :
    (lwrx_getmessage_body c len i ret buf).1 = true ↔
      ret = true ∧ ¬ lwrx_getmessage_bad c len i := by
  unfold lwrx_getmessage_body lwrx_getmessage_bad
  by_cases hn : c.rx_translate = true ∨ len ≠ rx_msglen
  · by_cases hj : rx_findNibble (c.rx_msg i) < 0
    · simp [hn, hj]
    · simp only [hn, hj, ↓reduceIte, true_and, not_false_eq_true, and_true]
  · simp only [hn, ↓reduceIte, false_and, not_false_eq_true, and_true]

theorem lwrx_getmessage_loop_fst (c : Ctx) (len : Nat) (n : Nat) :
    ∀ (i : Nat) (ret : Bool) (buf : Nat → Nat),
      (lwrx_getmessage_loop c len n i ret buf).1 = true ↔
        ret = true ∧ ∀ k, i ≤ k → k < i + n → k < rx_msglen → ¬ lwrx_getmessage_bad c len k := by
  induction n with
  | zero =>
    intro i ret buf
    simp only [lwrx_getmessage_loop]
    constructor
    · intro h; exact ⟨h, fun k h1 h2 => by omega⟩
    · intro h; exact h.1
  | succ m ih =>
    intro i ret buf
    simp only [lwrx_getmessage_loop]
    by_cases hc : ret = true ∧ i < rx_msglen
    · rw [if_pos hc, ih, lwrx_getmessage_body_fst]
      constructor
      · rintro ⟨⟨hr, hb⟩, hall⟩
        refine ⟨hr, ?_⟩
        intro k h1 h2 h3
        by_cases hk : k = i
        · subst hk; exact hb
        · exact hall k (by omega) (by omega) h3
      · rintro ⟨hr, hall⟩
        exact ⟨⟨hr, hall i (le_refl i) (by omega) hc.2⟩,
          fun k h1 h2 h3 => hall k (by omega) (by omega) h3⟩
    · rw [if_neg hc]
      constructor
      · intro hr
        refine ⟨hr, ?_⟩
        intro k h1 h2 h3
        exact absurd ⟨hr, by omega⟩ hc
      · intro h; exact h.1

theorem lwrx_getmessage_loop_snd (c : Ctx) (len : Nat) (n : Nat) :
    ∀ (i : Nat) (buf : Nat → Nat),
      (∀ k, i ≤ k → k < i + n → k < rx_msglen → ¬ lwrx_getmessage_bad c len k) →
      (lwrx_getmessage_loop c len n i true buf).2 = lwrx_getmessage_writes c len n i buf := by
  induction n with
  | zero => intro i buf _; rfl
  | succ m ih =>
    intro i buf hall
    simp only [lwrx_getmessage_loop, lwrx_getmessage_writes]
    by_cases hc : i < rx_msglen
    · have hb : (lwrx_getmessage_body c len i true buf).1 = true :=
        (lwrx_getmessage_body_fst c len i true buf).2 ⟨rfl, hall i (le_refl i) (by omega) hc⟩
      simp only [hc, and_self, ↓reduceIte, hb]
      exact ih (i + 1) _ (fun k h1 h2 h3 => hall k (by omega) (by omega) h3)
    · simp [hc]

/-- Return value of `lwrx_getmessage` for the three supported lengths. -/
theorem lwrx_getmessage_fst (buf : Nat → Nat) (len : Nat) (c : Ctx)
    (hlen : len = 4 ∨ len = 2 ∨ len = 10) :
    (lwrx_getmessage buf len c).1 = true ↔
      c.rx_msgcomplete = true ∧ ∀ k, k < 10 → ¬ lwrx_getmessage_bad c len k := by
  have hle : len ≤ rx_msglen := by
    rcases hlen with h | h | h <;> subst h <;> decide
  unfold lwrx_getmessage
  by_cases hr : c.rx_msgcomplete = true
  · simp only [hr, hle, and_self, ↓reduceIte, lwrx_getmessage_loop_fst, true_and]
    constructor
    · intro hall k hk; exact hall k (by omega) (by simp [rx_msglen]; omega) hk
    · intro hall k _ _ hk; exact hall k hk
  · simp [hr]


/-- C8 (getMessage failure reporting): for `len` in {4, 2, 10}, `lwrx_getmessage`
returns false exactly when no message is ready, or translation is required (translate
mode on, or `len != 10`) and one of the 10 symbol bytes is not a code word.  When no
message is ready nothing changes; otherwise the only change to the context is that the
message-ready flag is cleared, on a codec failure just as on success. -/
theorem lwrx_getmessage_failure (buf : Nat → Nat) (len : Nat) (c : Ctx)
    (hlen : len = 4 ∨ len = 2 ∨ len = 10) :
    ((lwrx_getmessage buf len c).1 = false ↔
      (c.rx_msgcomplete = false ∨
        ((c.rx_translate = true ∨ len ≠ 10) ∧ ∃ i, i < 10 ∧ c.rx_msg i ∉ rx_nibble))) ∧
    (c.rx_msgcomplete = false → lwrx_getmessage buf len c = (false, buf, c)) ∧
    (c.rx_msgcomplete = true →
      (lwrx_getmessage buf len c).2.2 = { c with rx_msgcomplete := false }) := by
  refine ⟨?_, ?_, ?_⟩
  · rw [← Bool.not_eq_true, lwrx_getmessage_fst buf len c hlen]
    constructor
    · intro hnot
      by_cases hr : c.rx_msgcomplete = true
      · right
        by_contra hgood
        apply hnot
        refine ⟨hr, ?_⟩
        intro k hk hbad
        apply hgood
        exact ⟨hbad.1, k, hk, (rx_findNibble_neg_iff _).1 hbad.2⟩
      · left; simpa using hr
    · rintro (hr | ⟨hn, i, hi, hmem⟩)
      · intro h; rw [hr] at h; exact absurd h.1 (by decide)
      · intro h
        exact h.2 i hi ⟨hn, (rx_findNibble_neg_iff _).2 hmem⟩
  · intro hr
    unfold lwrx_getmessage
    simp [hr]
  · intro hr
    have hle : len ≤ rx_msglen := by
      rcases hlen with h | h | h <;> subst h <;> decide
    unfold lwrx_getmessage
    simp [hr, hle]

/-- C8 at concrete inputs: length 4 on a context with no message ready, and on one
with a ready message. -/
theorem lwrx_getmessage_failure_witness :
    lwrx_getmessage (fun _ => 0) 4 ctx0 = (false, fun _ => 0, ctx0) ∧
    (lwrx_getmessage (fun _ => 0) 4 { ctx0 with rx_msgcomplete := true }).2.2 =
      { ({ ctx0 with rx_msgcomplete := true } : Ctx) with rx_msgcomplete := false } :=
  ⟨(lwrx_getmessage_failure (fun _ => 0) 4 ctx0 (Or.inl rfl)).2.1 rfl,
   (lwrx_getmessage_failure (fun _ => 0) 4 { ctx0 with rx_msgcomplete := true }
      (Or.inl rfl)).2.2 rfl⟩


theorem toByte_natCast (n : Nat) (h : n < 256) : toByte (n : Int) = n := by
  unfold toByte
  omega

theorem lwrx_getmessage_writes4 (c : Ctx) (buf : Nat → Nat) :
    lwrx_getmessage_writes c 4 10 0 buf 0 = toByte (rx_findNibble (c.rx_msg 3)) ∧
    lwrx_getmessage_writes c 4 10 0 buf 1 =
      toByte ((toByte (rx_findNibble (c.rx_msg 0) * 16) : Int) + rx_findNibble (c.rx_msg 1)) ∧
    lwrx_getmessage_writes c 4 10 0 buf 2 = toByte (rx_findNibble (c.rx_msg 9)) ∧
    lwrx_getmessage_writes c 4 10 0 buf 3 = toByte (rx_findNibble (c.rx_msg 2)) := by
  simp [lwrx_getmessage_writes, lwrx_getmessage_body, lwrx_getmessage_store, rx_msglen, aset]

theorem lwrx_getmessage_writes2 (c : Ctx) (buf : Nat → Nat) :
    lwrx_getmessage_writes c 2 10 0 buf 0 = toByte (rx_findNibble (c.rx_msg 3)) ∧
    lwrx_getmessage_writes c 2 10 0 buf 1 =
      toByte ((toByte (rx_findNibble (c.rx_msg 0) * 16) : Int) + rx_findNibble (c.rx_msg 1)) := by
  simp [lwrx_getmessage_writes, lwrx_getmessage_body, lwrx_getmessage_store, rx_msglen, aset]

theorem lwrx_getmessage_writes10 (c : Ctx) (buf : Nat → Nat) (i : Nat) (hi : i < 10) :
    lwrx_getmessage_writes c 10 10 0 buf i =
      if c.rx_translate = true then toByte (rx_findNibble (c.rx_msg i))
      else toByte (c.rx_msg i : Int) := by
  by_cases ht : c.rx_translate = true
  · interval_cases i <;>
      simp [lwrx_getmessage_writes, lwrx_getmessage_body, lwrx_getmessage_store, rx_msglen,
        aset, ht]
  · interval_cases i <;>
      simp [lwrx_getmessage_writes, lwrx_getmessage_body, lwrx_getmessage_store, rx_msglen,
        aset, ht]

/-- Output buffer of a successful `lwrx_getmessage`. -/
theorem lwrx_getmessage_snd (buf : Nat → Nat) (len : Nat) (c : Ctx)
    (hlen : len = 4 ∨ len = 2 ∨ len = 10) (hret : (lwrx_getmessage buf len c).1 = true) :
    (lwrx_getmessage buf len c).2.1 = lwrx_getmessage_writes c len 10 0 buf := by
  have hle : len ≤ rx_msglen := by
    rcases hlen with h | h | h <;> subst h <;> decide
  obtain ⟨hr, hall⟩ := (lwrx_getmessage_fst buf len c hlen).1 hret
  unfold lwrx_getmessage
  simp only [hr, hle, and_self, ↓reduceIte]
  exact lwrx_getmessage_loop_snd c len rx_msglen 0 buf (fun k _ _ hk => hall k hk)

/-- A symbol that `rx_findNibble` finds: its nibble is below 16 and encodes back to
the symbol. -/
theorem rx_findNibble_found (b : Nat) (h : ¬ rx_findNibble b < 0) :
    ∃ n : Nat, n < 16 ∧ rx_findNibble b = (n : Int) ∧ rx_nibble.getD n 0 = b := by
  rcases rx_findNibble_cases b with ⟨h1, _⟩ | ⟨k, hk, h1, h2⟩
  · rw [h1] at h; omega
  · exact ⟨k, by omega, h1, h2⟩

/-- C9 (getMessage output layouts): when a message is ready and `lwrx_getmessage`
returns true, with `len = 10` and translate mode off the output is the 10 raw symbol
bytes; with `len = 10` and translate mode on, `out[i]` is the nibble `n_i` with
`rx_nibble[n_i] = m[i]`; with `len = 4` the output is `n_3, 16*n_0 + n_1, n_9, n_2`;
with `len = 2` it is `n_3, 16*n_0 + n_1`, the first two bytes of the `len = 4`
output. -/
theorem lwrx_getmessage_layouts (buf : Nat → Nat) (c : Ctx) (hready : c.rx_msgcomplete = true)
    (hbyte : ∀ i, i < 10 → c.rx_msg i < 256) :
    (c.rx_translate = false →
      (lwrx_getmessage buf 10 c).1 = true ∧
      ∀ i, i < 10 → (lwrx_getmessage buf 10 c).2.1 i = c.rx_msg i) ∧
    (c.rx_translate = true → (lwrx_getmessage buf 10 c).1 = true →
      ∀ i, i < 10 → (lwrx_getmessage buf 10 c).2.1 i < 16 ∧
        rx_nibble.getD ((lwrx_getmessage buf 10 c).2.1 i) 0 = c.rx_msg i) ∧
    ((lwrx_getmessage buf 4 c).1 = true →
      ∃ n : Nat → Nat, (∀ i, i < 10 → n i < 16 ∧ rx_nibble.getD (n i) 0 = c.rx_msg i) ∧
        (lwrx_getmessage buf 4 c).2.1 0 = n 3 ∧
        (lwrx_getmessage buf 4 c).2.1 1 = 16 * n 0 + n 1 ∧
        (lwrx_getmessage buf 4 c).2.1 2 = n 9 ∧
        (lwrx_getmessage buf 4 c).2.1 3 = n 2) ∧
    ((lwrx_getmessage buf 2 c).1 = true →
      (lwrx_getmessage buf 4 c).1 = true ∧
      (lwrx_getmessage buf 2 c).2.1 0 = (lwrx_getmessage buf 4 c).2.1 0 ∧
      (lwrx_getmessage buf 2 c).2.1 1 = (lwrx_getmessage buf 4 c).2.1 1 ∧
      ∃ n : Nat → Nat, (∀ i, i < 10 → n i < 16 ∧ rx_nibble.getD (n i) 0 = c.rx_msg i) ∧
        (lwrx_getmessage buf 2 c).2.1 0 = n 3 ∧
        (lwrx_getmessage buf 2 c).2.1 1 = 16 * n 0 + n 1) := by
  have hnib : ∀ len, (len = 4 ∨ len = 2 ∨ len = 10) →
      (c.rx_translate = true ∨ len ≠ rx_msglen) →
      (lwrx_getmessage buf len c).1 = true →
      ∀ i, i < 10 → ∃ n : Nat, n < 16 ∧ rx_findNibble (c.rx_msg i) = (n : Int) ∧
        rx_nibble.getD n 0 = c.rx_msg i := by
    intro len hlen hneed hret i hi
    obtain ⟨_, hall⟩ := (lwrx_getmessage_fst buf len c hlen).1 hret
    apply rx_findNibble_found
    intro hneg
    exact hall i hi ⟨hneed, hneg⟩
  have hpack : ∀ a b : Nat, a < 16 → b < 16 →
      toByte ((toByte ((a : Int) * 16) : Int) + (b : Int)) = 16 * a + b := by
    intro a b ha hb
    unfold toByte
    omega
  refine ⟨?_, ?_, ?_, ?_⟩
  · intro ht
    have hret : (lwrx_getmessage buf 10 c).1 = true := by
      rw [lwrx_getmessage_fst buf 10 c (by decide)]
      refine ⟨hready, ?_⟩
      intro k _ hbad
      rcases hbad.1 with h | h
      · rw [ht] at h; exact absurd h (by decide)
      · exact h rfl
    refine ⟨hret, ?_⟩
    intro i hi
    rw [lwrx_getmessage_snd buf 10 c (by decide) hret, lwrx_getmessage_writes10 c buf i hi]
    simp only [ht, Bool.false_eq_true, ↓reduceIte]
    exact toByte_natCast _ (hbyte i hi)
  · intro ht hret i hi
    obtain ⟨n, hn, hf, hback⟩ := hnib 10 (by decide) (Or.inl ht) hret i hi
    rw [lwrx_getmessage_snd buf 10 c (by decide) hret, lwrx_getmessage_writes10 c buf i hi]
    simp only [ht, ↓reduceIte, hf]
    rw [toByte_natCast n (by omega)]
    exact ⟨hn, hback⟩
  · intro hret
    have hn := hnib 4 (by decide) (Or.inr (by decide)) hret
    choose n hn16 hf hback using hn
    refine ⟨fun i => if h : i < 10 then n i h else 0, ?_, ?_⟩
    · intro i hi
      simp only [hi, ↓reduceDIte]
      exact ⟨hn16 i hi, hback i hi⟩
    · rw [lwrx_getmessage_snd buf 4 c (by decide) hret]
      obtain ⟨h0, h1, h2, h3⟩ := lwrx_getmessage_writes4 c buf
      rw [h0, h1, h2, h3, hf 0 (by decide), hf 1 (by decide), hf 2 (by decide),
        hf 3 (by decide), hf 9 (by decide)]
      simp only [Nat.reduceLT, ↓reduceDIte]
      refine ⟨toByte_natCast _ (by have := hn16 3 (by decide); omega),
        hpack _ _ (hn16 0 (by decide)) (hn16 1 (by decide)),
        toByte_natCast _ (by have := hn16 9 (by decide); omega),
        toByte_natCast _ (by have := hn16 2 (by decide); omega)⟩
  · intro hret
    have hret4 : (lwrx_getmessage buf 4 c).1 = true := by
      rw [lwrx_getmessage_fst buf 4 c (by decide)]
      obtain ⟨hr, hall⟩ := (lwrx_getmessage_fst buf 2 c (by decide)).1 hret
      refine ⟨hr, ?_⟩
      intro k hk hbad
      exact hall k hk ⟨Or.inr (by decide), hbad.2⟩
    have hn := hnib 2 (by decide) (Or.inr (by decide)) hret
    choose n hn16 hf hback using hn
    obtain ⟨h0, h1⟩ := lwrx_getmessage_writes2 c buf
    obtain ⟨g0, g1, _, _⟩ := lwrx_getmessage_writes4 c buf
    refine ⟨hret4, ?_, ?_, fun i => if h : i < 10 then n i h else 0, ?_, ?_⟩
    · rw [lwrx_getmessage_snd buf 2 c (by decide) hret,
        lwrx_getmessage_snd buf 4 c (by decide) hret4, h0, g0]
    · rw [lwrx_getmessage_snd buf 2 c (by decide) hret,
        lwrx_getmessage_snd buf 4 c (by decide) hret4, h1, g1]
    · intro i hi
      simp only [hi, ↓reduceDIte]
      exact ⟨hn16 i hi, hback i hi⟩
    · rw [lwrx_getmessage_snd buf 2 c (by decide) hret, h0, h1, hf 0 (by decide),
        hf 1 (by decide), hf 3 (by decide)]
      simp only [Nat.reduceLT, ↓reduceDIte]
      exact ⟨toByte_natCast _ (by have := hn16 3 (by decide); omega),
        hpack _ _ (hn16 0 (by decide)) (hn16 1 (by decide))⟩


/-- C9 at a concrete input: the ready message with nibbles 0..9 read with length 4
and with length 2. -/
theorem lwrx_getmessage_layouts_witness :
    (∃ n : Nat → Nat, (∀ i, i < 10 → n i < 16 ∧ rx_nibble.getD (n i) 0 = ctxReady.rx_msg i) ∧
        (lwrx_getmessage (fun _ => 0) 4 ctxReady).2.1 0 = n 3 ∧
        (lwrx_getmessage (fun _ => 0) 4 ctxReady).2.1 1 = 16 * n 0 + n 1 ∧
        (lwrx_getmessage (fun _ => 0) 4 ctxReady).2.1 2 = n 9 ∧
        (lwrx_getmessage (fun _ => 0) 4 ctxReady).2.1 3 = n 2) ∧
    (∀ i, i < 10 → (lwrx_getmessage (fun _ => 0) 10 ctxReady).2.1 i < 16 ∧
        rx_nibble.getD ((lwrx_getmessage (fun _ => 0) 10 ctxReady).2.1 i) 0 =
          ctxReady.rx_msg i) :=
  ⟨(lwrx_getmessage_layouts (fun _ => 0) ctxReady rfl (by decide)).2.2.1 (by decide),
   (lwrx_getmessage_layouts (fun _ => 0) ctxReady rfl (by decide)).2.1 rfl (by decide)⟩


/-! Pair store: commit and `lwrx_addpair` -/

theorem rx_paircommit_write_get (c : Ctx) (e : Int → Nat) (a : Int) :
    rx_paircommit_write c 8 e a =
      if EEPROMaddr + 1 + 8 * (c.rx_paircount : Int) ≤ a ∧
          a < EEPROMaddr + 1 + 8 * (c.rx_paircount : Int) + 8
      then c.rx_pairs c.rx_paircount (a - (EEPROMaddr + 1 + 8 * (c.rx_paircount : Int))).toNat
      else e a := by
  simp only [rx_paircommit_write, aset, EEPROMaddr]
  split_ifs <;> first | rfl | omega | (congr 1; omega)

theorem rx_paircommit_dup (c : Ctx) (hdup : pairStored c (c.rx_pairs c.rx_paircount)) :
    rx_paircommit c = c := by
  obtain ⟨i, hi, heq⟩ := hdup
  have hck : rx_checkPairs c (c.rx_pairs c.rx_paircount) = true :=
    (rx_checkPairs_iff c _).2 (Or.inr ⟨i, hi, heq⟩)
  have h0 : c.rx_paircount ≠ 0 := by omega
  unfold rx_paircommit
  simp [hck, h0]

theorem rx_paircommit_new (c : Ctx) (hnew : ¬ pairStored c (c.rx_pairs c.rx_paircount)) :
    rx_paircommit c =
      { c with rx_paircount := (c.rx_paircount + 1) % 256,
               eeprom := aset (rx_paircommit_write c 8 c.eeprom) EEPROMaddr
                           ((c.rx_paircount + 1) % 256) } := by
  have hcond : c.rx_paircount = 0 ∨
      (!rx_checkPairs c (c.rx_pairs c.rx_paircount)) = true := by
    by_cases h0 : c.rx_paircount = 0
    · exact Or.inl h0
    · right
      have : ¬ rx_checkPairs c (c.rx_pairs c.rx_paircount) = true := by
        rw [rx_checkPairs_iff]
        rintro (h | ⟨i, hi, heq⟩)
        · exact h0 h
        · exact hnew ⟨i, hi, heq⟩
      simpa using this
  unfold rx_paircommit
  rw [if_pos hcond]
  simp [EEPROMaddr]

theorem lwrx_addpair_loop_get (pairdata : Nat → Nat) (cnt : Nat) (pairs : Nat → Nat → Nat)
    (i j : Nat) :
    lwrx_addpair_loop pairdata cnt 8 pairs i j =
      if i = cnt ∧ j < 8 then rx_nibble.getD (pairdata j) 0 else pairs i j := by
  simp only [lwrx_addpair_loop, aset2, aset]
  by_cases hi : i = cnt
  · subst hi
    by_cases hj : j < 8
    · interval_cases j <;> simp [aset]
    · have h0 : j ≠ 0 := by omega
      have h1 : j ≠ 1 := by omega
      have h2 : j ≠ 2 := by omega
      have h3 : j ≠ 3 := by omega
      have h4 : j ≠ 4 := by omega
      have h5 : j ≠ 5 := by omega
      have h6 : j ≠ 6 := by omega
      have h7 : j ≠ 7 := by omega
      simp [aset, hj, h0, h1, h2, h3, h4, h5, h6, h7]
  · simp [hi]


theorem pairStored_congr (c c1 : Ctx) (cand cand1 : Nat → Nat)
    (hcnt : c1.rx_paircount = c.rx_paircount)
    (hrows : ∀ i, i < c.rx_paircount → ∀ j, j < 8 → c1.rx_pairs i j = c.rx_pairs i j)
    (hcand : ∀ j, j < 8 → cand1 j = cand j) :
    pairStored c1 cand1 ↔ pairStored c cand := by
  unfold pairStored pairEquiv
  rw [hcnt]
  constructor
  · rintro ⟨i, hi, heq⟩
    exact ⟨i, hi, fun j hj hj1 => by rw [← hrows i hi j hj, ← hcand j hj]; exact heq j hj hj1⟩
  · rintro ⟨i, hi, heq⟩
    exact ⟨i, hi, fun j hj hj1 => by rw [hrows i hi j hj, hcand j hj]; exact heq j hj hj1⟩

/-- C10 (addPair): for an 8-value input with values in `0..15`, if the count is below
`rx_maxpairs` and no stored entry is equivalent to the encoded input, `lwrx_addpair`
appends the entry `rx_nibble[input[i]]` at index count, increases the count by 1 and
writes entry and count to the persistent store; otherwise the count, the stored
entries below count and the persistent store are unchanged.  The value returned is the
count after the call. -/
theorem lwrx_addpair_spec (h : Header) (pairdata : Nat → Nat) (c : Ctx)
    (hmax : h.rx_maxpairs ≤ 255) (hdata : ∀ i, i < 8 → pairdata i < 16) :
    ((c.rx_paircount < h.rx_maxpairs ∧
        ¬ pairStored c (fun j => rx_nibble.getD (pairdata j) 0)) →
      (lwrx_addpair h pairdata c).2.rx_paircount = c.rx_paircount + 1 ∧
      (∀ j, j < 8 → (lwrx_addpair h pairdata c).2.rx_pairs c.rx_paircount j =
        rx_nibble.getD (pairdata j) 0) ∧
      (∀ i, i < c.rx_paircount → ∀ j,
        (lwrx_addpair h pairdata c).2.rx_pairs i j = c.rx_pairs i j) ∧
      (lwrx_addpair h pairdata c).2.eeprom EEPROMaddr = c.rx_paircount + 1 ∧
      (∀ j : Nat, j < 8 →
        (lwrx_addpair h pairdata c).2.eeprom
            (EEPROMaddr + 1 + 8 * (c.rx_paircount : Int) + (j : Int)) =
          rx_nibble.getD (pairdata j) 0)) ∧
    (¬ (c.rx_paircount < h.rx_maxpairs ∧
        ¬ pairStored c (fun j => rx_nibble.getD (pairdata j) 0)) →
      (lwrx_addpair h pairdata c).2.rx_paircount = c.rx_paircount ∧
      (∀ i, i < c.rx_paircount → ∀ j,
        (lwrx_addpair h pairdata c).2.rx_pairs i j = c.rx_pairs i j) ∧
      (lwrx_addpair h pairdata c).2.eeprom = c.eeprom) ∧
    (lwrx_addpair h pairdata c).1 = (lwrx_addpair h pairdata c).2.rx_paircount := by
  have _hdata := hdata
  have hst : pairStored
      { c with rx_pairs := lwrx_addpair_loop pairdata c.rx_paircount 8 c.rx_pairs }
      (lwrx_addpair_loop pairdata c.rx_paircount 8 c.rx_pairs c.rx_paircount) ↔
      pairStored c (fun j => rx_nibble.getD (pairdata j) 0) := by
    apply pairStored_congr
    · rfl
    · intro i hi j _
      show lwrx_addpair_loop pairdata c.rx_paircount 8 c.rx_pairs i j = c.rx_pairs i j
      rw [lwrx_addpair_loop_get]
      have : ¬ (i = c.rx_paircount ∧ j < 8) := by omega
      rw [if_neg this]
    · intro j hj
      rw [lwrx_addpair_loop_get]
      simp [hj]
  refine ⟨?_, ?_, rfl⟩
  · rintro ⟨hcap, hnew⟩
    have hnew1 := fun hs => hnew (hst.1 hs)
    have hres : (lwrx_addpair h pairdata c).2 = rx_paircommit
        { c with rx_pairs := lwrx_addpair_loop pairdata c.rx_paircount 8 c.rx_pairs } := by
      unfold lwrx_addpair
      simp [hcap]
    rw [hres, rx_paircommit_new _ hnew1]
    have hmod : (c.rx_paircount + 1) % 256 = c.rx_paircount + 1 := by omega
    refine ⟨hmod, ?_, ?_, ?_, ?_⟩
    · intro j hj
      show lwrx_addpair_loop pairdata c.rx_paircount 8 c.rx_pairs c.rx_paircount j = _
      rw [lwrx_addpair_loop_get]
      simp [hj]
    · intro i hi j
      show lwrx_addpair_loop pairdata c.rx_paircount 8 c.rx_pairs i j = _
      rw [lwrx_addpair_loop_get]
      have : ¬ (i = c.rx_paircount ∧ j < 8) := by omega
      rw [if_neg this]
    · dsimp only
      simp [aset, hmod]
    · intro j hj
      dsimp only
      have hne : EEPROMaddr + 1 + 8 * (c.rx_paircount : Int) + (j : Int) ≠ EEPROMaddr := by
        omega
      simp only [aset, hne, ↓reduceIte]
      rw [rx_paircommit_write_get]
      have hin : EEPROMaddr + 1 + 8 * (c.rx_paircount : Int) ≤
            EEPROMaddr + 1 + 8 * (c.rx_paircount : Int) + (j : Int) ∧
          EEPROMaddr + 1 + 8 * (c.rx_paircount : Int) + (j : Int) <
            EEPROMaddr + 1 + 8 * (c.rx_paircount : Int) + 8 := by omega
      simp only [hin, and_self, ↓reduceIte]
      have hj' : (EEPROMaddr + 1 + 8 * (c.rx_paircount : Int) + (j : Int) -
          (EEPROMaddr + 1 + 8 * (c.rx_paircount : Int))).toNat = j := by omega
      rw [hj']
      show lwrx_addpair_loop pairdata c.rx_paircount 8 c.rx_pairs c.rx_paircount j = _
      rw [lwrx_addpair_loop_get]
      simp [hj]
  · intro hnot
    by_cases hcap : c.rx_paircount < h.rx_maxpairs
    · have hdup : pairStored c (fun j => rx_nibble.getD (pairdata j) 0) := by
        by_contra hn; exact hnot ⟨hcap, hn⟩
      have hres : (lwrx_addpair h pairdata c).2 = rx_paircommit
          { c with rx_pairs := lwrx_addpair_loop pairdata c.rx_paircount 8 c.rx_pairs } := by
        unfold lwrx_addpair
        simp [hcap]
      rw [hres, rx_paircommit_dup _ (hst.2 hdup)]
      refine ⟨rfl, ?_, rfl⟩
      intro i hi j
      show lwrx_addpair_loop pairdata c.rx_paircount 8 c.rx_pairs i j = _
      rw [lwrx_addpair_loop_get]
      have : ¬ (i = c.rx_paircount ∧ j < 8) := by omega
      rw [if_neg this]
    · have hres : (lwrx_addpair h pairdata c).2 = c := by
        unfold lwrx_addpair
        simp [hcap]
      rw [hres]
      exact ⟨rfl, fun _ _ _ => rfl, rfl⟩


/-- C10 at a concrete input: adding the all-zero pair to the empty store of `ctx0`
with capacity 10 gives count 1 and returns it. -/
theorem lwrx_addpair_spec_witness :
    (lwrx_addpair hdr0 (fun _ => 0) ctx0).2.rx_paircount = ctx0.rx_paircount + 1 ∧
    (lwrx_addpair hdr0 (fun _ => 0) ctx0).2.eeprom EEPROMaddr = ctx0.rx_paircount + 1 ∧
    (lwrx_addpair hdr0 (fun _ => 0) ctx0).1 =
      (lwrx_addpair hdr0 (fun _ => 0) ctx0).2.rx_paircount :=
  have hcase := (lwrx_addpair_spec hdr0 (fun _ => 0) ctx0 (by decide) (by decide)).1
    ⟨by decide, fun hs => by
      obtain ⟨i, hi, _⟩ := hs
      exact absurd hi (Nat.not_lt_zero i)⟩
  ⟨hcase.1, hcase.2.2.2.1,
   (lwrx_addpair_spec hdr0 (fun _ => 0) ctx0 (by decide) (by decide)).2.2⟩


/-! Message finalization: repeat filter, pairing capture, pair filter -/

theorem sub32_eq (a b : Nat) (ha : a < 4294967296) (hb : b ≤ a) : sub32 a b = a - b := by
  unfold sub32
  omega

theorem rx_samemsg_loop_neg_iff (msg buf : Nat → Nat) (n : Nat) :
    rx_samemsg_loop msg buf n < 0 ↔ ∀ i, i ≤ n → msg i = buf i := by
  induction n with
  | zero =>
    simp only [rx_samemsg_loop]
    by_cases h : msg 0 = buf 0
    · simp only [h, ↓reduceIte]
      constructor
      · intro _ i hi
        have : i = 0 := by omega
        subst this; exact h
      · intro _; decide
    · simp only [h, ↓reduceIte]
      constructor
      · intro hlt; exact absurd hlt (by decide)
      · intro hall; exact absurd (hall 0 (le_refl 0)) h
  | succ k ih =>
    simp only [rx_samemsg_loop]
    by_cases h : msg (k + 1) = buf (k + 1)
    · simp only [h, ↓reduceIte, ih]
      constructor
      · intro hall i hi
        by_cases hik : i = k + 1
        · subst hik; exact h
        · exact hall i (by omega)
      · intro hall i hi; exact hall i (by omega)
    · simp only [h, ↓reduceIte]
      constructor
      · intro hlt; omega
      · intro hall; exact absurd (hall (k + 1) (le_refl _)) h

/-- The repeat counter after the repeat filter. -/
theorem rx_repeat_filter_count (now : Nat) (c : Ctx) :
    (rx_repeat_filter now c).rx_repeatcount =
      if c.rx_repeats > 0 then
        if sub32 now c.rx_prevpkttime / 100 > c.rx_timeout then 1
        else if ∀ i, i < 10 → c.rx_msg i = c.rx_buf i then (c.rx_repeatcount + 1) % 256
        else 1
      else 0 := by
  have hsame : rx_samemsg_loop c.rx_msg c.rx_buf (rx_msglen - 1) < 0 ↔
      ∀ i, i < 10 → c.rx_msg i = c.rx_buf i := by
    rw [rx_samemsg_loop_neg_iff]
    constructor
    · intro hall i hi; exact hall i (by simp [rx_msglen]; omega)
    · intro hall i hi; exact hall i (by simp [rx_msglen] at hi; omega)
  unfold rx_repeat_filter
  by_cases hr : c.rx_repeats > 0
  · by_cases ht : sub32 now c.rx_prevpkttime / 100 > c.rx_timeout
    · simp [hr, ht]
    · by_cases hs : ∀ i, i < 10 → c.rx_msg i = c.rx_buf i
      · simp only [hr, ht, ↓reduceIte, hsame.2 hs]
        rw [if_pos hs]
      · have hs' : ¬ rx_samemsg_loop c.rx_msg c.rx_buf (rx_msglen - 1) < 0 :=
          fun hlt => hs (hsame.1 hlt)
        simp only [hr, ht, ↓reduceIte, hs']
        rw [if_neg hs]
  · simp [hr]

/-- The repeat filter changes the repeat counter only. -/
theorem rx_repeat_filter_eq (now : Nat) (c : Ctx) :
    rx_repeat_filter now c =
      { c with rx_repeatcount := (rx_repeat_filter now c).rx_repeatcount } := by
  unfold rx_repeat_filter
  dsimp only
  split_ifs <;> rfl

/-- Message finalization is the acceptance step run on the context with the new repeat
counter, the new candidate time and the candidate copied into `rx_msg`. -/
theorem rx_finalize_eq (h : Header) (now : Nat) (c : Ctx) :
    rx_finalize h now c =
      { rx_accept h now (rx_candidate_ctx now c) with rx_state := rx_state_idle } := by
  unfold rx_finalize rx_candidate_ctx
  simp only []
  rw [rx_repeat_filter_eq now c]

theorem rx_checkPairs_congr (c c1 : Ctx) (buf buf1 : Nat → Nat)
    (hcnt : c1.rx_paircount = c.rx_paircount) (hrows : c1.rx_pairs = c.rx_pairs)
    (hbuf : ∀ j, j < 8 → buf1 j = buf j) :
    rx_checkPairs c1 buf1 = rx_checkPairs c buf := by
  rw [Bool.eq_iff_iff, rx_checkPairs_iff, rx_checkPairs_iff, hcnt, hrows]
  constructor
  · rintro (h0 | ⟨i, hi, heq⟩)
    · exact Or.inl h0
    · exact Or.inr ⟨i, hi, fun j hj hj1 => by rw [← hbuf j hj]; exact heq j hj hj1⟩
  · rintro (h0 | ⟨i, hi, heq⟩)
    · exact Or.inl h0
    · exact Or.inr ⟨i, hi, fun j hj hj1 => by rw [hbuf j hj]; exact heq j hj hj1⟩

/-- Acceptance of a candidate that is not eligible: nothing happens. -/
theorem rx_accept_not_eligible (h : Header) (now : Nat) (c : Ctx) (he : ¬ rx_eligible c) :
    rx_accept h now c = c := by
  unfold rx_accept
  rw [if_neg he]

/-- Acceptance of an eligible candidate without pairing session: the pair filter
decides on the flag. -/
theorem rx_accept_no_session (h : Header) (now : Nat) (c : Ctx) (he : rx_eligible c)
    (hs : c.rx_pairtimeout = 0) :
    rx_accept h now c =
      { c with rx_msgcomplete :=
          c.rx_msgcomplete || rx_checkPairs c (fun j => c.rx_msg (j + 2)) } := by
  unfold rx_accept
  rw [if_pos he]
  by_cases hck : rx_checkPairs c (fun j => c.rx_msg (j + 2)) = true
  · simp [hs, hck]
  · have hck' : rx_checkPairs c (fun j => c.rx_msg (j + 2)) = false := by simpa using hck
    simp [hs, hck']

/-- Acceptance of an eligible candidate after the pairing window has expired: as
without session. -/
theorem rx_accept_expired (h : Header) (now : Nat) (c : Ctx) (he : rx_eligible c)
    (hs : c.rx_pairtimeout ≠ 0)
    (hexp : ¬ sub32 now c.rx_pairstarttime / 100 ≤ c.rx_pairtimeout) :
    rx_accept h now c = rx_accept h now { c with rx_pairtimeout := 0 } := by
  have he' : rx_eligible { c with rx_pairtimeout := 0 } := he
  unfold rx_accept
  rw [if_pos he, if_pos he']
  simp [hs, hexp]


/-- The pair store after `memcpy(rx_pairs[rx_paircount], &rx_msg[2], 8)`. -/
theorem rx_addpairfrommsg_cases (h : Header) (c : Ctx) :
    (c.rx_paircount < h.rx_maxpairs ∧ ¬ pairStored c (fun j => c.rx_msg (j + 2)) ∧
      rx_addpairfrommsg h c =
        { c with
          rx_pairs := fun k => if k = c.rx_paircount
                               then memcpy (c.rx_pairs k) (fun j => c.rx_msg (j + 2)) 8
                               else c.rx_pairs k,
          rx_paircount := (c.rx_paircount + 1) % 256,
          eeprom := aset (rx_paircommit_write
              { c with rx_pairs := fun k => if k = c.rx_paircount
                                 then memcpy (c.rx_pairs k) (fun j => c.rx_msg (j + 2)) 8
                                 else c.rx_pairs k } 8 c.eeprom) EEPROMaddr
              ((c.rx_paircount + 1) % 256) }) ∨
    (c.rx_paircount < h.rx_maxpairs ∧ pairStored c (fun j => c.rx_msg (j + 2)) ∧
      rx_addpairfrommsg h c =
        { c with
          rx_pairs := fun k => if k = c.rx_paircount
                               then memcpy (c.rx_pairs k) (fun j => c.rx_msg (j + 2)) 8
                               else c.rx_pairs k }) ∨
    (¬ c.rx_paircount < h.rx_maxpairs ∧ rx_addpairfrommsg h c = c) := by
  by_cases hcap : c.rx_paircount < h.rx_maxpairs
  · have hst : pairStored
        { c with rx_pairs := fun k => if k = c.rx_paircount
                               then memcpy (c.rx_pairs k) (fun j => c.rx_msg (j + 2)) 8
                               else c.rx_pairs k }
        (memcpy (c.rx_pairs c.rx_paircount) (fun j => c.rx_msg (j + 2)) 8) ↔
        pairStored c (fun j => c.rx_msg (j + 2)) := by
      apply pairStored_congr
      · rfl
      · intro i hi j _
        have : i ≠ c.rx_paircount := by omega
        simp [this]
      · intro j hj
        simp [memcpy, hj]
    have hrow : ({ c with rx_pairs := fun k => if k = c.rx_paircount
                               then memcpy (c.rx_pairs k) (fun j => c.rx_msg (j + 2)) 8
                               else c.rx_pairs k } : Ctx).rx_pairs c.rx_paircount =
        memcpy (c.rx_pairs c.rx_paircount) (fun j => c.rx_msg (j + 2)) 8 := by
      simp
    by_cases hdup : pairStored c (fun j => c.rx_msg (j + 2))
    · right; left
      refine ⟨hcap, hdup, ?_⟩
      unfold rx_addpairfrommsg
      rw [if_pos hcap]
      apply rx_paircommit_dup
      show pairStored _ (({ c with rx_pairs := _ } : Ctx).rx_pairs c.rx_paircount)
      rw [hrow]
      exact hst.2 hdup
    · left
      refine ⟨hcap, hdup, ?_⟩
      unfold rx_addpairfrommsg
      rw [if_pos hcap]
      apply rx_paircommit_new
      show ¬ pairStored _ (({ c with rx_pairs := _ } : Ctx).rx_pairs c.rx_paircount)
      rw [hrow]
      exact fun hs => hdup (hst.1 hs)
  · right; right
    refine ⟨hcap, ?_⟩
    unfold rx_addpairfrommsg
    rw [if_neg hcap]

theorem rx_addpairfrommsg_frame (h : Header) (c : Ctx) :
    (rx_addpairfrommsg h c).rx_pairtimeout = c.rx_pairtimeout ∧
    (rx_addpairfrommsg h c).rx_msgcomplete = c.rx_msgcomplete ∧
    (rx_addpairfrommsg h c).rx_msg = c.rx_msg ∧
    (rx_addpairfrommsg h c).rx_repeatcount = c.rx_repeatcount ∧
    (rx_addpairfrommsg h c).rx_prevpkttime = c.rx_prevpkttime := by
  rcases rx_addpairfrommsg_cases h c with ⟨_, _, he⟩ | ⟨_, _, he⟩ | ⟨_, he⟩ <;>
    rw [he] <;> exact ⟨rfl, rfl, rfl, rfl, rfl⟩

/-- Acceptance of an eligible candidate inside the pairing window: the candidate is
captured and the session ended; the flag is not touched. -/
theorem rx_accept_in_window (h : Header) (now : Nat) (c : Ctx) (he : rx_eligible c)
    (hs : c.rx_pairtimeout ≠ 0)
    (hwin : sub32 now c.rx_pairstarttime / 100 ≤ c.rx_pairtimeout) :
    rx_accept h now c = { rx_addpairfrommsg h c with rx_pairtimeout := 0 } := by
  have hpt : (rx_addpairfrommsg h c).rx_pairtimeout ≠ 0 := by
    rw [(rx_addpairfrommsg_frame h c).1]; exact hs
  unfold rx_accept
  rw [if_pos he]
  simp [hs, hwin, hpt]


theorem rx_repeat_filter_repeats (now : Nat) (c : Ctx) :
    (rx_repeat_filter now c).rx_repeats = c.rx_repeats := by
  rw [rx_repeat_filter_eq]

/-- The context on which the acceptance step of a finalization runs is eligible
exactly when the context after the repeat filter is. -/
theorem rx_eligible_candidate (now : Nat) (c : Ctx) :
    rx_eligible (rx_candidate_ctx now c) ↔ rx_eligible (rx_repeat_filter now c) := by
  unfold rx_eligible rx_candidate_ctx
  rw [rx_repeat_filter_repeats]

theorem rx_candidate_msg (now : Nat) (c : Ctx) (j : Nat) (hj : j < 8) :
    (rx_candidate_ctx now c).rx_msg (j + 2) = c.rx_buf (j + 2) := by
  have : j + 2 < rx_msglen := by simp [rx_msglen]; omega
  simp [rx_candidate_ctx, memcpy, this]

theorem pairStored_candidate (now : Nat) (c : Ctx) :
    pairStored (rx_candidate_ctx now c) (fun j => (rx_candidate_ctx now c).rx_msg (j + 2)) ↔
      pairStored c (fun j => c.rx_buf (j + 2)) := by
  apply pairStored_congr
  · rfl
  · intro i _ j _; rfl
  · intro j hj; exact rx_candidate_msg now c j hj

theorem rx_checkPairs_candidate (now : Nat) (c : Ctx) :
    rx_checkPairs (rx_candidate_ctx now c) (fun j => (rx_candidate_ctx now c).rx_msg (j + 2)) =
      rx_checkPairs c (fun j => c.rx_buf (j + 2)) := by
  apply rx_checkPairs_congr
  · rfl
  · rfl
  · intro j hj; exact rx_candidate_msg now c j hj

/-- Message finalization of an eligible candidate in a context whose session variables
hold a timeout `u >= 1` and a start time inside the window: the store gains the
candidate at index count unless an equivalent entry is present or the store is full,
the session is ended and the message-ready flag is left as it was. -/
theorem rx_finalize_capture_fields (h : Header) (now u start : Nat) (c : Ctx)
    (hmax : h.rx_maxpairs ≤ 255) (hu : 1 ≤ u) (hsess : c.rx_pairtimeout = u)
    (hstart : c.rx_pairstarttime = start) (hwin : sub32 now start / 100 ≤ u)
    (helig : rx_eligible (rx_repeat_filter now c)) :
    ((c.rx_paircount < h.rx_maxpairs ∧ ¬ pairStored c (fun j => c.rx_buf (j + 2))) →
      (rx_finalize h now c).rx_paircount = c.rx_paircount + 1 ∧
      (∀ j, j < 8 → (rx_finalize h now c).rx_pairs c.rx_paircount j = c.rx_buf (j + 2)) ∧
      (∀ i, i < c.rx_paircount → ∀ j, (rx_finalize h now c).rx_pairs i j = c.rx_pairs i j)) ∧
    (pairStored c (fun j => c.rx_buf (j + 2)) →
      (rx_finalize h now c).rx_paircount = c.rx_paircount ∧
      (∀ i, i < c.rx_paircount → ∀ j, (rx_finalize h now c).rx_pairs i j = c.rx_pairs i j)) ∧
    (rx_finalize h now c).rx_pairtimeout = 0 ∧
    (rx_finalize h now c).rx_msgcomplete = c.rx_msgcomplete := by
  have hs0 : (rx_candidate_ctx now c).rx_pairtimeout ≠ 0 := by
    show c.rx_pairtimeout ≠ 0
    omega
  have hw : sub32 now (rx_candidate_ctx now c).rx_pairstarttime / 100 ≤
      (rx_candidate_ctx now c).rx_pairtimeout := by
    show sub32 now c.rx_pairstarttime / 100 ≤ c.rx_pairtimeout
    rw [hstart, hsess]; exact hwin
  have hst := pairStored_candidate now c
  have hcnt : (rx_candidate_ctx now c).rx_paircount = c.rx_paircount := rfl
  have hprs : (rx_candidate_ctx now c).rx_pairs = c.rx_pairs := rfl
  have hflag : (rx_candidate_ctx now c).rx_msgcomplete = c.rx_msgcomplete := rfl
  rw [rx_finalize_eq,
    rx_accept_in_window h now _ ((rx_eligible_candidate now c).2 helig) hs0 hw]
  rcases rx_addpairfrommsg_cases h (rx_candidate_ctx now c) with
    ⟨hcap, hnew, he⟩ | ⟨hcap, hdup, he⟩ | ⟨hcap, he⟩
  · rw [he]
    rw [hcnt] at hcap
    refine ⟨?_, ?_, rfl, hflag⟩
    · intro _
      refine ⟨?_, ?_, ?_⟩
      · show ((rx_candidate_ctx now c).rx_paircount + 1) % 256 = c.rx_paircount + 1
        rw [hcnt]; omega
      · intro j hj
        dsimp only
        rw [hcnt, if_pos rfl]
        simp only [memcpy, hj, ↓reduceIte]
        exact rx_candidate_msg now c j hj
      · intro i hi j
        dsimp only
        rw [hcnt, if_neg (by omega), hprs]
    · intro hd
      exact absurd (hst.2 hd) hnew
  · rw [he]
    refine ⟨?_, ?_, rfl, hflag⟩
    · rintro ⟨_, hn⟩
      exact absurd (hst.1 hdup) hn
    · intro _
      refine ⟨hcnt, ?_⟩
      intro i hi j
      dsimp only
      rw [hcnt, if_neg (by omega), hprs]
  · rw [he]
    rw [hcnt] at hcap
    refine ⟨?_, ?_, rfl, hflag⟩
    · rintro ⟨hc, _⟩
      exact absurd hc hcap
    · intro _
      exact ⟨hcnt, fun _ _ _ => by rw [hprs]⟩

/-- The candidate context does not depend on the pairing timeout. -/
theorem rx_candidate_ctx_no_session (now : Nat) (c : Ctx) :
    rx_candidate_ctx now { c with rx_pairtimeout := 0 } =
      { rx_candidate_ctx now c with rx_pairtimeout := 0 } := by
  have hcount0 : (rx_repeat_filter now { c with rx_pairtimeout := 0 }).rx_repeatcount =
      (rx_repeat_filter now c).rx_repeatcount := by
    rw [rx_repeat_filter_count, rx_repeat_filter_count]
  unfold rx_candidate_ctx
  rw [hcount0]

/-- C6 (pairing capture after expiry): a pairing session with timeout `u` is active and
an eligible candidate completes when `(now - start)/100 > u`, the difference being the
32-bit difference `sub32` of the two clock values.  Then the pair store and
the persistent store are unchanged, the session is ended, and finalization gives the
same context as with no session: the flag is raised exactly when bytes 2..9 of the
candidate pass the pair membership test. -/
theorem rx_finalize_pairing_expired (h : Header) (now u start : Nat) (c : Ctx)
    (hu : 1 ≤ u) (hsess : c.rx_pairtimeout = u)
    (hstart : c.rx_pairstarttime = start) (hexp : sub32 now start / 100 > u)
    (helig : rx_eligible (rx_repeat_filter now c)) :
    (rx_finalize h now c).rx_paircount = c.rx_paircount ∧
    (rx_finalize h now c).rx_pairs = c.rx_pairs ∧
    (rx_finalize h now c).eeprom = c.eeprom ∧
    (rx_finalize h now c).rx_pairtimeout = 0 ∧
    rx_finalize h now c = rx_finalize h now { c with rx_pairtimeout := 0 } ∧
    (rx_finalize h now c).rx_msgcomplete =
      (c.rx_msgcomplete || rx_checkPairs c (fun j => c.rx_buf (j + 2))) := by
  have hs0 : (rx_candidate_ctx now c).rx_pairtimeout ≠ 0 := by
    show c.rx_pairtimeout ≠ 0
    omega
  have hx : ¬ sub32 now (rx_candidate_ctx now c).rx_pairstarttime / 100 ≤
      (rx_candidate_ctx now c).rx_pairtimeout := by
    show ¬ sub32 now c.rx_pairstarttime / 100 ≤ c.rx_pairtimeout
    rw [hstart, hsess]; omega
  have he1 := (rx_eligible_candidate now c).2 helig
  have he0 : rx_eligible { rx_candidate_ctx now c with rx_pairtimeout := 0 } := he1
  have hsame : rx_finalize h now c = rx_finalize h now { c with rx_pairtimeout := 0 } := by
    rw [rx_finalize_eq, rx_finalize_eq, rx_candidate_ctx_no_session,
      rx_accept_expired h now _ he1 hs0 hx]
  have hfin : rx_finalize h now c =
      { rx_candidate_ctx now c with
        rx_pairtimeout := 0,
        rx_msgcomplete := c.rx_msgcomplete || rx_checkPairs c (fun j => c.rx_buf (j + 2)),
        rx_state := rx_state_idle } := by
    rw [rx_finalize_eq, rx_accept_expired h now _ he1 hs0 hx,
      rx_accept_no_session h now _ he0 rfl, ← rx_checkPairs_candidate now c]
    rfl
  refine ⟨?_, ?_, ?_, ?_, hsame, ?_⟩
  · rw [hfin]; rfl
  · rw [hfin]; rfl
  · rw [hfin]; rfl
  · rw [hfin]
  · rw [hfin]


/-- Message finalization without pairing session, in one equation. -/
theorem rx_finalize_no_session (h : Header) (now : Nat) (c : Ctx)
    (hs : c.rx_pairtimeout = 0) :
    rx_finalize h now c =
      { rx_candidate_ctx now c with
        rx_msgcomplete := c.rx_msgcomplete ||
          (decide (rx_eligible (rx_repeat_filter now c)) &&
            rx_checkPairs c (fun j => c.rx_buf (j + 2))),
        rx_state := rx_state_idle } := by
  rw [rx_finalize_eq]
  by_cases he : rx_eligible (rx_repeat_filter now c)
  · rw [rx_accept_no_session h now _ ((rx_eligible_candidate now c).2 he) hs,
      rx_checkPairs_candidate]
    simp only [he, decide_True, Bool.true_and]
    rfl
  · rw [rx_accept_not_eligible h now _ (fun h1 => he ((rx_eligible_candidate now c).1 h1))]
    simp only [he, decide_False, Bool.false_and, Bool.or_false]
    rfl

/-- Whether a finalization without pairing session raises the flag. -/
theorem rx_raises_no_session (h : Header) (now : Nat) (c : Ctx) (hs : c.rx_pairtimeout = 0) :
    rx_raises h now c =
      (decide (rx_eligible (rx_repeat_filter now c)) &&
        rx_checkPairs c (fun j => c.rx_buf (j + 2))) := by
  have he : rx_eligible (rx_repeat_filter now { c with rx_msgcomplete := false }) ↔
      rx_eligible (rx_repeat_filter now c) := by
    unfold rx_eligible
    rw [rx_repeat_filter_repeats, rx_repeat_filter_repeats, rx_repeat_filter_count,
      rx_repeat_filter_count]
  have hck : rx_checkPairs { c with rx_msgcomplete := false } (fun j => c.rx_buf (j + 2)) =
      rx_checkPairs c (fun j => c.rx_buf (j + 2)) :=
    rx_checkPairs_congr _ _ _ _ rfl rfl (fun _ _ => rfl)
  unfold rx_raises
  rw [rx_finalize_no_session h now { c with rx_msgcomplete := false } hs]
  simp only [Bool.false_or, he, hck]


/-- Fields of the context after a finalization without pairing session. -/
theorem rx_finalize_no_session_fields (h : Header) (now : Nat) (c : Ctx)
    (hs : c.rx_pairtimeout = 0) :
    (rx_finalize h now c).rx_repeatcount = (rx_repeat_filter now c).rx_repeatcount ∧
    (∀ i, i < 10 → (rx_finalize h now c).rx_msg i = c.rx_buf i) ∧
    (rx_finalize h now c).rx_repeats = c.rx_repeats ∧
    (rx_finalize h now c).rx_pairtimeout = 0 ∧
    (rx_finalize h now c).rx_paircount = c.rx_paircount ∧
    (rx_finalize h now c).rx_prevpkttime = now ∧
    (rx_finalize h now c).rx_timeout = c.rx_timeout := by
  rw [rx_finalize_no_session h now c hs]
  refine ⟨rfl, ?_, rfl, hs, rfl, rfl, rfl⟩
  intro i hi
  have : i < rx_msglen := hi
  simp [rx_candidate_ctx, memcpy, this]

/-- One more identical candidate inside the window: the counter goes up by one and the
flag is raised exactly when the counter reaches the threshold. -/
theorem repeatRun_step (h : Header) (t : Nat) (m : Nat → Nat) (k now : Nat) (r c : Ctx)
    (ht : 1 ≤ t) (hk : k < 255) (hr : repeatRun t m k r) (hsame : filterSame r c)
    (hbuf : ∀ i, i < 10 → c.rx_buf i = m i)
    (hwin : ¬ (sub32 now r.rx_prevpkttime / 100 > r.rx_timeout)) :
    rx_raises h now c = decide (k + 1 = t) ∧ repeatRun t m (k + 1) (rx_finalize h now c) := by
  obtain ⟨hcnt, hmsg, hrep, hpt, hpc⟩ := hr
  obtain ⟨smsg, scnt, sprev, srep, stime, spt, spc⟩ := hsame
  have hs : c.rx_pairtimeout = 0 := by rw [spt]; exact hpt
  have hall : ∀ i, i < 10 → c.rx_msg i = c.rx_buf i := by
    intro i hi; rw [smsg i hi, hmsg i hi, hbuf i hi]
  have hcount : (rx_repeat_filter now c).rx_repeatcount = k + 1 := by
    rw [rx_repeat_filter_count]
    have h1 : c.rx_repeats > 0 := by rw [srep, hrep]; omega
    have h2 : ¬ (sub32 now c.rx_prevpkttime / 100 > c.rx_timeout) := by
      rw [sprev, stime]; exact hwin
    rw [if_pos h1, if_neg h2, if_pos hall, scnt, hcnt]
    omega
  have helig : rx_eligible (rx_repeat_filter now c) ↔ k + 1 = t := by
    unfold rx_eligible
    rw [rx_repeat_filter_repeats, hcount, srep, hrep]
    constructor
    · rintro (h0 | h1)
      · omega
      · exact h1
    · intro h1; exact Or.inr h1
  have hck : rx_checkPairs c (fun j => c.rx_buf (j + 2)) = true :=
    (rx_checkPairs_iff c _).2 (Or.inl (by rw [spc]; exact hpc))
  obtain ⟨f1, f2, f3, f4, f5, _, _⟩ := rx_finalize_no_session_fields h now c hs
  refine ⟨?_, ?_⟩
  · rw [rx_raises_no_session h now c hs, hck, Bool.and_true]
    exact decide_eq_decide.2 helig
  · refine ⟨by rw [f1, hcount], ?_, by rw [f3, srep, hrep], f4, by rw [f5, spc, hpc]⟩
    intro i hi
    rw [f2 i hi, hbuf i hi]

/-- Flags raised along a run of identical candidates that reaches the threshold with
its last candidate. -/
theorem repeatRun_flags (h : Header) (t : Nat) (m : Nat → Nat) (ht : 1 ≤ t) (ht2 : t ≤ 255) :
    ∀ (rest : List (Nat × Ctx)) (k : Nat) (r : Ctx), rest ≠ [] → repeatRun t m k r →
      k + rest.length = t → rx_chain h m r rest →
      rest.map (fun p => rx_raises h p.1 p.2) =
        List.replicate (rest.length - 1) false ++ [true] := by
  intro rest
  induction rest with
  | nil => intro k r hne; exact absurd rfl hne
  | cons p rest ih =>
    intro k r _ hr hlen hchain
    obtain ⟨now, c⟩ := p
    obtain ⟨hsame, hbuf, hwin, hnext⟩ := hchain
    simp only [List.length_cons] at hlen
    obtain ⟨hflag, hr1⟩ := repeatRun_step h t m k now r c ht (by omega) hr hsame hbuf hwin
    by_cases hnil : rest = []
    · subst hnil
      simp only [List.length_nil] at hlen
      simp only [List.map_cons, List.map_nil, hflag, List.length_singleton, Nat.sub_self,
        List.replicate_zero, List.nil_append]
      simp [hlen]
    · have hpos : 0 < rest.length := List.length_pos.2 hnil
      have hih := ih (k + 1) (rx_finalize h now c) hnil hr1 (by omega) hnext
      have hne : ¬ k + 1 = t := by omega
      simp only [List.map_cons, hflag, hih, List.length_cons, Nat.add_sub_cancel]
      have hrep : List.replicate rest.length false =
          false :: List.replicate (rest.length - 1) false := by
        conv_lhs => rw [show rest.length = (rest.length - 1) + 1 by omega]
        rfl
      rw [hrep]
      simp [hne]

/-- C2 (repeat threshold): with threshold `t >= 1`, no pairing session and an empty
pair store, if a completed candidate resets the repeat counter to 1 (it differs from the
stored candidate or arrives after the timeout window) and is followed by `t - 1`
byte-identical candidates, each inside the timeout window of the previous one, then the
message-ready flag is raised by the `t`-th candidate and by none of the first `t - 1`.
With threshold 0 every completed candidate raises the flag. -/
theorem rx_finalize_repeat_threshold (h : Header) :
    (∀ (t now : Nat) (c : Ctx) (rest : List (Nat × Ctx)),
      1 ≤ t → t ≤ 255 → c.rx_repeats = t → c.rx_pairtimeout = 0 → c.rx_paircount = 0 →
      (sub32 now c.rx_prevpkttime / 100 > c.rx_timeout ∨
        ∃ i, i < 10 ∧ c.rx_msg i ≠ c.rx_buf i) →
      rest.length = t - 1 → rx_chain h c.rx_buf (rx_finalize h now c) rest →
      ((now, c) :: rest).map (fun p => rx_raises h p.1 p.2) =
        List.replicate (t - 1) false ++ [true]) ∧
    (∀ (now : Nat) (c : Ctx),
      c.rx_repeats = 0 → c.rx_pairtimeout = 0 → c.rx_paircount = 0 →
      rx_raises h now c = true) := by
  constructor
  · intro t now c rest ht ht2 hrep hs hpc hfirst hlen hchain
    have hcount : (rx_repeat_filter now c).rx_repeatcount = 1 := by
      rw [rx_repeat_filter_count]
      have h1 : c.rx_repeats > 0 := by omega
      rw [if_pos h1]
      rcases hfirst with hlate | ⟨i, hi, hne⟩
      · rw [if_pos hlate]
      · by_cases hlate : sub32 now c.rx_prevpkttime / 100 > c.rx_timeout
        · rw [if_pos hlate]
        · have : ¬ ∀ i, i < 10 → c.rx_msg i = c.rx_buf i := fun hall => hne (hall i hi)
          rw [if_neg hlate, if_neg this]
    have helig : rx_eligible (rx_repeat_filter now c) ↔ 1 = t := by
      unfold rx_eligible
      rw [rx_repeat_filter_repeats, hcount, hrep]
      constructor
      · rintro (h0 | h1)
        · omega
        · exact h1
      · intro h1; exact Or.inr h1
    have hck : rx_checkPairs c (fun j => c.rx_buf (j + 2)) = true :=
      (rx_checkPairs_iff c _).2 (Or.inl hpc)
    have hflag : rx_raises h now c = decide (1 = t) := by
      rw [rx_raises_no_session h now c hs, hck, Bool.and_true]
      exact decide_eq_decide.2 helig
    obtain ⟨f1, f2, f3, f4, f5, _, _⟩ := rx_finalize_no_session_fields h now c hs
    have hr1 : repeatRun t c.rx_buf 1 (rx_finalize h now c) :=
      ⟨by rw [f1, hcount], f2, by rw [f3, hrep], f4, by rw [f5, hpc]⟩
    by_cases hnil : rest = []
    · subst hnil
      simp only [List.length_nil] at hlen
      have ht1 : t = 1 := by omega
      subst ht1
      simp [hflag]
    · have hpos : 0 < rest.length := List.length_pos.2 hnil
      have hfl := repeatRun_flags h t c.rx_buf ht ht2 rest 1 (rx_finalize h now c) hnil hr1
        (by omega) hchain
      have hne : ¬ 1 = t := by omega
      simp only [List.map_cons, hflag, hfl]
      have hrep' : List.replicate (t - 1) false =
          false :: List.replicate (rest.length - 1) false := by
        conv_lhs => rw [show t - 1 = (rest.length - 1) + 1 by omega]
        rfl
      rw [hrep']
      simp [hne]
  · intro now c hrep hs hpc
    have helig : rx_eligible (rx_repeat_filter now c) := by
      unfold rx_eligible
      rw [rx_repeat_filter_repeats]
      exact Or.inl hrep
    have hck : rx_checkPairs c (fun j => c.rx_buf (j + 2)) = true :=
      (rx_checkPairs_iff c _).2 (Or.inl hpc)
    rw [rx_raises_no_session h now c hs, hck, Bool.and_true]
    exact decide_eq_true helig


/-- C2 at a concrete input: threshold 2, a first candidate at millisecond 5000 (after
the window) and the same candidate again at millisecond 5100; and threshold 0. -/
theorem rx_finalize_repeat_threshold_witness :
    [(5000, ctxBuf), (5100, rx_finalize hdr0 5000 ctxBuf)].map
        (fun p => rx_raises hdr0 p.1 p.2) = List.replicate (2 - 1) false ++ [true] ∧
    rx_raises hdr0 5000 { ctxBuf with rx_repeats := 0 } = true :=
  ⟨(rx_finalize_repeat_threshold hdr0).1 2 5000 ctxBuf [(5100, rx_finalize hdr0 5000 ctxBuf)]
      (by decide) (by decide) rfl rfl rfl (Or.inl (by decide)) rfl
      ⟨⟨fun _ _ => rfl, rfl, rfl, rfl, rfl, rfl, rfl⟩, fun _ _ => rfl, by decide, trivial⟩,
   (rx_finalize_repeat_threshold hdr0).2 5000 { ctxBuf with rx_repeats := 0 } rfl rfl rfl⟩

/-- C6 at a concrete input: a session of 5 units begun at millisecond 1000, a candidate
at millisecond 5000. -/
theorem rx_finalize_pairing_expired_witness :
    (rx_finalize hdr0 5000 ctxPairing).rx_paircount = ctxPairing.rx_paircount ∧
    (rx_finalize hdr0 5000 ctxPairing).rx_pairs = ctxPairing.rx_pairs ∧
    (rx_finalize hdr0 5000 ctxPairing).eeprom = ctxPairing.eeprom ∧
    (rx_finalize hdr0 5000 ctxPairing).rx_pairtimeout = 0 ∧
    rx_finalize hdr0 5000 ctxPairing =
      rx_finalize hdr0 5000 { ctxPairing with rx_pairtimeout := 0 } ∧
    (rx_finalize hdr0 5000 ctxPairing).rx_msgcomplete =
      (ctxPairing.rx_msgcomplete ||
        rx_checkPairs ctxPairing (fun j => ctxPairing.rx_buf (j + 2))) :=
  rx_finalize_pairing_expired hdr0 5000 5 1000 ctxPairing (by decide) rfl rfl (by decide)
    (Or.inl rfl)


/-! Visibility of messages -/

/-- The acceptance step raises the flag only on a candidate that passes the pair
membership test. -/
theorem rx_accept_flag (h : Header) (now : Nat) (c : Ctx)
    (hflag : (rx_accept h now c).rx_msgcomplete = true) :
    c.rx_msgcomplete = true ∨
      rx_checkPairs (rx_accept h now c) (fun j => (rx_accept h now c).rx_msg (j + 2)) = true := by
  by_cases he : rx_eligible c
  · by_cases hs : c.rx_pairtimeout = 0
    · rw [rx_accept_no_session h now c he hs] at hflag ⊢
      simp only [Bool.or_eq_true] at hflag
      rcases hflag with hf | hf
      · exact Or.inl hf
      · right
        rw [← hf]
        exact rx_checkPairs_congr _ _ _ _ rfl rfl (fun _ _ => rfl)
    · by_cases hw : sub32 now c.rx_pairstarttime / 100 ≤ c.rx_pairtimeout
      · rw [rx_accept_in_window h now c he hs hw] at hflag
        left
        rw [← (rx_addpairfrommsg_frame h c).2.1]
        exact hflag
      · have he0 : rx_eligible { c with rx_pairtimeout := 0 } := he
        rw [rx_accept_expired h now c he hs hw,
          rx_accept_no_session h now _ he0 rfl] at hflag ⊢
        simp only [Bool.or_eq_true] at hflag
        rcases hflag with hf | hf
        · exact Or.inl hf
        · right
          rw [← hf]
          exact rx_checkPairs_congr _ _ _ _ rfl rfl (fun _ _ => rfl)
  · rw [rx_accept_not_eligible h now c he] at hflag
    exact Or.inl hflag

/-- Message finalization raises the flag only on a candidate that passes the pair
membership test. -/
theorem rx_finalize_flag (h : Header) (now : Nat) (c : Ctx)
    (hflag : (rx_finalize h now c).rx_msgcomplete = true) :
    c.rx_msgcomplete = true ∨
      rx_checkPairs (rx_finalize h now c)
        (fun j => (rx_finalize h now c).rx_msg (j + 2)) = true := by
  rw [rx_finalize_eq] at hflag ⊢
  rcases rx_accept_flag h now (rx_candidate_ctx now c) hflag with hf | hf
  · exact Or.inl hf
  · right
    rw [← hf]
    exact rx_checkPairs_congr _ _ _ _ rfl rfl (fun _ _ => rfl)

theorem rx_getbyte_event_flag (h : Header) (event dur : Nat) (c : Ctx) :
    (rx_getbyte_event h event dur c).rx_msgcomplete = c.rx_msgcomplete := by
  unfold rx_getbyte_event
  dsimp only
  split_ifs <;> rfl

/-- The state machine raises the flag only on a message that passes the pair
membership test. -/
theorem rx_transitions_flag (h : Header) (event dur now : Nat) (c : Ctx)
    (hflag : (rx_transitions h event dur now c).rx_msgcomplete = true) :
    c.rx_msgcomplete = true ∨
      rx_checkPairs (rx_transitions h event dur now c)
        (fun j => (rx_transitions h event dur now c).rx_msg (j + 2)) = true := by
  unfold rx_transitions rx_transitions_traced at hflag ⊢
  dsimp only at hflag ⊢
  split_ifs at hflag ⊢
  all_goals first
    | exact Or.inl hflag
    | (rcases rx_finalize_flag h now _ hflag with hf | hf
       · left
         rw [← rx_getbyte_event_flag h event dur c]
         exact hf
       · exact Or.inr hf)
    | (left
       rw [← rx_getbyte_event_flag h event dur c]
       exact hflag)


/-- C4, counterexample: with one stored pair and no pairing session, after the paired
packet arrived twice (raising the flag) and a packet of another device once, the flag
is still set while bytes 2..9 of `rx_msg` match no stored pair, and `lwrx_getmessage`
hands the reader the packet of the other device (ten nibbles 15). -/
theorem rx_ready_message_not_paired :
    ctxOnePair.rx_paircount = 1 ∧ ctxOnePair.rx_pairtimeout = 0 ∧
    ctxOnePair.rx_msgcomplete = false ∧
    ctxAfterOther.rx_paircount = 1 ∧ ctxAfterOther.rx_pairtimeout = 0 ∧
    (∀ j, j < 8 → ctxAfterOther.rx_pairs 0 j = ctxOnePair.rx_pairs 0 j) ∧
    ctxAfterOther.rx_msgcomplete = true ∧
    rx_checkPairs ctxAfterOther (fun j => ctxAfterOther.rx_msg (j + 2)) = false ∧
    (lwrx_getmessage (fun _ => 0) 10 ctxAfterOther).1 = true ∧
    (∀ i, i < 10 → (lwrx_getmessage (fun _ => 0) 10 ctxAfterOther).2.1 i = 15) := by
  refine ⟨by decide!, by decide!, by decide!, by decide!, by decide!, by decide!, by decide!,
    by decide!, by decide!, by decide!⟩

/-! Packet decoding: the state machine on the canonical event sequence -/

theorem signalEvents_nil : signalEvents [] = [] := rfl

theorem signalEvents_cons_noise (p : Pulse) (ps : List Pulse) (hp : p.event = 2) :
    signalEvents (p :: ps) = signalEvents ps := by
  simp [signalEvents, hp]

theorem signalEvents_cons_signal (p : Pulse) (ps : List Pulse) (hp : p.event ≠ 2) :
    signalEvents (p :: ps) = p.event :: signalEvents ps := by
  simp [signalEvents, hp]

theorem signalEvents_append (ps qs : List Pulse) :
    signalEvents (ps ++ qs) = signalEvents ps ++ signalEvents qs := by
  simp [signalEvents]

/-- A run whose signal events are `A ++ B` splits into a run with signal events `A`
followed by a run with signal events `B`. -/
theorem signalEvents_split (ps : List Pulse) :
    ∀ (A B : List Nat), signalEvents ps = A ++ B →
      ∃ ps1 ps2, ps = ps1 ++ ps2 ∧ signalEvents ps1 = A ∧ signalEvents ps2 = B := by
  induction ps with
  | nil =>
    intro A B hAB
    rw [signalEvents_nil] at hAB
    have hnil := List.append_eq_nil.1 hAB.symm
    exact ⟨[], [], rfl, by rw [hnil.1]; rfl, by rw [hnil.2]; rfl⟩
  | cons p ps ih =>
    intro A B hAB
    by_cases hp : p.event = 2
    · rw [signalEvents_cons_noise p ps hp] at hAB
      obtain ⟨ps1, ps2, h1, h2, h3⟩ := ih A B hAB
      exact ⟨p :: ps1, ps2, by rw [h1]; rfl, by rw [signalEvents_cons_noise p ps1 hp]; exact h2, h3⟩
    · rw [signalEvents_cons_signal p ps hp] at hAB
      cases A with
      | nil =>
        refine ⟨[], p :: ps, rfl, rfl, ?_⟩
        rw [signalEvents_cons_signal p ps hp]
        exact hAB
      | cons a A' =>
        simp only [List.cons_append, List.cons.injEq] at hAB
        obtain ⟨ps1, ps2, h1, h2, h3⟩ := ih A' B hAB.2
        refine ⟨p :: ps1, ps2, by rw [h1]; rfl, ?_, h3⟩
        rw [signalEvents_cons_signal p ps1 hp, h2, hAB.1]

theorem rx_run_append (h : Header) (ps qs : List Pulse) :
    ∀ c, rx_run h (ps ++ qs) c = rx_run h qs (rx_run h ps c) := by
  induction ps with
  | nil => intro c; rfl
  | cons p ps ih => intro c; exact ih _

theorem rx_finals_append (h : Header) (ps qs : List Pulse) :
    ∀ c, rx_finals h (ps ++ qs) c = rx_finals h ps c + rx_finals h qs (rx_run h ps c) := by
  induction ps with
  | nil => intro c; simp [rx_finals, rx_run]
  | cons p ps ih =>
    intro c
    show _ + rx_finals h (ps ++ qs) _ = _ + rx_finals h ps _ + rx_finals h qs (rx_run h ps _)
    rw [ih]
    omega

/-- In the states idle, message start found and byte start found an event-2 edge
changes nothing. -/
theorem rx_traced_noise_waiting (h : Header) (d m : Nat) (c : Ctx)
    (hs : c.rx_state = 0 ∨ c.rx_state = 1 ∨ c.rx_state = 2) :
    rx_transitions_traced h 2 d m c = (c, false) := by
  unfold rx_transitions_traced
  rcases hs with hs | hs | hs <;>
    simp [hs, rx_state_idle, rx_state_msgstartfound, rx_state_bytestartfound]

theorem rx_run_noise_waiting (h : Header) (ps : List Pulse) :
    ∀ c, (c.rx_state = 0 ∨ c.rx_state = 1 ∨ c.rx_state = 2) → signalEvents ps = [] →
      rx_run h ps c = c ∧ rx_finals h ps c = 0 := by
  induction ps with
  | nil => intro c _ _; exact ⟨rfl, rfl⟩
  | cons p ps ih =>
    intro c hs hn
    have hp : p.event = 2 := by
      by_contra hne
      rw [signalEvents_cons_signal p ps hne] at hn
      exact absurd hn (List.cons_ne_nil _ _)
    rw [signalEvents_cons_noise p ps hp] at hn
    have hstep := rx_traced_noise_waiting h p.dur p.currMillis c hs
    have hstep1 : rx_transitions h p.event p.dur p.currMillis c = c := by
      unfold rx_transitions; rw [hp, hstep]
    obtain ⟨h1, h2⟩ := ih c hs hn
    refine ⟨?_, ?_⟩
    · show rx_run h ps (rx_transitions h p.event p.dur p.currMillis c) = c
      rw [hstep1, h1]
    · show (if (rx_transitions_traced h p.event p.dur p.currMillis c).2 then 1 else 0) +
        rx_finals h ps (rx_transitions h p.event p.dur p.currMillis c) = 0
      rw [hstep1, h2, hp, hstep]
      rfl


theorem shiftLeft_one_or_one (x : Nat) : x <<< 1 ||| 1 = 2 * x + 1 := by
  rw [Nat.shiftLeft_eq]
  have hor := Nat.mul_add_lt_is_or (i := 1) (b := 1) (by decide) x
  simp only [pow_one] at hor
  rw [Nat.mul_comm x (2 ^ 1), pow_one, ← hor]

theorem shiftLeft_two_or_two (x : Nat) : x <<< 2 ||| 2 = 4 * x + 2 := by
  rw [Nat.shiftLeft_eq]
  have hor := Nat.mul_add_lt_is_or (i := 2) (b := 2) (by decide) x
  have h4 : (2 : Nat) ^ 2 = 4 := by norm_num
  rw [h4] at hor
  rw [Nat.mul_comm x (2 ^ 2), h4, ← hor]

theorem shiftIn_append (bs : List Bool) :
    ∀ (x : Nat) (cs : List Bool), shiftIn x (bs ++ cs) = shiftIn (shiftIn x bs) cs := by
  induction bs with
  | nil => intro x cs; rfl
  | cons b r ih => intro x cs; exact ih _ cs

theorem shiftIn_eq (bs : List Bool) :
    ∀ x : Nat, shiftIn x bs = x * 2 ^ bs.length + shiftIn 0 bs := by
  induction bs with
  | nil => intro x; simp [shiftIn]
  | cons b r ih =>
    intro x
    simp only [shiftIn, List.length_cons]
    rw [ih (2 * x + _), ih (2 * 0 + _)]
    ring

theorem shiftIn_mod (bs : List Bool) (x : Nat) :
    shiftIn (x % 256) bs % 256 = shiftIn x bs % 256 := by
  rw [shiftIn_eq bs (x % 256), shiftIn_eq bs x, Nat.add_mod, Nat.mul_mod, Nat.mod_mod,
    ← Nat.mul_mod, ← Nat.add_mod]

theorem aset_aset {ι : Type} [DecidableEq ι] (a : ι → Nat) (i : ι) (v w : Nat) :
    aset (aset a i v) i w = aset a i w := by
  funext k
  simp only [aset]
  split_ifs <;> rfl

theorem aset_same {ι : Type} [DecidableEq ι] (a : ι → Nat) (i : ι) (v : Nat) :
    aset a i v i = v := by
  simp [aset]

theorem aset_other {ι : Type} [DecidableEq ι] (a : ι → Nat) (i k : ι) (v : Nat) (hk : k ≠ i) :
    aset a i v k = a k := by
  simp [aset, hk]

/-- Fields of the decoder after the inner switch of the state get-byte, for the events
2, 3 and 5. -/
theorem rx_getbyte_event_fields (h : Header) (d : Nat) (c : Ctx) :
    ((rx_getbyte_event h 2 d c).rx_state = c.rx_state ∧
      (rx_getbyte_event h 2 d c).rx_num_bits = c.rx_num_bits ∧
      (rx_getbyte_event h 2 d c).rx_num_bytes = c.rx_num_bytes ∧
      (rx_getbyte_event h 2 d c).rx_buf = c.rx_buf) ∧
    ((rx_getbyte_event h 3 d c).rx_state = c.rx_state ∧
      (rx_getbyte_event h 3 d c).rx_num_bits = (c.rx_num_bits + 1) % 256 ∧
      (rx_getbyte_event h 3 d c).rx_num_bytes = c.rx_num_bytes ∧
      (rx_getbyte_event h 3 d c).rx_buf =
        aset c.rx_buf c.rx_num_bytes (shiftIn (c.rx_buf c.rx_num_bytes) [true] % 256)) ∧
    ((rx_getbyte_event h 5 d c).rx_state = c.rx_state ∧
      (rx_getbyte_event h 5 d c).rx_num_bits = ((c.rx_num_bits + 1) % 256 + 1) % 256 ∧
      (rx_getbyte_event h 5 d c).rx_num_bytes = c.rx_num_bytes ∧
      (rx_getbyte_event h 5 d c).rx_buf =
        aset c.rx_buf c.rx_num_bytes
          (shiftIn (c.rx_buf c.rx_num_bytes) [true, false] % 256)) := by
  have h1 : ∀ x : Nat, (x <<< 1 ||| 1) % 256 = shiftIn x [true] % 256 := by
    intro x; rw [shiftLeft_one_or_one]; simp [shiftIn]
  have h2 : ∀ x : Nat, (x <<< 2 ||| 2) % 256 = shiftIn x [true, false] % 256 := by
    intro x; rw [shiftLeft_two_or_two]; simp only [shiftIn]; congr 1; simp; ring
  refine ⟨?_, ?_, ?_⟩
  · unfold rx_getbyte_event
    simp only [↓reduceIte]
    split_ifs <;> exact ⟨rfl, rfl, rfl, rfl⟩
  · unfold rx_getbyte_event
    simp only [show (3 : Nat) ≠ 2 by decide, ↓reduceIte, ← h1]
    split_ifs <;> exact ⟨rfl, rfl, rfl, rfl⟩
  · unfold rx_getbyte_event
    simp only [show (5 : Nat) ≠ 2 by decide, show (5 : Nat) ≠ 3 by decide, ↓reduceIte, ← h2]
    split_ifs <;> exact ⟨rfl, rfl, rfl, rfl⟩

/-- The call in the state get-byte, in terms of the context left by the inner
switch. -/
theorem rx_traced_getbyte (h : Header) (e d m : Nat) (c : Ctx) (hs : c.rx_state = 3) :
    rx_transitions_traced h e d m c =
      if (rx_getbyte_event h e d c).rx_num_bits ≥ 8 then
        if ((rx_getbyte_event h e d c).rx_num_bytes + 1) % 256 ≥ 10 then
          (rx_finalize h m
            { rx_getbyte_event h e d c with
              rx_num_bytes := ((rx_getbyte_event h e d c).rx_num_bytes + 1) % 256,
              rx_num_bits := 0 }, true)
        else
          ({ rx_getbyte_event h e d c with
              rx_num_bytes := ((rx_getbyte_event h e d c).rx_num_bytes + 1) % 256,
              rx_num_bits := 0, rx_state := 2 }, false)
      else (rx_getbyte_event h e d c, false) := by
  unfold rx_transitions_traced
  simp only [hs, rx_state_idle, rx_state_msgstartfound, rx_state_bytestartfound,
    rx_state_getbyte, rx_msglen, show (3 : Nat) ≠ 0 by decide, show (3 : Nat) ≠ 1 by decide,
    show (3 : Nat) ≠ 2 by decide, ↓reduceIte]


theorem rx_accept_msg (h : Header) (now : Nat) (c : Ctx) :
    (rx_accept h now c).rx_msg = c.rx_msg := by
  by_cases he : rx_eligible c
  · by_cases hs : c.rx_pairtimeout = 0
    · rw [rx_accept_no_session h now c he hs]
    · by_cases hw : sub32 now c.rx_pairstarttime / 100 ≤ c.rx_pairtimeout
      · rw [rx_accept_in_window h now c he hs hw]
        exact (rx_addpairfrommsg_frame h c).2.2.1
      · have he0 : rx_eligible { c with rx_pairtimeout := 0 } := he
        rw [rx_accept_expired h now c he hs hw, rx_accept_no_session h now _ he0 rfl]
  · rw [rx_accept_not_eligible h now c he]

/-- Message finalization ends in the idle state with the buffer copied to `rx_msg`. -/
theorem rx_finalize_state_msg (h : Header) (now : Nat) (c : Ctx) :
    (rx_finalize h now c).rx_state = 0 ∧
    ∀ i, i < 10 → (rx_finalize h now c).rx_msg i = c.rx_buf i := by
  rw [rx_finalize_eq]
  refine ⟨rfl, ?_⟩
  intro i hi
  show (rx_accept h now (rx_candidate_ctx now c)).rx_msg i = c.rx_buf i
  rw [rx_accept_msg]
  have : i < rx_msglen := hi
  simp [rx_candidate_ctx, memcpy, this]

/-- An event-2 edge in the state get-byte with fewer than 8 bits assembled leaves the
decoder where it is. -/
theorem rx_traced_getbyte_noise (h : Header) (d m : Nat) (c : Ctx) (hs : c.rx_state = 3)
    (hn : c.rx_num_bits < 8) :
    (rx_transitions_traced h 2 d m c).2 = false ∧
    (rx_transitions_traced h 2 d m c).1.rx_state = 3 ∧
    (rx_transitions_traced h 2 d m c).1.rx_num_bits = c.rx_num_bits ∧
    (rx_transitions_traced h 2 d m c).1.rx_num_bytes = c.rx_num_bytes ∧
    (rx_transitions_traced h 2 d m c).1.rx_buf = c.rx_buf := by
  obtain ⟨⟨g1, g2, g3, g4⟩, _, _⟩ := rx_getbyte_event_fields h d c
  have hlt : ¬ (rx_getbyte_event h 2 d c).rx_num_bits ≥ 8 := by rw [g2]; omega
  rw [rx_traced_getbyte h 2 d m c hs, if_neg hlt]
  exact ⟨rfl, by rw [g1, hs], g2, g3, g4⟩

/-- An event 3 (bits `1`) or 5 (bits `1,0`) in the state get-byte: the bits are shifted
into the current byte; with the eighth bit the byte is complete, and with the tenth
byte message finalization runs. -/
theorem rx_traced_bit (h : Header) (t d m : Nat) (c : Ctx) (tb : List Bool)
    (ht : (t = 3 ∧ tb = [true]) ∨ (t = 5 ∧ tb = [true, false]))
    (hs : c.rx_state = 3) (hk : c.rx_num_bytes < 10) :
    (c.rx_num_bits + tb.length < 8 →
      (rx_transitions_traced h t d m c).2 = false ∧
      (rx_transitions_traced h t d m c).1.rx_state = 3 ∧
      (rx_transitions_traced h t d m c).1.rx_num_bits = c.rx_num_bits + tb.length ∧
      (rx_transitions_traced h t d m c).1.rx_num_bytes = c.rx_num_bytes ∧
      (rx_transitions_traced h t d m c).1.rx_buf =
        aset c.rx_buf c.rx_num_bytes (shiftIn (c.rx_buf c.rx_num_bytes) tb % 256)) ∧
    (c.rx_num_bits + tb.length = 8 → c.rx_num_bytes + 1 < 10 →
      (rx_transitions_traced h t d m c).2 = false ∧
      (rx_transitions_traced h t d m c).1.rx_state = 2 ∧
      (rx_transitions_traced h t d m c).1.rx_num_bytes = c.rx_num_bytes + 1 ∧
      (rx_transitions_traced h t d m c).1.rx_buf =
        aset c.rx_buf c.rx_num_bytes (shiftIn (c.rx_buf c.rx_num_bytes) tb % 256)) ∧
    (c.rx_num_bits + tb.length = 8 → c.rx_num_bytes + 1 = 10 →
      (rx_transitions_traced h t d m c).2 = true ∧
      (rx_transitions_traced h t d m c).1.rx_state = 0 ∧
      ∀ i, i < 10 → (rx_transitions_traced h t d m c).1.rx_msg i =
        aset c.rx_buf c.rx_num_bytes (shiftIn (c.rx_buf c.rx_num_bytes) tb % 256) i) := by
  have hg : (rx_getbyte_event h t d c).rx_state = c.rx_state ∧
      (c.rx_num_bits + tb.length ≤ 8 →
        (rx_getbyte_event h t d c).rx_num_bits = c.rx_num_bits + tb.length) ∧
      (rx_getbyte_event h t d c).rx_num_bytes = c.rx_num_bytes ∧
      (rx_getbyte_event h t d c).rx_buf =
        aset c.rx_buf c.rx_num_bytes (shiftIn (c.rx_buf c.rx_num_bytes) tb % 256) := by
    obtain ⟨_, ⟨a1, a2, a3, a4⟩, ⟨b1, b2, b3, b4⟩⟩ := rx_getbyte_event_fields h d c
    rcases ht with ⟨ht, htb⟩ | ⟨ht, htb⟩
    · subst ht; subst htb
      refine ⟨a1, ?_, a3, a4⟩
      intro hle
      rw [a2]
      simp only [List.length_singleton] at hle ⊢
      omega
    · subst ht; subst htb
      refine ⟨b1, ?_, b3, b4⟩
      intro hle
      rw [b2]
      simp only [List.length_cons, List.length_singleton, List.length_nil] at hle ⊢
      omega
  obtain ⟨g1, g2, g3, g4⟩ := hg
  rw [rx_traced_getbyte h t d m c hs]
  refine ⟨?_, ?_, ?_⟩
  · intro hlt
    have hb := g2 (by omega)
    have hnot : ¬ (rx_getbyte_event h t d c).rx_num_bits ≥ 8 := by rw [hb]; omega
    rw [if_neg hnot]
    exact ⟨rfl, by rw [g1, hs], hb, g3, g4⟩
  · intro heq hk1
    have hb := g2 (by omega)
    have hge : (rx_getbyte_event h t d c).rx_num_bits ≥ 8 := by rw [hb]; omega
    have hnot : ¬ ((rx_getbyte_event h t d c).rx_num_bytes + 1) % 256 ≥ 10 := by
      rw [g3]; omega
    rw [if_pos hge, if_neg hnot]
    refine ⟨rfl, rfl, ?_, g4⟩
    show ((rx_getbyte_event h t d c).rx_num_bytes + 1) % 256 = c.rx_num_bytes + 1
    rw [g3]; omega
  · intro heq hk1
    have hb := g2 (by omega)
    have hge : (rx_getbyte_event h t d c).rx_num_bits ≥ 8 := by rw [hb]; omega
    have hlast : ((rx_getbyte_event h t d c).rx_num_bytes + 1) % 256 ≥ 10 := by
      rw [g3]; omega
    rw [if_pos hge, if_pos hlast]
    obtain ⟨f1, f2⟩ := rx_finalize_state_msg h m
      { rx_getbyte_event h t d c with
        rx_num_bytes := ((rx_getbyte_event h t d c).rx_num_bytes + 1) % 256,
        rx_num_bits := 0 }
    refine ⟨rfl, f1, ?_⟩
    intro i hi
    rw [← g4]
    exact f2 i hi


/-- A well-formed non-empty bit string starts with a token: `1` (event 3) or `1,0`
(event 5). -/
theorem bitEvents_cases (bs : List Bool) (hwf : wfBits bs = true) (hne : bs ≠ []) :
    ∃ (t : Nat) (tb rest : List Bool),
      ((t = 3 ∧ tb = [true]) ∨ (t = 5 ∧ tb = [true, false])) ∧ bs = tb ++ rest ∧
      bitEvents bs = t :: bitEvents rest ∧ wfBits rest = true := by
  cases bs with
  | nil => exact absurd rfl hne
  | cons b r =>
    cases b with
    | false => simp [wfBits] at hwf
    | true =>
      cases r with
      | nil => exact ⟨3, [true], [], Or.inl ⟨rfl, rfl⟩, rfl, rfl, rfl⟩
      | cons b2 r2 =>
        cases b2 with
        | false =>
          refine ⟨5, [true, false], r2, Or.inr ⟨rfl, rfl⟩, rfl, ?_, ?_⟩
          · simp [bitEvents]
          · simpa [wfBits] using hwf
        | true =>
          refine ⟨3, [true], true :: r2, Or.inl ⟨rfl, rfl⟩, rfl, ?_, ?_⟩
          · simp [bitEvents]
          · simpa [wfBits] using hwf

theorem rx_finals_prefix_le (h : Header) (pre post : List Pulse) (c : Ctx) :
    rx_finals h pre c ≤ rx_finals h (pre ++ post) c := by
  rw [rx_finals_append]
  omega

/-- Putting one call that does not finalize in front of a run that completes a byte. -/
theorem byteDone_cons (h : Header) (k v : Nat) (c : Ctx) (p : Pulse) (ps : List Pulse)
    (hflag : (rx_transitions_traced h p.event p.dur p.currMillis c).2 = false)
    (hbuf : aset (rx_transitions h p.event p.dur p.currMillis c).rx_buf k v =
      aset c.rx_buf k v)
    (hd : byteDone h k v (rx_transitions h p.event p.dur p.currMillis c) ps) :
    byteDone h k v c (p :: ps) := by
  have hfin : rx_finals h (p :: ps) c =
      rx_finals h ps (rx_transitions h p.event p.dur p.currMillis c) := by
    show (if (rx_transitions_traced h p.event p.dur p.currMillis c).2 then 1 else 0) + _ = _
    rw [hflag]; simp
  refine ⟨?_, ?_⟩
  · intro hk
    obtain ⟨h1, h2, h3, h4⟩ := hd.1 hk
    exact ⟨h1, h2, by rw [← hbuf]; exact h3, by rw [hfin]; exact h4⟩
  · intro hk
    obtain ⟨h1, h2, h3, h4⟩ := hd.2 hk
    refine ⟨h1, ?_, by rw [hfin]; exact h3, ?_⟩
    · intro i hi
      rw [← hbuf]; exact h2 i hi
    · intro pre post hsplit hpost
      cases pre with
      | nil => rfl
      | cons q pre' =>
        simp only [List.cons_append, List.cons.injEq] at hsplit
        obtain ⟨hq, hps⟩ := hsplit
        subst hq
        show (if (rx_transitions_traced h p.event p.dur p.currMillis c).2 then 1 else 0) +
          rx_finals h pre' (rx_transitions h p.event p.dur p.currMillis c) = 0
        rw [hflag, h4 pre' post hps hpost]
        rfl

/-- The call that completes a byte, followed by event-2 edges only. -/
theorem byteDone_last (h : Header) (k v : Nat) (c : Ctx) (p : Pulse) (ps : List Pulse)
    (hnoise : signalEvents ps = [])
    (hmid : k + 1 < 10 →
      (rx_transitions_traced h p.event p.dur p.currMillis c).2 = false ∧
      (rx_transitions_traced h p.event p.dur p.currMillis c).1.rx_state = 2 ∧
      (rx_transitions_traced h p.event p.dur p.currMillis c).1.rx_num_bytes = k + 1 ∧
      (rx_transitions_traced h p.event p.dur p.currMillis c).1.rx_buf = aset c.rx_buf k v)
    (hlast : k + 1 = 10 →
      (rx_transitions_traced h p.event p.dur p.currMillis c).2 = true ∧
      (rx_transitions_traced h p.event p.dur p.currMillis c).1.rx_state = 0 ∧
      ∀ i, i < 10 → (rx_transitions_traced h p.event p.dur p.currMillis c).1.rx_msg i =
        aset c.rx_buf k v i) :
    byteDone h k v c (p :: ps) := by
  have hrun : rx_run h (p :: ps) c =
      rx_run h ps (rx_transitions_traced h p.event p.dur p.currMillis c).1 := rfl
  have hfin : rx_finals h (p :: ps) c =
      (if (rx_transitions_traced h p.event p.dur p.currMillis c).2 then 1 else 0) +
        rx_finals h ps (rx_transitions_traced h p.event p.dur p.currMillis c).1 := rfl
  refine ⟨?_, ?_⟩
  · intro hk
    obtain ⟨h1, h2, h3, h4⟩ := hmid hk
    obtain ⟨r1, r2⟩ := rx_run_noise_waiting h ps _ (Or.inr (Or.inr h2)) hnoise
    rw [hrun, hfin, r1, r2, h1]
    exact ⟨h2, h3, h4, rfl⟩
  · intro hk
    obtain ⟨h1, h2, h3⟩ := hlast hk
    obtain ⟨r1, r2⟩ := rx_run_noise_waiting h ps _ (Or.inl h2) hnoise
    rw [hrun, hfin, r1, r2, h1]
    refine ⟨h2, h3, rfl, ?_⟩
    intro pre post hsplit hpost
    cases pre with
    | nil => rfl
    | cons q pre' =>
      simp only [List.cons_append, List.cons.injEq] at hsplit
      rw [hsplit.2, signalEvents_append] at hnoise
      exact absurd (List.append_eq_nil.1 hnoise).2 hpost


theorem bitEvents_ne_nil (bs : List Bool) (hwf : wfBits bs = true) (hne : bs ≠ []) :
    bitEvents bs ≠ [] := by
  obtain ⟨t, tb, rest, _, _, hev, _⟩ := bitEvents_cases bs hwf hne
  rw [hev]
  exact List.cons_ne_nil _ _

/-- In the state get-byte, a run whose signal events are the events of the bits still
missing completes the byte with those bits shifted in. -/
theorem rx_run_byte_bits (h : Header) (k : Nat) (hk : k < 10) (ps : List Pulse) :
    ∀ (c : Ctx) (bs : List Bool), wfBits bs = true → bs ≠ [] → c.rx_state = 3 →
      c.rx_num_bits + bs.length = 8 → c.rx_num_bytes = k → signalEvents ps = bitEvents bs →
      byteDone h k (shiftIn (c.rx_buf k) bs % 256) c ps := by
  induction ps with
  | nil =>
    intro c bs hwf hne _ _ _ hsig
    exact absurd hsig.symm (bitEvents_ne_nil bs hwf hne)
  | cons p ps ih =>
    intro c bs hwf hne hs hn hbytes hsig
    by_cases hp : p.event = 2
    · rw [signalEvents_cons_noise p ps hp] at hsig
      have hpos : 0 < bs.length := List.length_pos.2 hne
      have hstep := rx_traced_getbyte_noise h p.dur p.currMillis c hs (by omega)
      rw [← hp] at hstep
      obtain ⟨n1, n2, n3, n4, n5⟩ := hstep
      have hih := ih (rx_transitions h p.event p.dur p.currMillis c) bs hwf hne n2
        (by rw [show (rx_transitions h p.event p.dur p.currMillis c).rx_num_bits =
              c.rx_num_bits from n3]; exact hn)
        (by rw [show (rx_transitions h p.event p.dur p.currMillis c).rx_num_bytes =
              c.rx_num_bytes from n4]; exact hbytes) hsig
      have hb : (rx_transitions h p.event p.dur p.currMillis c).rx_buf = c.rx_buf := n5
      rw [hb] at hih
      exact byteDone_cons h k _ c p ps n1 (by rw [hb]) hih
    · rw [signalEvents_cons_signal p ps hp] at hsig
      obtain ⟨t, tb, rest, ht, hbs, hev, hwfr⟩ := bitEvents_cases bs hwf hne
      rw [hev] at hsig
      simp only [List.cons.injEq] at hsig
      obtain ⟨hpt, hsig'⟩ := hsig
      have hkc : c.rx_num_bytes < 10 := by rw [hbytes]; exact hk
      have hstep := rx_traced_bit h t p.dur p.currMillis c tb ht hs hkc
      rw [← hpt, hbytes] at hstep
      obtain ⟨s1, s2, s3⟩ := hstep
      have hlen : bs.length = tb.length + rest.length := by rw [hbs, List.length_append]
      have hval : shiftIn (shiftIn (c.rx_buf k) tb % 256) rest % 256 =
          shiftIn (c.rx_buf k) bs % 256 := by
        rw [shiftIn_mod, hbs, shiftIn_append]
      by_cases hrest : rest = []
      · subst hrest
        simp only [List.length_nil, Nat.add_zero] at hlen
        have hv : shiftIn (c.rx_buf k) bs % 256 = shiftIn (c.rx_buf k) tb % 256 := by
          rw [hbs, List.append_nil]
        rw [hv]
        have hn8 : c.rx_num_bits + tb.length = 8 := by omega
        apply byteDone_last h k _ c p ps hsig'
        · intro hk1
          exact s2 hn8 hk1
        · intro hk1
          exact s3 hn8 hk1
      · have hpos : 0 < rest.length := List.length_pos.2 hrest
        obtain ⟨a1, a2, a3, a4, a5⟩ := s1 (by omega)
        have hih := ih (rx_transitions h p.event p.dur p.currMillis c) rest hwfr hrest a2
          (by rw [show (rx_transitions h p.event p.dur p.currMillis c).rx_num_bits =
                c.rx_num_bits + tb.length from a3]; omega)
          a4 hsig'
        have hb : (rx_transitions h p.event p.dur p.currMillis c).rx_buf =
            aset c.rx_buf k (shiftIn (c.rx_buf k) tb % 256) := a5
        rw [hb, aset_same, hval] at hih
        exact byteDone_cons h k _ c p ps a1 (by rw [hb, aset_aset]) hih


/-- The bits of a byte with no two adjacent zeros: either the top bit is 1 and all
eight bits form a well-formed string, or the top bit is 0 and the other seven do. -/
theorem byteBits_valid :
    ∀ b, b < 256 → validByte b →
      (byteEvents b = 3 :: bitEvents (byteBits b) ∧ wfBits (byteBits b) = true ∧
        shiftIn 0 (byteBits b) = b) ∨
      (byteEvents b = 5 :: bitEvents (byteBits b).tail ∧ wfBits (byteBits b).tail = true ∧
        shiftIn 0 (byteBits b).tail = b) := by
  decide!

/-- The start events in the state byte-start-found. -/
theorem rx_traced_bytestart (h : Header) (d m : Nat) (c : Ctx) (hs : c.rx_state = 2) :
    rx_transitions_traced h 3 d m c = ({ c with rx_state := 3, rx_num_bits := 0 }, false) ∧
    rx_transitions_traced h 5 d m c =
      ({ c with rx_state := 3, rx_num_bits := 1,
                rx_buf := aset c.rx_buf c.rx_num_bytes 0 }, false) := by
  unfold rx_transitions_traced
  simp [hs, rx_state_idle, rx_state_msgstartfound, rx_state_bytestartfound, rx_state_getbyte]

/-- From the state byte-start-found, a run whose signal events are the canonical
events of a byte completes that byte. -/
theorem rx_run_byte (h : Header) (k : Nat) (hk : k < 10) (b : Nat) (hb : validByte b)
    (ps : List Pulse) :
    ∀ c : Ctx, c.rx_state = 2 → c.rx_num_bytes = k → signalEvents ps = byteEvents b →
      byteDone h k b c ps := by
  have hb256 : b < 256 := hb.1
  have hlen8 : (byteBits b).length = 8 := rfl
  have hlen7 : (byteBits b).tail.length = 7 := rfl
  have hne8 : byteBits b ≠ [] := by intro h0; rw [h0] at hlen8; exact absurd hlen8 (by decide)
  have hne7 : (byteBits b).tail ≠ [] := by
    intro h0; rw [h0] at hlen7; exact absurd hlen7 (by decide)
  induction ps with
  | nil =>
    intro c _ _ hsig
    rcases byteBits_valid b hb256 hb with ⟨hev, _, _⟩ | ⟨hev, _, _⟩ <;>
      · rw [hev] at hsig
        exact absurd hsig (List.cons_ne_nil _ _).symm
  | cons p ps ih =>
    intro c hs hbytes hsig
    by_cases hp : p.event = 2
    · rw [signalEvents_cons_noise p ps hp] at hsig
      have hstep : rx_transitions_traced h p.event p.dur p.currMillis c = (c, false) := by
        rw [hp]; exact rx_traced_noise_waiting h p.dur p.currMillis c (Or.inr (Or.inr hs))
      have hc1 : rx_transitions h p.event p.dur p.currMillis c = c := by
        unfold rx_transitions; rw [hstep]
      apply byteDone_cons h k b c p ps (by rw [hstep]) (by rw [hc1])
      rw [hc1]
      exact ih c hs hbytes hsig
    · rw [signalEvents_cons_signal p ps hp] at hsig
      obtain ⟨st3, st5⟩ := rx_traced_bytestart h p.dur p.currMillis c hs
      rcases byteBits_valid b hb256 hb with ⟨hev, hwf, hval⟩ | ⟨hev, hwf, hval⟩
      · rw [hev] at hsig
        simp only [List.cons.injEq] at hsig
        obtain ⟨hpt, hsig'⟩ := hsig
        have st3' : rx_transitions_traced h p.event p.dur p.currMillis c =
            ({ c with rx_state := 3, rx_num_bits := 0 }, false) := by rw [hpt]; exact st3
        have hc1 : rx_transitions h p.event p.dur p.currMillis c =
            { c with rx_state := 3, rx_num_bits := 0 } := by
          unfold rx_transitions; rw [st3']
        have hbits := rx_run_byte_bits h k hk ps { c with rx_state := 3, rx_num_bits := 0 }
          (byteBits b) hwf hne8 rfl (by rw [hlen8]) hbytes hsig'
        have hv : shiftIn (c.rx_buf k) (byteBits b) % 256 = b := by
          rw [shiftIn_eq, hval, hlen8]
          omega
        rw [show ({ c with rx_state := 3, rx_num_bits := 0 } : Ctx).rx_buf k = c.rx_buf k
          from rfl, hv] at hbits
        apply byteDone_cons h k b c p ps (by rw [st3']) (by rw [hc1])
        rw [hc1]
        exact hbits
      · rw [hev] at hsig
        simp only [List.cons.injEq] at hsig
        obtain ⟨hpt, hsig'⟩ := hsig
        have st5' : rx_transitions_traced h p.event p.dur p.currMillis c =
            ({ c with rx_state := 3, rx_num_bits := 1,
                      rx_buf := aset c.rx_buf c.rx_num_bytes 0 }, false) := by
          rw [hpt]; exact st5
        have hc1 : rx_transitions h p.event p.dur p.currMillis c =
            { c with rx_state := 3, rx_num_bits := 1,
                     rx_buf := aset c.rx_buf c.rx_num_bytes 0 } := by
          unfold rx_transitions; rw [st5']
        have hbits := rx_run_byte_bits h k hk ps
          { c with rx_state := 3, rx_num_bits := 1, rx_buf := aset c.rx_buf c.rx_num_bytes 0 }
          (byteBits b).tail hwf hne7 rfl (by rw [hlen7]) hbytes hsig'
        have hv : shiftIn (aset c.rx_buf c.rx_num_bytes 0 k) (byteBits b).tail % 256 = b := by
          rw [hbytes, aset_same, hval]
          omega
        rw [show ({ c with rx_state := 3, rx_num_bits := 1,
                           rx_buf := aset c.rx_buf c.rx_num_bytes 0 } : Ctx).rx_buf k =
              aset c.rx_buf c.rx_num_bytes 0 k from rfl, hv] at hbits
        apply byteDone_cons h k b c p ps (by rw [st5']) (by rw [hc1, hbytes, aset_aset])
        rw [hc1]
        exact hbits


/-- In a waiting state, a run with the single signal event `e`, whose call leads to the
waiting context `c1` without finalizing, ends in `c1`. -/
theorem rx_run_single_waiting (h : Header) (e : Nat) (c1 : Ctx)
    (hc1 : c1.rx_state = 0 ∨ c1.rx_state = 1 ∨ c1.rx_state = 2) (ps : List Pulse) :
    ∀ c : Ctx, (c.rx_state = 0 ∨ c.rx_state = 1 ∨ c.rx_state = 2) →
      (∀ d m, rx_transitions_traced h e d m c = (c1, false)) → signalEvents ps = [e] →
      rx_run h ps c = c1 ∧ rx_finals h ps c = 0 := by
  induction ps with
  | nil => intro c _ _ hsig; exact absurd hsig (List.cons_ne_nil _ _).symm
  | cons p ps ih =>
    intro c hs hstep hsig
    by_cases hp : p.event = 2
    · rw [signalEvents_cons_noise p ps hp] at hsig
      have hn : rx_transitions_traced h p.event p.dur p.currMillis c = (c, false) := by
        rw [hp]; exact rx_traced_noise_waiting h p.dur p.currMillis c hs
      have hcc : rx_transitions h p.event p.dur p.currMillis c = c := by
        unfold rx_transitions; rw [hn]
      obtain ⟨r1, r2⟩ := ih c hs hstep hsig
      refine ⟨?_, ?_⟩
      · show rx_run h ps (rx_transitions h p.event p.dur p.currMillis c) = c1
        rw [hcc, r1]
      · show (if (rx_transitions_traced h p.event p.dur p.currMillis c).2 then 1 else 0) +
          rx_finals h ps (rx_transitions h p.event p.dur p.currMillis c) = 0
        rw [hcc, r2, hn]; rfl
    · rw [signalEvents_cons_signal p ps hp] at hsig
      simp only [List.cons.injEq] at hsig
      obtain ⟨hpe, hrest⟩ := hsig
      have hn : rx_transitions_traced h p.event p.dur p.currMillis c = (c1, false) := by
        rw [hpe]; exact hstep p.dur p.currMillis
      have hcc : rx_transitions h p.event p.dur p.currMillis c = c1 := by
        unfold rx_transitions; rw [hn]
      obtain ⟨r1, r2⟩ := rx_run_noise_waiting h ps c1 hc1 hrest
      refine ⟨?_, ?_⟩
      · show rx_run h ps (rx_transitions h p.event p.dur p.currMillis c) = c1
        rw [hcc, r1]
      · show (if (rx_transitions_traced h p.event p.dur p.currMillis c).2 then 1 else 0) +
          rx_finals h ps (rx_transitions h p.event p.dur p.currMillis c) = 0
        rw [hcc, r2, hn]; rfl

/-- Event 7 in the idle state and event 3 in the state message-start-found. -/
theorem rx_traced_header (h : Header) (d m : Nat) (c : Ctx) :
    (c.rx_state = 0 → rx_transitions_traced h 7 d m c = ({ c with rx_state := 1 }, false)) ∧
    (c.rx_state = 1 → rx_transitions_traced h 3 d m c =
      ({ c with rx_num_bytes := 0, rx_state := 2 }, false)) := by
  constructor
  · intro hs
    unfold rx_transitions_traced
    simp [hs, rx_state_idle, rx_state_msgstartfound]
  · intro hs
    unfold rx_transitions_traced
    simp [hs, rx_state_idle, rx_state_msgstartfound, rx_state_bytestartfound]

/-- From the state byte-start-found with `k` bytes assembled, a run whose signal
events are the canonical events of the remaining bytes ends idle with the message in
`rx_msg`, having finalized once, on the last signal event. -/
theorem rx_run_bytes (h : Header) (bytes : List Nat) :
    ∀ (k : Nat) (ps : List Pulse) (c : Ctx), (∀ b, b ∈ bytes → validByte b) → bytes ≠ [] →
      k + bytes.length = 10 → c.rx_state = 2 → c.rx_num_bytes = k →
      signalEvents ps = bytesEvents bytes →
      (rx_run h ps c).rx_state = 0 ∧
      (∀ i, i < 10 → (rx_run h ps c).rx_msg i =
        if i < k then c.rx_buf i else bytes.getD (i - k) 0) ∧
      rx_finals h ps c = 1 ∧ noEarlyFinal h ps c := by
  induction bytes with
  | nil => intro k ps c _ hne; exact absurd rfl hne
  | cons b rest ih =>
    intro k ps c hvalid _ hlen hs hbytes hsig
    have hb : validByte b := hvalid b (List.mem_cons_self b rest)
    simp only [List.length_cons] at hlen
    by_cases hrest : rest = []
    · subst hrest
      simp only [List.length_nil] at hlen
      have hsig1 : signalEvents ps = byteEvents b := by
        rw [hsig]; simp [bytesEvents]
      obtain ⟨d1, d2, d3, d4⟩ := (rx_run_byte h k (by omega) b hb ps c hs hbytes hsig1).2
        (by omega)
      refine ⟨d1, ?_, d3, d4⟩
      intro i hi
      rw [d2 i hi]
      by_cases hik : i < k
      · rw [if_pos hik, aset_other _ _ _ _ (by omega)]
      · have : i = k := by omega
        subst this
        rw [if_neg hik, aset_same]
        simp
    · have hpos : 0 < rest.length := List.length_pos.2 hrest
      obtain ⟨ps1, ps2, hps, hs1, hs2⟩ := signalEvents_split ps (byteEvents b)
        (bytesEvents rest) hsig
      obtain ⟨d1, d2, d3, d4⟩ := (rx_run_byte h k (by omega) b hb ps1 c hs hbytes hs1).1
        (by omega)
      obtain ⟨e1, e2, e3, e4⟩ := ih (k + 1) ps2 (rx_run h ps1 c)
        (fun x hx => hvalid x (List.mem_cons_of_mem b hx)) hrest (by omega) d1 d2 hs2
      rw [hps, rx_run_append, rx_finals_append]
      refine ⟨e1, ?_, by rw [d4, e3], ?_⟩
      · intro i hi
        rw [e2 i hi, d3]
        by_cases hik : i < k
        · rw [if_pos (by omega), if_pos hik, aset_other _ _ _ _ (by omega)]
        · by_cases hik1 : i = k
          · subst hik1
            rw [if_pos (by omega), if_neg hik, aset_same]
            simp
          · rw [if_neg (by omega), if_neg hik]
            have : i - k = (i - (k + 1)) + 1 := by omega
            rw [this]
            simp
      · intro pre post hsplit hpost
        rcases List.append_eq_append_iff.1 hsplit with ⟨a, ha1, ha2⟩ | ⟨a, ha1, ha2⟩
        · rw [ha1, rx_finals_append, d4, e4 a post ha2 hpost]
        · have hle := rx_finals_prefix_le h pre a c
          rw [← ha1, d4] at hle
          omega


theorem noEarlyFinal_append (h : Header) (ps1 ps2 : List Pulse) (c : Ctx)
    (h1 : rx_finals h ps1 c = 0) (h2 : noEarlyFinal h ps2 (rx_run h ps1 c)) :
    noEarlyFinal h (ps1 ++ ps2) c := by
  intro pre post hsplit hpost
  rcases List.append_eq_append_iff.1 hsplit with ⟨a, ha1, ha2⟩ | ⟨a, ha1, ha2⟩
  · rw [ha1, rx_finals_append, h1, h2 a post ha2 hpost]
  · have hle := rx_finals_prefix_le h pre a c
    rw [← ha1, h1] at hle
    omega

/-- From the idle state, a run whose signal events are the canonical events of a
packet ends idle with the packet in `rx_msg`, having finalized once, on the last
signal event. -/
theorem rx_run_from_idle (h : Header) (c : Ctx) (pkt : List Nat) (ps : List Pulse)
    (hidle : c.rx_state = 0) (hlen : pkt.length = 10) (hvalid : ∀ b, b ∈ pkt → validByte b)
    (hsig : signalEvents ps = packetEvents pkt) :
    (rx_run h ps c).rx_state = 0 ∧
    (∀ i, i < 10 → (rx_run h ps c).rx_msg i = pkt.getD i 0) ∧
    rx_finals h ps c = 1 ∧ noEarlyFinal h ps c := by
  have hne : pkt ≠ [] := by
    intro h0; rw [h0] at hlen; exact absurd hlen (by decide)
  obtain ⟨pA, pR, hps, hsA, hsR⟩ := signalEvents_split ps [7] (3 :: bytesEvents pkt) hsig
  obtain ⟨pB, pC, hpR, hsB, hsC⟩ := signalEvents_split pR [3] (bytesEvents pkt) hsR
  obtain ⟨a1, a2⟩ := rx_run_single_waiting h 7 { c with rx_state := 1 } (Or.inr (Or.inl rfl))
    pA c (Or.inl hidle) (fun d m => (rx_traced_header h d m c).1 hidle) hsA
  obtain ⟨b1, b2⟩ := rx_run_single_waiting h 3
    { ({ c with rx_state := 1 } : Ctx) with rx_num_bytes := 0, rx_state := 2 }
    (Or.inr (Or.inr rfl)) pB { c with rx_state := 1 } (Or.inr (Or.inl rfl))
    (fun d m => (rx_traced_header h d m { c with rx_state := 1 }).2 rfl) hsB
  obtain ⟨e1, e2, e3, e4⟩ := rx_run_bytes h pkt 0 pC
    { ({ c with rx_state := 1 } : Ctx) with rx_num_bytes := 0, rx_state := 2 }
    hvalid hne (by omega) rfl rfl hsC
  have hrunB : rx_run h pR c = rx_run h pC (rx_run h pB c) := by
    rw [hpR, rx_run_append]
  rw [hps, hpR, rx_run_append, rx_run_append, rx_finals_append, rx_finals_append, a1, a2, b1,
    b2, e3]
  refine ⟨e1, ?_, rfl, ?_⟩
  · intro i hi
    rw [e2 i hi, if_neg (Nat.not_lt_zero i), Nat.sub_zero]
  · apply noEarlyFinal_append h pA (pB ++ pC) c a2
    rw [a1]
    apply noEarlyFinal_append h pB pC _ b2
    rw [b1]
    exact e4

/-- The state machine run on the canonical event sequence of a packet, with event-2
edges interleaved: an initial part of the run has finalized once if no canonical event
is still to come, and not at all otherwise. -/
theorem rx_run_canonical (h : Header) (c : Ctx) (pkt : List Nat) (ps : List Pulse)
    (hidle : c.rx_state = 0) (hlen : pkt.length = 10)
    (hvalid : ∀ b, b ∈ pkt → validByte b) (hsig : signalEvents ps = packetEvents pkt) :
    (rx_run h ps c).rx_state = 0 ∧
    (∀ i, i < 10 → (rx_run h ps c).rx_msg i = pkt.getD i 0) ∧
    rx_finals h ps c = 1 ∧
    (∀ pre post, ps = pre ++ post →
      rx_finals h pre c = if signalEvents post = [] then 1 else 0) := by
  obtain ⟨r1, r2, r3, r4⟩ := rx_run_from_idle h c pkt ps hidle hlen hvalid hsig
  refine ⟨r1, r2, r3, ?_⟩
  intro pre post hsplit
  by_cases hpost : signalEvents post = []
  · rw [if_pos hpost]
    have hpre : signalEvents pre = packetEvents pkt := by
      rw [← hsig, hsplit, signalEvents_append, hpost, List.append_nil]
    exact (rx_run_from_idle h c pkt pre hidle hlen hvalid hpre).2.2.1
  · rw [if_neg hpost]
    exact r4 pre post hsplit hpost

theorem rx_getbyte_event_prev (h : Header) (e d p : Nat) (c : Ctx) :
    rx_getbyte_event h e d { c with rx_prev := p } =
      { rx_getbyte_event h e d c with rx_prev := p } := by
  unfold rx_getbyte_event
  dsimp only
  split_ifs <;> rfl

theorem rx_repeat_filter_prev (now p : Nat) (c : Ctx) :
    rx_repeat_filter now { c with rx_prev := p } =
      { rx_repeat_filter now c with rx_prev := p } := by
  unfold rx_repeat_filter
  dsimp only
  split_ifs <;> rfl

theorem rx_paircommit_prev (p : Nat) (c : Ctx) :
    rx_paircommit { c with rx_prev := p } = { rx_paircommit c with rx_prev := p } := by
  have hck : rx_checkPairs { c with rx_prev := p } (c.rx_pairs c.rx_paircount) =
      rx_checkPairs c (c.rx_pairs c.rx_paircount) := rfl
  unfold rx_paircommit
  dsimp only
  rw [hck]
  split_ifs <;> rfl

theorem rx_addpairfrommsg_prev (h : Header) (p : Nat) (c : Ctx) :
    rx_addpairfrommsg h { c with rx_prev := p } =
      { rx_addpairfrommsg h c with rx_prev := p } := by
  unfold rx_addpairfrommsg
  by_cases hcap : c.rx_paircount < h.rx_maxpairs
  · have hcap' : ({ c with rx_prev := p } : Ctx).rx_paircount < h.rx_maxpairs := hcap
    rw [if_pos hcap, if_pos hcap']
    exact rx_paircommit_prev p
      { c with rx_pairs := fun k => if k = c.rx_paircount
                                    then memcpy (c.rx_pairs k) (fun j => c.rx_msg (j + 2)) 8
                                    else c.rx_pairs k }
  · have hcap' : ¬ ({ c with rx_prev := p } : Ctx).rx_paircount < h.rx_maxpairs := hcap
    rw [if_neg hcap, if_neg hcap']

theorem rx_accept_prev (h : Header) (now p : Nat) (c : Ctx) :
    rx_accept h now { c with rx_prev := p } = { rx_accept h now c with rx_prev := p } := by
  have hel : rx_eligible { c with rx_prev := p } ↔ rx_eligible c := Iff.rfl
  by_cases he : rx_eligible c
  · by_cases hs : c.rx_pairtimeout = 0
    · rw [rx_accept_no_session h now c he hs,
        rx_accept_no_session h now { c with rx_prev := p } he hs]
      rfl
    · by_cases hw : sub32 now c.rx_pairstarttime / 100 ≤ c.rx_pairtimeout
      · rw [rx_accept_in_window h now c he hs hw,
          rx_accept_in_window h now { c with rx_prev := p } he hs hw, rx_addpairfrommsg_prev]
      · have he0 : rx_eligible { c with rx_pairtimeout := 0 } := he
        rw [rx_accept_expired h now c he hs hw,
          rx_accept_expired h now { c with rx_prev := p } he hs hw,
          rx_accept_no_session h now { c with rx_pairtimeout := 0 } he0 rfl,
          rx_accept_no_session h now
            { ({ c with rx_prev := p } : Ctx) with rx_pairtimeout := 0 } he0 rfl]
        rfl
  · rw [rx_accept_not_eligible h now c he,
      rx_accept_not_eligible h now { c with rx_prev := p } he]

theorem rx_finalize_prev (h : Header) (now p : Nat) (c : Ctx) :
    rx_finalize h now { c with rx_prev := p } = { rx_finalize h now c with rx_prev := p } := by
  have hcand : rx_candidate_ctx now { c with rx_prev := p } =
      { rx_candidate_ctx now c with rx_prev := p } := by
    have hcount : (rx_repeat_filter now { c with rx_prev := p }).rx_repeatcount =
        (rx_repeat_filter now c).rx_repeatcount := by
      rw [rx_repeat_filter_count, rx_repeat_filter_count]
    unfold rx_candidate_ctx
    rw [hcount]
  rw [rx_finalize_eq, rx_finalize_eq, hcand, rx_accept_prev]

/-- The state machine neither reads nor writes the time stamp `rx_prev`. -/
theorem rx_transitions_traced_prev (h : Header) (e d m p : Nat) (c : Ctx) :
    rx_transitions_traced h e d m { c with rx_prev := p } =
      ({ (rx_transitions_traced h e d m c).1 with rx_prev := p },
        (rx_transitions_traced h e d m c).2) := by
  by_cases h3 : c.rx_state = 3
  · have h3' : ({ c with rx_prev := p } : Ctx).rx_state = 3 := h3
    rw [rx_traced_getbyte h e d m c h3, rx_traced_getbyte h e d m _ h3',
      rx_getbyte_event_prev]
    dsimp only
    split_ifs
    · exact Prod.ext (rx_finalize_prev h m p
        { rx_getbyte_event h e d c with
          rx_num_bytes := ((rx_getbyte_event h e d c).rx_num_bytes + 1) % 256,
          rx_num_bits := 0 }) rfl
    · rfl
    · rfl
  · unfold rx_transitions_traced
    simp only [rx_state_getbyte, h3, ↓reduceIte]
    split_ifs <;> rfl

theorem rx_run_prev (h : Header) (p : Nat) (ps : List Pulse) :
    ∀ c : Ctx, rx_run h ps { c with rx_prev := p } = { rx_run h ps c with rx_prev := p } ∧
      rx_finals h ps { c with rx_prev := p } = rx_finals h ps c := by
  induction ps with
  | nil => intro c; exact ⟨rfl, rfl⟩
  | cons q ps ih =>
    intro c
    have hstep := rx_transitions_traced_prev h q.event q.dur q.currMillis p c
    have hstep1 : rx_transitions h q.event q.dur q.currMillis { c with rx_prev := p } =
        { rx_transitions h q.event q.dur q.currMillis c with rx_prev := p } := by
      unfold rx_transitions; rw [hstep]
    obtain ⟨i1, i2⟩ := ih (rx_transitions h q.event q.dur q.currMillis c)
    refine ⟨?_, ?_⟩
    · show rx_run h ps (rx_transitions h q.event q.dur q.currMillis { c with rx_prev := p }) = _
      rw [hstep1, i1]
      rfl
    · show (if (rx_transitions_traced h q.event q.dur q.currMillis
          { c with rx_prev := p }).2 then 1 else 0) +
          rx_finals h ps (rx_transitions h q.event q.dur q.currMillis { c with rx_prev := p }) =
        (if (rx_transitions_traced h q.event q.dur q.currMillis c).2 then 1 else 0) +
          rx_finals h ps (rx_transitions h q.event q.dur q.currMillis c)
      rw [hstep1, i2, hstep]

/-- A sequence of calls of `rx_process_bits` is the state machine run over the pulses
of the calls, with `rx_prev` set to the time of the last edge. -/
theorem rx_calls_eq_run (h : Header) (es : List Edge) :
    ∀ c : Ctx,
      rx_calls h es c =
        { rx_run h (rx_pulses c.rx_prev es) c with rx_prev := rx_lastcurr c.rx_prev es } ∧
      rx_calls_finals h es c = rx_finals h (rx_pulses c.rx_prev es) c := by
  induction es with
  | nil => intro c; exact ⟨rfl, rfl⟩
  | cons e es ih =>
    intro c
    have hstep := rx_transitions_traced_prev h (rx_event e.level (sub32 e.curr c.rx_prev % 65536))
      (sub32 e.curr c.rx_prev % 65536) e.currMillis e.curr c
    have hpb : rx_process_bits h e.level e.curr e.currMillis c =
        { rx_transitions h (rx_event e.level (sub32 e.curr c.rx_prev % 65536))
            (sub32 e.curr c.rx_prev % 65536) e.currMillis c with rx_prev := e.curr } := by
      show (rx_transitions_traced h _ _ e.currMillis { c with rx_prev := e.curr }).1 = _
      rw [hstep]
      rfl
    have hflag : (rx_process_bits_traced h e.level e.curr e.currMillis c).2 =
        (rx_transitions_traced h (rx_event e.level (sub32 e.curr c.rx_prev % 65536))
          (sub32 e.curr c.rx_prev % 65536) e.currMillis c).2 := by
      show (rx_transitions_traced h _ _ e.currMillis { c with rx_prev := e.curr }).2 = _
      rw [hstep]
    obtain ⟨i1, i2⟩ := ih (rx_process_bits h e.level e.curr e.currMillis c)
    have hprev : (rx_process_bits h e.level e.curr e.currMillis c).rx_prev = e.curr := by
      rw [hpb]
    rw [hprev] at i1 i2
    obtain ⟨j1, j2⟩ := rx_run_prev h e.curr (rx_pulses e.curr es)
      (rx_transitions h (rx_event e.level (sub32 e.curr c.rx_prev % 65536))
        (sub32 e.curr c.rx_prev % 65536) e.currMillis c)
    refine ⟨?_, ?_⟩
    · show rx_calls h es (rx_process_bits h e.level e.curr e.currMillis c) = _
      rw [i1, hpb, j1]
      rfl
    · show (if (rx_process_bits_traced h e.level e.curr e.currMillis c).2 then 1 else 0) +
        rx_calls_finals h es (rx_process_bits h e.level e.curr e.currMillis c) = _
      rw [i2, hpb, j2, hflag]
      rfl

theorem rx_pulses_append (pre post : List Edge) :
    ∀ prev : Nat, rx_pulses prev (pre ++ post) =
      rx_pulses prev pre ++ rx_pulses (rx_lastcurr prev pre) post := by
  induction pre with
  | nil => intro prev; rfl
  | cons e pre ih =>
    intro prev
    show _ :: rx_pulses e.curr (pre ++ post) = _ :: (rx_pulses e.curr pre ++ _)
    rw [ih e.curr]
    rfl

/-- C1 (packet decode): for every 10-byte packet whose bytes contain no two adjacent
zero bits and every context in the idle state (whatever the stale contents of
`rx_buf`, `rx_num_bits`, `rx_num_bytes`), a sequence of calls of `rx_process_bits`
whose event codes are the canonical event sequence of the packet, with any number of
event-2 edges interleaved, ends in the idle state with `rx_msg` equal to the packet,
and message finalization runs exactly once, on the last canonical event: an initial
part of the calls has run it once if it holds the whole canonical sequence and not at
all otherwise. -/
theorem rx_process_bits_decodes_packet (h : Header) (c : Ctx) (pkt : List Nat)
    (es : List Edge) (hidle : c.rx_state = rx_state_idle) (hlen : pkt.length = 10)
    (hvalid : ∀ b, b ∈ pkt → validByte b)
    (hsig : signalEvents (rx_pulses c.rx_prev es) = packetEvents pkt) :
    (rx_calls h es c).rx_state = rx_state_idle ∧
    (∀ i, i < 10 → (rx_calls h es c).rx_msg i = pkt.getD i 0) ∧
    rx_calls_finals h es c = 1 ∧
    (∀ pre post, es = pre ++ post →
      rx_calls_finals h pre c =
        if signalEvents (rx_pulses c.rx_prev pre) = packetEvents pkt then 1 else 0) := by
  obtain ⟨r1, r2, r3, r4⟩ := rx_run_canonical h c pkt (rx_pulses c.rx_prev es) hidle hlen
    hvalid hsig
  obtain ⟨t1, t2⟩ := rx_calls_eq_run h es c
  refine ⟨?_, ?_, ?_, ?_⟩
  · rw [t1]; exact r1
  · intro i hi
    rw [t1]; exact r2 i hi
  · rw [t2]; exact r3
  · intro pre post hsplit
    rw [(rx_calls_eq_run h pre c).2,
      r4 (rx_pulses c.rx_prev pre) (rx_pulses (rx_lastcurr c.rx_prev pre) post)
        (by rw [hsplit, rx_pulses_append])]
    have hall : signalEvents (rx_pulses c.rx_prev pre) ++
        signalEvents (rx_pulses (rx_lastcurr c.rx_prev pre) post) = packetEvents pkt := by
      rw [← signalEvents_append, ← rx_pulses_append, ← hsplit]; exact hsig
    by_cases hpost : signalEvents (rx_pulses (rx_lastcurr c.rx_prev pre) post) = []
    · rw [if_pos hpost, if_pos (by rw [← hall, hpost, List.append_nil])]
    · rw [if_neg hpost, if_neg]
      intro hpre
      rw [hpre] at hall
      exact hpost (List.append_right_eq_self.1 hall)

/-- C1 at a concrete input: the edges of the signal of the packet `pktPaired`, with a
falling edge (event 2) before every canonical event, fed to the initial context. -/
theorem rx_process_bits_decodes_packet_witness :
    (rx_calls hdr0 (edgesFrom 0 (signalEdges (packetEvents pktPaired))) ctx0).rx_state =
      rx_state_idle ∧
    (∀ i, i < 10 →
      (rx_calls hdr0 (edgesFrom 0 (signalEdges (packetEvents pktPaired))) ctx0).rx_msg i =
        pktPaired.getD i 0) ∧
    rx_calls_finals hdr0 (edgesFrom 0 (signalEdges (packetEvents pktPaired))) ctx0 = 1 ∧
    (∀ pre post, edgesFrom 0 (signalEdges (packetEvents pktPaired)) = pre ++ post →
      rx_calls_finals hdr0 pre ctx0 =
        if signalEvents (rx_pulses ctx0.rx_prev pre) = packetEvents pktPaired then 1 else 0) :=
  rx_process_bits_decodes_packet hdr0 ctx0 pktPaired
    (edgesFrom 0 (signalEdges (packetEvents pktPaired))) rfl rfl (by decide!) (by decide!)


/-! Pulse classifier -/

/-- C14 (classifier buckets): for a pin level in {0,1} and a 16-bit duration the event
code computed at the top of `rx_process_bits` is `level` below 120, `level + 2` in
120..499, `level + 4` in 500..1999, 8 in 2000..5000 and `level + 6` above 5000; it is
at most 8, code 8 arises only in the bucket 2000..5000 and never as a sum of level and
bucket, and the state machine of `rx_process_bits` is entered with the code of the
level and the duration, whatever else the context holds. -/
theorem rx_event_buckets (level dur : Nat) (hl : level ≤ 1) (hd : dur < 65536) :
    (dur < 120 → rx_event level dur = level) ∧
    (120 ≤ dur ∧ dur ≤ 499 → rx_event level dur = level + 2) ∧
    (500 ≤ dur ∧ dur ≤ 1999 → rx_event level dur = level + 4) ∧
    (2000 ≤ dur ∧ dur ≤ 5000 → rx_event level dur = 8) ∧
    (5000 < dur → rx_event level dur = level + 6) ∧
    rx_event level dur ≤ 8 ∧
    (rx_event level dur = 8 → 2000 ≤ dur ∧ dur ≤ 5000) ∧
    (level ≠ 8 ∧ level + 2 ≠ 8 ∧ level + 4 ≠ 8 ∧ level + 6 ≠ 8) ∧
    (∀ (h : Header) (curr currMillis : Nat) (c : Ctx),
      sub32 curr c.rx_prev % 65536 = dur →
      rx_process_bits h level curr currMillis c =
        rx_transitions h (rx_event level dur) dur currMillis { c with rx_prev := curr }) := by
  have _hd := hd
  refine ⟨?_, ?_, ?_, ?_, ?_, ?_, ?_, ?_, ?_⟩
  · intro h1
    unfold rx_event
    rw [if_pos h1]
  · rintro ⟨h1, h2⟩
    unfold rx_event
    rw [if_neg (by omega), if_pos (by omega)]
    omega
  · rintro ⟨h1, h2⟩
    unfold rx_event
    rw [if_neg (by omega), if_neg (by omega), if_pos (by omega)]
    omega
  · rintro ⟨h1, h2⟩
    unfold rx_event
    rw [if_neg (by omega), if_neg (by omega), if_neg (by omega), if_neg (by omega)]
  · intro h1
    unfold rx_event
    rw [if_neg (by omega), if_neg (by omega), if_neg (by omega), if_pos (by omega)]
    omega
  · unfold rx_event
    split_ifs <;> omega
  · unfold rx_event
    split_ifs <;> omega
  · omega
  · intro h curr currMillis c hdur
    unfold rx_process_bits
    simp only [hdur]

/-- C14 at concrete inputs: level 1 with durations 100, 250, 1250, 3000 and 10000. -/
theorem rx_event_buckets_witness :
    rx_event 1 100 = 1 ∧ rx_event 1 250 = 1 + 2 ∧ rx_event 1 1250 = 1 + 4 ∧
    rx_event 1 3000 = 8 ∧ rx_event 1 10000 = 1 + 6 :=
  ⟨(rx_event_buckets 1 100 (by decide) (by decide)).1 (by decide),
   (rx_event_buckets 1 250 (by decide) (by decide)).2.1 (by decide),
   (rx_event_buckets 1 1250 (by decide) (by decide)).2.2.1 (by decide),
   (rx_event_buckets 1 3000 (by decide) (by decide)).2.2.2.1 (by decide),
   (rx_event_buckets 1 10000 (by decide) (by decide)).2.2.2.2.1 (by decide)⟩

/-- C15, the code at the failing input: the previous edge at time 0 and a level-1 edge
at 70000 microseconds, a silence longer than 5000 microseconds.  The 16-bit duration
is 70000 - 65536 = 4464, the event code is 8 rather than 7, and the idle decoder
stays idle.  With the edge at 65636 microseconds the duration is 100 and the event
code is 1. -/
theorem rx_process_bits_gap_truncated :
    ctx0.rx_prev = 0 ∧ ctx0.rx_state = rx_state_idle ∧
    sub32 70000 ctx0.rx_prev = 70000 ∧
    sub32 70000 ctx0.rx_prev % 65536 = 4464 ∧
    rx_event 1 (sub32 70000 ctx0.rx_prev % 65536) = 8 ∧
    (rx_process_bits hdr0 1 70000 70 ctx0).rx_state = rx_state_idle ∧
    rx_event 1 (sub32 65636 ctx0.rx_prev % 65536) = 1 := by
  decide

/-! Variables left alone by message finalization -/

theorem rx_paircommit_frame (c : Ctx) :
    (rx_paircommit c).rx_state = c.rx_state ∧
    (rx_paircommit c).rx_num_bits = c.rx_num_bits ∧
    (rx_paircommit c).rx_num_bytes = c.rx_num_bytes ∧
    (rx_paircommit c).rx_buf = c.rx_buf ∧
    (rx_paircommit c).lwrx_stats = c.lwrx_stats ∧
    (rx_paircommit c).lwrx_stats_enable = c.lwrx_stats_enable ∧
    (rx_paircommit c).rx_pairs = c.rx_pairs := by
  unfold rx_paircommit
  split_ifs <;> exact ⟨rfl, rfl, rfl, rfl, rfl, rfl, rfl⟩

theorem rx_addpairfrommsg_decoder (h : Header) (c : Ctx) :
    (rx_addpairfrommsg h c).rx_state = c.rx_state ∧
    (rx_addpairfrommsg h c).rx_num_bits = c.rx_num_bits ∧
    (rx_addpairfrommsg h c).rx_num_bytes = c.rx_num_bytes ∧
    (rx_addpairfrommsg h c).rx_buf = c.rx_buf ∧
    (rx_addpairfrommsg h c).lwrx_stats = c.lwrx_stats ∧
    (rx_addpairfrommsg h c).lwrx_stats_enable = c.lwrx_stats_enable := by
  unfold rx_addpairfrommsg
  split_ifs
  · obtain ⟨h1, h2, h3, h4, h5, h6, _⟩ := rx_paircommit_frame
      { c with rx_pairs := fun k => if k = c.rx_paircount
                                    then memcpy (c.rx_pairs k) (fun j => c.rx_msg (j + 2)) 8
                                    else c.rx_pairs k }
    exact ⟨h1, h2, h3, h4, h5, h6⟩
  · exact ⟨rfl, rfl, rfl, rfl, rfl, rfl⟩

theorem rx_accept_decoder (h : Header) (now : Nat) (c : Ctx) :
    (rx_accept h now c).rx_state = c.rx_state ∧
    (rx_accept h now c).rx_num_bits = c.rx_num_bits ∧
    (rx_accept h now c).rx_num_bytes = c.rx_num_bytes ∧
    (rx_accept h now c).rx_buf = c.rx_buf ∧
    (rx_accept h now c).lwrx_stats = c.lwrx_stats ∧
    (rx_accept h now c).lwrx_stats_enable = c.lwrx_stats_enable := by
  obtain ⟨h1, h2, h3, h4, h5, h6⟩ := rx_addpairfrommsg_decoder h c
  unfold rx_accept
  dsimp only
  split_ifs <;> first | exact ⟨rfl, rfl, rfl, rfl, rfl, rfl⟩ | exact ⟨h1, h2, h3, h4, h5, h6⟩

/-- Message finalization leaves the decoder idle and does not touch the bit and byte
counters, the reception buffer or the statistics. -/
theorem rx_finalize_decoder (h : Header) (now : Nat) (c : Ctx) :
    (rx_finalize h now c).rx_state = rx_state_idle ∧
    (rx_finalize h now c).rx_num_bits = c.rx_num_bits ∧
    (rx_finalize h now c).rx_num_bytes = c.rx_num_bytes ∧
    (rx_finalize h now c).rx_buf = c.rx_buf ∧
    (rx_finalize h now c).lwrx_stats = c.lwrx_stats ∧
    (rx_finalize h now c).lwrx_stats_enable = c.lwrx_stats_enable := by
  rw [rx_finalize_eq]
  obtain ⟨_, h2, h3, h4, h5, h6⟩ := rx_accept_decoder h now (rx_candidate_ctx now c)
  exact ⟨rfl, h2, h3, h4, h5, h6⟩

/-! Bounds on the decoder variables -/

theorem rx_getbyte_event_other (h : Header) (e d : Nat) (c : Ctx)
    (h2 : e ≠ 2) (h3 : e ≠ 3) (h5 : e ≠ 5) :
    rx_getbyte_event h e d c = { c with rx_state := rx_state_idle } := by
  unfold rx_getbyte_event
  rw [if_neg h2, if_neg h3, if_neg h5]

/-- The inner switch of the state `rx_state_getbyte` for any event: the byte counter is
kept, the bit counter grows by 1 (event 3) or 2 (event 5), the buffer changes at the
current byte only, and the state changes (to idle) for the other events only. -/
theorem rx_getbyte_event_all (h : Header) (e d : Nat) (c : Ctx) :
    (rx_getbyte_event h e d c).rx_num_bytes = c.rx_num_bytes ∧
    (rx_getbyte_event h e d c).rx_num_bits =
      (if e = 3 then (c.rx_num_bits + 1) % 256
       else if e = 5 then ((c.rx_num_bits + 1) % 256 + 1) % 256 else c.rx_num_bits) ∧
    (rx_getbyte_event h e d c).rx_state =
      (if e = 2 ∨ e = 3 ∨ e = 5 then c.rx_state else rx_state_idle) ∧
    (∀ i, i ≠ c.rx_num_bytes → (rx_getbyte_event h e d c).rx_buf i = c.rx_buf i) := by
  by_cases h2 : e = 2
  · subst h2
    obtain ⟨⟨a, b, c1, d1⟩, _, _⟩ := rx_getbyte_event_fields h d c
    refine ⟨c1, ?_, ?_, ?_⟩
    · rw [b]; simp
    · rw [a]; simp
    · intro i _; rw [d1]
  by_cases h3 : e = 3
  · subst h3
    obtain ⟨_, ⟨a, b, c1, d1⟩, _⟩ := rx_getbyte_event_fields h d c
    refine ⟨c1, ?_, ?_, ?_⟩
    · rw [b]; simp
    · rw [a]; simp
    · intro i hi; rw [d1]; exact aset_other _ _ _ _ hi
  by_cases h5 : e = 5
  · subst h5
    obtain ⟨_, _, ⟨a, b, c1, d1⟩⟩ := rx_getbyte_event_fields h d c
    refine ⟨c1, ?_, ?_, ?_⟩
    · rw [b]; simp
    · rw [a]; simp
    · intro i hi; rw [d1]; exact aset_other _ _ _ _ hi
  rw [rx_getbyte_event_other h e d c h2 h3 h5]
  refine ⟨rfl, ?_, ?_, ?_⟩
  · rw [if_neg h3, if_neg h5]
  · rw [if_neg (by tauto)]
  · intro i _; rfl

/-- An event that restarts the state machine, with fewer than 8 bits assembled: the
call only sets the state to idle and executes no message finalization. -/
theorem rx_traced_resync (h : Header) (e d m : Nat) (c : Ctx)
    (hr : rx_resync c.rx_state e) (hb : c.rx_num_bits < 8) :
    rx_transitions_traced h e d m c = ({ c with rx_state := rx_state_idle }, false) := by
  rcases hr with ⟨hs, h7⟩ | ⟨hs, h2, h3⟩ | ⟨hs, h2, h3, h5⟩
  · unfold rx_transitions_traced
    rw [if_pos hs, if_neg h7]
    have : c = { c with rx_state := rx_state_idle } := by
      cases c; simp only at hs; subst hs; rfl
    rw [← this]
  · have hs0 : ¬ c.rx_state = rx_state_idle := by rw [hs]; decide
    unfold rx_transitions_traced
    rw [if_neg hs0, if_pos hs, if_neg h2, if_neg h3]
  · rcases hs with hs | hs
    · have hs0 : ¬ c.rx_state = rx_state_idle := by rw [hs]; decide
      have hs1 : ¬ c.rx_state = rx_state_msgstartfound := by rw [hs]; decide
      unfold rx_transitions_traced
      rw [if_neg hs0, if_neg hs1, if_pos hs, if_neg h2, if_neg h3, if_neg h5]
    · rw [rx_traced_getbyte h e d m c hs, rx_getbyte_event_other h e d c h2 h3 h5]
      rw [if_neg (by dsimp only; omega)]

theorem decoderInv_mk (c : Ctx) (h1 : c.rx_state ≤ 3) (h2 : c.rx_num_bits < 8)
    (h3 : c.rx_state = 2 ∨ c.rx_state = 3 → c.rx_num_bytes < 10) : decoderInv c :=
  ⟨h1, h2, h3⟩

/-- One call of the state machine keeps the bounds on the decoder variables, runs
message finalization only on the tenth byte, and writes no buffer index from 10 on. -/
theorem rx_traced_inv (h : Header) (e d m : Nat) (c : Ctx) (hi : decoderInv c) :
    decoderInv (rx_transitions_traced h e d m c).1 ∧
    ((rx_transitions_traced h e d m c).2 = true →
      c.rx_state = rx_state_getbyte ∧ c.rx_num_bytes = 9 ∧
      (rx_transitions_traced h e d m c).1.rx_num_bytes = 10) ∧
    (∀ i, 10 ≤ i → (rx_transitions_traced h e d m c).1.rx_buf i = c.rx_buf i) := by
  obtain ⟨hst, hbits, hbytes⟩ := hi
  unfold rx_state_bytestartfound rx_state_getbyte rx_msglen at hbytes
  by_cases hs3 : c.rx_state = 3
  · have hk : c.rx_num_bytes < 10 := hbytes (Or.inr hs3)
    obtain ⟨g1, g2, g3, g4⟩ := rx_getbyte_event_all h e d c
    rw [rx_traced_getbyte h e d m c hs3]
    have hb9 : (rx_getbyte_event h e d c).rx_num_bits ≤ 9 := by
      rw [g2]; split_ifs <;> omega
    have hst1 : (rx_getbyte_event h e d c).rx_state ≤ 3 := by
      rw [g3]; split_ifs
      · exact hst
      · decide
    by_cases hge : (rx_getbyte_event h e d c).rx_num_bits ≥ 8
    · rw [if_pos hge]
      by_cases hlast : ((rx_getbyte_event h e d c).rx_num_bytes + 1) % 256 ≥ 10
      · rw [if_pos hlast]
        obtain ⟨f1, f2, f3, f4, _, _⟩ := rx_finalize_decoder h m
          { rx_getbyte_event h e d c with
            rx_num_bytes := ((rx_getbyte_event h e d c).rx_num_bytes + 1) % 256,
            rx_num_bits := 0 }
        rw [g1] at hlast
        dsimp only at f2 f3 f4
        unfold rx_state_idle at f1
        refine ⟨decoderInv_mk _ ?_ ?_ ?_, ?_, ?_⟩
        · dsimp only; rw [f1]; decide
        · dsimp only; rw [f2]; decide
        · dsimp only; rw [f1]; intro hh; omega
        · intro _
          refine ⟨hs3, by omega, ?_⟩
          dsimp only; rw [f3, g1]; omega
        · intro i hi
          dsimp only; rw [f4]
          exact g4 i (by omega)
      · rw [if_neg hlast]
        rw [g1] at hlast
        refine ⟨decoderInv_mk _ ?_ ?_ ?_, ?_, ?_⟩
        · dsimp only; decide
        · dsimp only; decide
        · intro _; dsimp only; rw [g1]; omega
        · intro hh; exact absurd hh (by simp)
        · intro i hi; dsimp only; exact g4 i (by omega)
    · rw [if_neg hge]
      refine ⟨decoderInv_mk _ hst1 ?_ ?_, ?_, ?_⟩
      · dsimp only; omega
      · intro _; dsimp only; rw [g1]; exact hk
      · intro hh; exact absurd hh (by simp)
      · intro i hi; dsimp only; exact g4 i (by omega)
  · unfold rx_transitions_traced
    unfold rx_state_idle rx_state_msgstartfound rx_state_bytestartfound rx_state_getbyte
    rw [if_neg hs3]
    have hk : c.rx_state ≠ 2 ∨ c.rx_num_bytes < 10 := by
      by_cases h2 : c.rx_state = 2
      · exact Or.inr (hbytes (Or.inl h2))
      · exact Or.inl h2
    split_ifs <;> refine ⟨decoderInv_mk _ ?_ ?_ ?_, ?_, ?_⟩ <;> dsimp only <;>
      first
      | omega
      | (intro hh; omega)
      | (intro hh; exact absurd hh (by decide))
      | (intro i hi; first | rfl | exact aset_other _ _ _ _ (by omega))

/-! Calls of the main program and the decoder -/

/-- Calls other than the interrupt routine leave the decoder variables alone. -/
theorem rx_op_decoder (h : Header) (op : Op) (c : Ctx)
    (hop : ∀ level curr currMillis, op ≠ Op.edge level curr currMillis) :
    (rx_op h op c).rx_state = c.rx_state ∧
    (rx_op h op c).rx_num_bits = c.rx_num_bits ∧
    (rx_op h op c).rx_num_bytes = c.rx_num_bytes ∧
    (rx_op h op c).rx_buf = c.rx_buf ∧
    (rx_op h op c).rx_prev = c.rx_prev := by
  cases op with
  | edge level curr currMillis => exact absurd rfl (hop level curr currMillis)
  | getmessage len =>
    simp only [rx_op]
    unfold lwrx_getmessage
    split_ifs <;> exact ⟨rfl, rfl, rfl, rfl, rfl⟩
  | settranslate b => exact ⟨rfl, rfl, rfl, rfl, rfl⟩
  | setfilter r t => exact ⟨rfl, rfl, rfl, rfl, rfl⟩
  | addpair pairdata =>
    simp only [rx_op]
    unfold lwrx_addpair
    dsimp only
    split_ifs
    · unfold rx_paircommit
      split_ifs <;> exact ⟨rfl, rfl, rfl, rfl, rfl⟩
    · exact ⟨rfl, rfl, rfl, rfl, rfl⟩
  | makepair t m => exact ⟨rfl, rfl, rfl, rfl, rfl⟩
  | clearpairing =>
    simp only [rx_op]
    unfold lwrx_clearpairing
    dsimp only
    split_ifs <;> exact ⟨rfl, rfl, rfl, rfl, rfl⟩
  | setstatsenable b =>
    simp only [rx_op]
    unfold lwrx_setstatsenable
    dsimp only
    split_ifs <;> exact ⟨rfl, rfl, rfl, rfl, rfl⟩
  | capture =>
    simp only [rx_op]
    unfold rx_addpairfrommsg
    split_ifs
    · unfold rx_paircommit
      split_ifs <;> exact ⟨rfl, rfl, rfl, rfl, rfl⟩
    · exact ⟨rfl, rfl, rfl, rfl, rfl⟩

theorem rx_process_bits_eq_traced (h : Header) (level curr currMillis : Nat) (c : Ctx) :
    rx_process_bits h level curr currMillis c =
      (rx_process_bits_traced h level curr currMillis c).1 := rfl

/-- One call of the interrupt routine keeps the bounds on the decoder variables. -/
theorem rx_process_bits_inv (h : Header) (level curr currMillis : Nat) (c : Ctx)
    (hi : decoderInv c) :
    decoderInv (rx_process_bits h level curr currMillis c) :=
  (rx_traced_inv h _ _ currMillis { c with rx_prev := curr } hi).1

/-- Every call keeps the bounds on the decoder variables. -/
theorem rx_op_inv (h : Header) (op : Op) (c : Ctx) (hi : decoderInv c) :
    decoderInv (rx_op h op c) := by
  by_cases hop : ∃ level curr currMillis, op = Op.edge level curr currMillis
  · obtain ⟨level, curr, currMillis, rfl⟩ := hop
    exact rx_process_bits_inv h level curr currMillis c hi
  · have hop1 : ∀ level curr currMillis, op ≠ Op.edge level curr currMillis :=
      fun l cu m he => hop ⟨l, cu, m, he⟩
    obtain ⟨f1, f2, f3, _, _⟩ := rx_op_decoder h op c hop1
    unfold decoderInv
    rw [f1, f2, f3]
    exact hi

/-- The bounds on the decoder variables hold in every reachable context. -/
theorem reachable_inv (h : Header) (c : Ctx) (hr : Reachable h c) : decoderInv c := by
  induction hr with
  | init c h1 h2 h3 =>
    refine ⟨?_, ?_, ?_⟩
    · rw [h1]; decide
    · rw [h2]; decide
    · intro _; rw [h3]; decide
  | step op c _ ih => exact rx_op_inv h op c ih

theorem reachable_ops (h : Header) (ops : List Op) :
    ∀ c, Reachable h c → Reachable h (rx_ops h ops c) := by
  induction ops with
  | nil => intro c hc; exact hc
  | cons op ops ih => intro c hc; exact ih _ (Reachable.step op c hc)

/-! Resynchronisation -/

/-- C16 (resynchronisation without side effects): in every reachable context a
resynchronising event (any event but 7 in Idle, any but 2 and 3 in MessageStartFound,
any but 2, 3 and 5 in ByteStartFound and GettingByte) makes the state machine set the
state to Idle and change nothing else, without executing message finalization; for a
call of `rx_process_bits` whose event resynchronises, the context after the call is
the one before it with the edge time recorded and the state Idle, so that `rx_msg`, the
message-ready flag, the repeat counter, the last-candidate time, the pairing session
and the pair store with its persistent copy are unchanged. -/
theorem rx_process_bits_resync (h : Header) (c : Ctx) (hreach : Reachable h c) :
    (∀ e d m, rx_resync c.rx_state e →
      rx_transitions_traced h e d m c = ({ c with rx_state := rx_state_idle }, false)) ∧
    (∀ level curr m, rx_resync c.rx_state (rx_event level (sub32 curr c.rx_prev % 65536)) →
      rx_process_bits_traced h level curr m c =
        ({ c with rx_prev := curr, rx_state := rx_state_idle }, false) ∧
      rx_process_bits h level curr m c =
        { c with rx_prev := curr, rx_state := rx_state_idle } ∧
      (rx_process_bits h level curr m c).rx_state = rx_state_idle ∧
      (rx_process_bits h level curr m c).rx_msg = c.rx_msg ∧
      (rx_process_bits h level curr m c).rx_msgcomplete = c.rx_msgcomplete ∧
      (rx_process_bits h level curr m c).rx_repeatcount = c.rx_repeatcount ∧
      (rx_process_bits h level curr m c).rx_prevpkttime = c.rx_prevpkttime ∧
      (rx_process_bits h level curr m c).rx_pairtimeout = c.rx_pairtimeout ∧
      (rx_process_bits h level curr m c).rx_pairstarttime = c.rx_pairstarttime ∧
      (rx_process_bits h level curr m c).rx_paircount = c.rx_paircount ∧
      (rx_process_bits h level curr m c).rx_pairs = c.rx_pairs ∧
      (rx_process_bits h level curr m c).eeprom = c.eeprom) := by
  obtain ⟨_, hbits, _⟩ := reachable_inv h c hreach
  refine ⟨fun e d m hr => rx_traced_resync h e d m c hr hbits, ?_⟩
  intro level curr m hr
  have ht : rx_process_bits_traced h level curr m c =
      ({ c with rx_prev := curr, rx_state := rx_state_idle }, false) :=
    rx_traced_resync h _ _ m { c with rx_prev := curr } hr hbits
  have hp : rx_process_bits h level curr m c =
      { c with rx_prev := curr, rx_state := rx_state_idle } := by
    rw [rx_process_bits_eq_traced, ht]
  refine ⟨ht, hp, ?_, ?_, ?_, ?_, ?_, ?_, ?_, ?_, ?_, ?_⟩ <;> rw [hp]

/-- C16 at a concrete input: the decoder is assembling the first byte when an edge
arrives 3000 microseconds after the previous one (event 8). -/
theorem rx_process_bits_resync_witness :
    Reachable hdr0 ctxGetbyte ∧ ctxGetbyte.rx_state = rx_state_getbyte ∧
    rx_event 1 (sub32 13500 ctxGetbyte.rx_prev % 65536) = 8 ∧
    rx_process_bits_traced hdr0 1 13500 13 ctxGetbyte =
      ({ ctxGetbyte with rx_prev := 13500, rx_state := rx_state_idle }, false) :=
  ⟨Reachable.step _ _ (Reachable.step _ _ (Reachable.step _ _
      (Reachable.init ctx0 rfl rfl rfl))),
   by decide, by decide,
   ((rx_process_bits_resync hdr0 ctxGetbyte
      (Reachable.step _ _ (Reachable.step _ _ (Reachable.step _ _
        (Reachable.init ctx0 rfl rfl rfl))))).2 1 13500 13 (by decide)).1⟩

/-! Noise edges -/

/-- C17, counterexample: a level-0 edge 50 microseconds after the previous edge (event
0) arrives while the decoder is in GettingByte, and in MessageStartFound; each time the
state after the call is Idle, not the state before it. -/
theorem rx_noise_edge_resets_state :
    ctxGetbyte.rx_state = rx_state_getbyte ∧ ctxGetbyte.rx_prev = 10500 ∧
    rx_event 0 (sub32 10550 ctxGetbyte.rx_prev % 65536) = 0 ∧
    (rx_process_bits hdr0 0 10550 10 ctxGetbyte).rx_state = rx_state_idle ∧
    (rx_process_bits hdr0 1 10000 10 ctx0).rx_state = rx_state_msgstartfound ∧
    (rx_process_bits hdr0 0 10050 10 (rx_process_bits hdr0 1 10000 10 ctx0)).rx_state =
      rx_state_idle := by
  decide

/-- C17, amended: in every reachable context an edge with pin level 0 or 1 arriving
less than 120 microseconds after the previous edge is classified as event 0 or 1, and
`rx_process_bits` then records the edge time and sets the decoder state to Idle - the
state is unchanged only when it was Idle already - while the bit counter, the byte
counter and the reception buffer are unchanged and no message finalization runs. -/
theorem rx_process_bits_noise (h : Header) (c : Ctx) (hreach : Reachable h c)
    (level curr m : Nat) (hl : level ≤ 1) (hd : sub32 curr c.rx_prev < 120) :
    rx_event level (sub32 curr c.rx_prev % 65536) = level ∧
    rx_process_bits_traced h level curr m c =
      ({ c with rx_prev := curr, rx_state := rx_state_idle }, false) ∧
    (rx_process_bits h level curr m c).rx_state = rx_state_idle ∧
    (c.rx_state = rx_state_idle → (rx_process_bits h level curr m c).rx_state = c.rx_state) ∧
    (c.rx_state ≠ rx_state_idle → (rx_process_bits h level curr m c).rx_state ≠ c.rx_state) ∧
    (rx_process_bits h level curr m c).rx_num_bits = c.rx_num_bits ∧
    (rx_process_bits h level curr m c).rx_num_bytes = c.rx_num_bytes ∧
    (rx_process_bits h level curr m c).rx_buf = c.rx_buf := by
  obtain ⟨hst, hbits, _⟩ := reachable_inv h c hreach
  have hdur : sub32 curr c.rx_prev % 65536 = sub32 curr c.rx_prev := Nat.mod_eq_of_lt (by omega)
  have hev : rx_event level (sub32 curr c.rx_prev % 65536) = level := by
    unfold rx_event; rw [if_pos (by omega)]
  have hr : rx_resync c.rx_state level := by
    unfold rx_resync rx_state_idle rx_state_msgstartfound rx_state_bytestartfound
      rx_state_getbyte
    omega
  have ht : rx_process_bits_traced h level curr m c =
      ({ c with rx_prev := curr, rx_state := rx_state_idle }, false) := by
    unfold rx_process_bits_traced
    dsimp only
    rw [hev]
    exact rx_traced_resync h _ _ m { c with rx_prev := curr } hr hbits
  have hp : rx_process_bits h level curr m c =
      { c with rx_prev := curr, rx_state := rx_state_idle } := by
    rw [rx_process_bits_eq_traced, ht]
  refine ⟨hev, ht, ?_, ?_, ?_, ?_, ?_, ?_⟩
  · rw [hp]
  · intro hs; rw [hp, hs]
  · intro hs; rw [hp]; exact fun hh => hs hh.symm
  · rw [hp]
  · rw [hp]
  · rw [hp]

/-- C17 amended, at a concrete input: the noise edge of the counterexample. -/
theorem rx_process_bits_noise_witness :
    Reachable hdr0 ctxGetbyte ∧ (0 : Nat) ≤ 1 ∧ sub32 10550 ctxGetbyte.rx_prev < 120 ∧
    rx_process_bits_traced hdr0 0 10550 10 ctxGetbyte =
      ({ ctxGetbyte with rx_prev := 10550, rx_state := rx_state_idle }, false) :=
  ⟨Reachable.step _ _ (Reachable.step _ _ (Reachable.step _ _
      (Reachable.init ctx0 rfl rfl rfl))),
   by decide, by decide,
   (rx_process_bits_noise hdr0 ctxGetbyte
      (Reachable.step _ _ (Reachable.step _ _ (Reachable.step _ _
        (Reachable.init ctx0 rfl rfl rfl)))) 0 10550 10 (by decide) (by decide)).2.1⟩

/-! Buffer index -/

theorem rx_calls_append (h : Header) (pre post : List Edge) :
    ∀ c, rx_calls h (pre ++ post) c = rx_calls h post (rx_calls h pre c) := by
  induction pre with
  | nil => intro c; rfl
  | cons e pre ih => intro c; exact ih _

/-- A sequence of calls of the interrupt routine keeps the bounds on the decoder
variables and writes no buffer index from 10 on. -/
theorem rx_calls_inv (h : Header) (es : List Edge) :
    ∀ c, decoderInv c →
      decoderInv (rx_calls h es c) ∧ ∀ i, 10 ≤ i → (rx_calls h es c).rx_buf i = c.rx_buf i := by
  induction es with
  | nil => intro c hc; exact ⟨hc, fun _ _ => rfl⟩
  | cons e es ih =>
    intro c hc
    obtain ⟨h1, _, h3⟩ := rx_traced_inv h (rx_event e.level (sub32 e.curr c.rx_prev % 65536))
      (sub32 e.curr c.rx_prev % 65536) e.currMillis { c with rx_prev := e.curr } hc
    obtain ⟨i1, i2⟩ := ih (rx_process_bits h e.level e.curr e.currMillis c) h1
    refine ⟨i1, ?_⟩
    intro i hi
    exact (i2 i hi).trans (h3 i hi)

/-- C20 (buffer index stays in bounds): for every sequence of edges fed to
`rx_process_bits` from a context with state Idle and both counters 0, at the entry of
every call the bit counter is below 8 and, when the state is ByteStartFound or
GettingByte, the byte counter is below 10; a call executes message finalization only
from GettingByte with nine bytes complete and the tenth being completed by that call
(the counter is 10 when finalization runs); and no buffer index from 10 on is ever
written. -/
theorem rx_calls_buffer_bounds (h : Header) (c0 : Ctx) (es : List Edge)
    (hidle : c0.rx_state = rx_state_idle) (hbits : c0.rx_num_bits = 0)
    (hbytes : c0.rx_num_bytes = 0) :
    (∀ pre e post, es = pre ++ e :: post →
      (rx_calls h pre c0).rx_state ≤ 3 ∧
      (rx_calls h pre c0).rx_num_bits < 8 ∧
      (((rx_calls h pre c0).rx_state = rx_state_bytestartfound ∨
          (rx_calls h pre c0).rx_state = rx_state_getbyte) →
        (rx_calls h pre c0).rx_num_bytes < 10) ∧
      ((rx_process_bits_traced h e.level e.curr e.currMillis (rx_calls h pre c0)).2 = true →
        (rx_calls h pre c0).rx_state = rx_state_getbyte ∧
        (rx_calls h pre c0).rx_num_bytes = 9 ∧
        (rx_process_bits h e.level e.curr e.currMillis (rx_calls h pre c0)).rx_num_bytes = 10)) ∧
    (∀ i, 10 ≤ i → (rx_calls h es c0).rx_buf i = c0.rx_buf i) := by
  have h0 : decoderInv c0 := by
    refine ⟨?_, ?_, ?_⟩
    · rw [hidle]; decide
    · rw [hbits]; decide
    · intro _; rw [hbytes]; decide
  refine ⟨?_, (rx_calls_inv h es c0 h0).2⟩
  intro pre e post _
  have hpre : decoderInv (rx_calls h pre c0) := (rx_calls_inv h pre c0 h0).1
  obtain ⟨_, hf, _⟩ := rx_traced_inv h
    (rx_event e.level (sub32 e.curr (rx_calls h pre c0).rx_prev % 65536))
    (sub32 e.curr (rx_calls h pre c0).rx_prev % 65536) e.currMillis
    { rx_calls h pre c0 with rx_prev := e.curr } hpre
  exact ⟨hpre.1, hpre.2.1, hpre.2.2, hf⟩

/-- C20 at a concrete input: the edges of one packet fed to the initial context. -/
theorem rx_calls_buffer_bounds_witness :
    ctx0.rx_state = rx_state_idle ∧ ctx0.rx_num_bits = 0 ∧ ctx0.rx_num_bytes = 0 ∧
    ∀ i, 10 ≤ i →
      (rx_calls hdr0 (edgesFrom 0 (signalEdges (packetEvents pktPaired))) ctx0).rx_buf i =
        ctx0.rx_buf i :=
  ⟨rfl, rfl, rfl,
   (rx_calls_buffer_bounds hdr0 ctx0 (edgesFrom 0 (signalEdges (packetEvents pktPaired)))
      rfl rfl rfl).2⟩

/-! Repeat window -/

theorem rx_accept_repeatcount (h : Header) (now : Nat) (c : Ctx) :
    (rx_accept h now c).rx_repeatcount = c.rx_repeatcount ∧
    (rx_accept h now c).rx_repeats = c.rx_repeats ∧
    (rx_accept h now c).rx_timeout = c.rx_timeout ∧
    (rx_accept h now c).rx_prevpkttime = c.rx_prevpkttime := by
  have hp : (rx_addpairfrommsg h c).rx_repeatcount = c.rx_repeatcount ∧
      (rx_addpairfrommsg h c).rx_repeats = c.rx_repeats ∧
      (rx_addpairfrommsg h c).rx_timeout = c.rx_timeout ∧
      (rx_addpairfrommsg h c).rx_prevpkttime = c.rx_prevpkttime := by
    unfold rx_addpairfrommsg
    split_ifs
    · unfold rx_paircommit
      split_ifs <;> exact ⟨rfl, rfl, rfl, rfl⟩
    · exact ⟨rfl, rfl, rfl, rfl⟩
  unfold rx_accept
  dsimp only
  split_ifs <;> first | exact ⟨rfl, rfl, rfl, rfl⟩ | exact hp

/-- The repeat counter, the filter settings and the candidate time after message
finalization, whatever the pairing session. -/
theorem rx_finalize_filter (h : Header) (now : Nat) (c : Ctx) :
    (rx_finalize h now c).rx_repeatcount = (rx_repeat_filter now c).rx_repeatcount ∧
    (rx_finalize h now c).rx_repeats = c.rx_repeats ∧
    (rx_finalize h now c).rx_timeout = c.rx_timeout ∧
    (rx_finalize h now c).rx_prevpkttime = now := by
  rw [rx_finalize_eq]
  obtain ⟨h1, h2, h3, h4⟩ := rx_accept_repeatcount h now (rx_candidate_ctx now c)
  exact ⟨h1, h2, h3, h4⟩

/-- C18, counterexample: threshold 2 and timeout 20 units (2000 ms); the stored
candidate was received at millisecond 0 with counter 1, and a byte-identical candidate
is completed at millisecond 2050, more than 2000 ms later.  Finalization does not reset
the counter to 1: it counts the candidate as the second repeat. -/
theorem rx_finalize_window_not_reset :
    ctxRepeat.rx_repeats = 2 ∧ ctxRepeat.rx_timeout = 20 ∧ ctxRepeat.rx_prevpkttime = 0 ∧
    ctxRepeat.rx_repeatcount = 1 ∧
    (∀ i, i < 10 → ctxRepeat.rx_msg i = ctxRepeat.rx_buf i) ∧
    sub32 2050 ctxRepeat.rx_prevpkttime > 20 * 100 ∧
    (rx_finalize hdr0 2050 ctxRepeat).rx_repeatcount = 2 := by
  decide

/-- C18, amended: with repeat filtering enabled (threshold above 0) and a timeout of
`T` units, message finalization resets the repeat counter to 1 for every candidate for
which the whole number of 100 ms units elapsed since the previous candidate exceeds
`T`, that is, whose elapsed time (the 32-bit difference of the millisecond clock) is
at least `(T + 1) * 100` milliseconds, byte-identical or not; a byte-identical
candidate with fewer elapsed milliseconds increments the counter (modulo 256). -/
theorem rx_finalize_window_expiry (h : Header) (now T : Nat) (c : Ctx)
    (hrep : c.rx_repeats > 0) (hT : c.rx_timeout = T) :
    (sub32 now c.rx_prevpkttime / 100 > T ↔ sub32 now c.rx_prevpkttime ≥ (T + 1) * 100) ∧
    (sub32 now c.rx_prevpkttime ≥ (T + 1) * 100 →
      (rx_finalize h now c).rx_repeatcount = 1) ∧
    (sub32 now c.rx_prevpkttime < (T + 1) * 100 →
      (∀ i, i < 10 → c.rx_msg i = c.rx_buf i) →
      (rx_finalize h now c).rx_repeatcount = (c.rx_repeatcount + 1) % 256) := by
  have hiff : sub32 now c.rx_prevpkttime / 100 > T ↔
      sub32 now c.rx_prevpkttime ≥ (T + 1) * 100 := by
    constructor
    · intro hq
      have := Nat.div_mul_le_self (sub32 now c.rx_prevpkttime) 100
      have : (T + 1) * 100 ≤ sub32 now c.rx_prevpkttime / 100 * 100 :=
        Nat.mul_le_mul_right 100 hq
      omega
    · intro hq
      exact (Nat.le_div_iff_mul_le (by decide)).2 hq
  refine ⟨hiff, ?_, ?_⟩
  · intro hq
    rw [(rx_finalize_filter h now c).1, rx_repeat_filter_count, if_pos hrep, hT,
      if_pos (hiff.2 hq)]
  · intro hq hsame
    have hnot : ¬ sub32 now c.rx_prevpkttime / 100 > T := fun hh => by
      have := hiff.1 hh
      omega
    rw [(rx_finalize_filter h now c).1, rx_repeat_filter_count, if_pos hrep, hT,
      if_neg hnot, if_pos hsame]

/-- C18 amended, at a concrete input: the candidate of the counterexample completed at
millisecond 2100 instead. -/
theorem rx_finalize_window_expiry_witness :
    ctxRepeat.rx_repeats > 0 ∧ ctxRepeat.rx_timeout = 20 ∧
    sub32 2100 ctxRepeat.rx_prevpkttime ≥ (20 + 1) * 100 ∧
    (rx_finalize hdr0 2100 ctxRepeat).rx_repeatcount = 1 :=
  ⟨by decide, rfl, by decide,
   (rx_finalize_window_expiry hdr0 2100 20 ctxRepeat (by decide) rfl).2.1 (by decide)⟩

/-! Pair store and its persistent copy -/

theorem restoreEEPROMPairing_row_get (e : Int → Nat) (i : Nat) (n : Nat) :
    ∀ (pairs : Nat → Nat → Nat) (k j : Nat), n ≤ 8 →
      restoreEEPROMPairing_row e i n pairs k j =
        if k = i ∧ 8 - n ≤ j ∧ j < 8 then e (EEPROMaddr + 1 + 8 * (i : Int) + (j : Int))
        else pairs k j := by
  induction n with
  | zero =>
    intro pairs k j _
    unfold restoreEEPROMPairing_row
    rw [if_neg (by omega)]
  | succ n ih =>
    intro pairs k j hn
    unfold restoreEEPROMPairing_row
    dsimp only
    rw [ih _ k j (by omega)]
    by_cases hk : k = i
    · subst hk
      by_cases hj : 8 - n ≤ j ∧ j < 8
      · rw [if_pos ⟨rfl, hj⟩, if_pos ⟨rfl, by omega, hj.2⟩]
      · rw [if_neg (fun hh => hj hh.2)]
        unfold aset2
        rw [if_pos rfl]
        by_cases hj2 : j = 8 - (n + 1)
        · rw [hj2, aset_same, if_pos ⟨rfl, le_refl _, by omega⟩]
        · rw [aset_other _ _ _ _ hj2, if_neg (by omega)]
    · rw [if_neg (fun hh => hk hh.1), if_neg (fun hh => hk hh.1)]
      unfold aset2
      rw [if_neg hk]

theorem restoreEEPROMPairing_loop_get (e : Int → Nat) (cnt : Nat) (n : Nat) :
    ∀ (pairs : Nat → Nat → Nat) (k j : Nat), n ≤ cnt →
      restoreEEPROMPairing_loop e cnt n pairs k j =
        if cnt - n ≤ k ∧ k < cnt ∧ j < 8 then e (EEPROMaddr + 1 + 8 * (k : Int) + (j : Int))
        else pairs k j := by
  induction n with
  | zero =>
    intro pairs k j _
    unfold restoreEEPROMPairing_loop
    rw [if_neg (by omega)]
  | succ n ih =>
    intro pairs k j hn
    unfold restoreEEPROMPairing_loop
    dsimp only
    rw [ih _ k j (by omega)]
    by_cases hk : cnt - n ≤ k ∧ k < cnt ∧ j < 8
    · rw [if_pos hk, if_pos (by omega)]
    · rw [if_neg hk, restoreEEPROMPairing_row_get e _ 8 pairs k j (le_refl 8)]
      by_cases hk2 : k = cnt - (n + 1) ∧ j < 8
      · rw [if_pos ⟨hk2.1, by omega, hk2.2⟩, if_pos (by omega), hk2.1]
      · rw [if_neg (by omega), if_neg (by omega)]

/-- The pair count, the entries and the persistent store after
`restoreEEPROMPairing`. -/
theorem restoreEEPROMPairing_get (h : Header) (c : Ctx) :
    (c.eeprom EEPROMaddr ≤ h.rx_maxpairs →
      (restoreEEPROMPairing h c).rx_paircount = c.eeprom EEPROMaddr ∧
      (restoreEEPROMPairing h c).eeprom = c.eeprom ∧
      ∀ k j, (restoreEEPROMPairing h c).rx_pairs k j =
        if k < c.eeprom EEPROMaddr ∧ j < 8 then c.eeprom (EEPROMaddr + 1 + 8 * (k : Int) + (j : Int))
        else c.rx_pairs k j) ∧
    (h.rx_maxpairs < c.eeprom EEPROMaddr →
      (restoreEEPROMPairing h c).rx_paircount = 0 ∧
      (restoreEEPROMPairing h c).eeprom = aset c.eeprom EEPROMaddr 0 ∧
      (restoreEEPROMPairing h c).rx_pairs = c.rx_pairs) := by
  have ha : EEPROMaddr ≥ 0 := by decide
  constructor
  · intro hle
    unfold restoreEEPROMPairing
    rw [if_pos ha]
    dsimp only
    rw [if_neg (by omega)]
    refine ⟨rfl, rfl, ?_⟩
    intro k j
    dsimp only
    rw [restoreEEPROMPairing_loop_get _ _ _ _ k j (le_refl _)]
    by_cases hk : k < c.eeprom EEPROMaddr ∧ j < 8
    · rw [if_pos hk, if_pos (by omega)]
    · rw [if_neg hk, if_neg (by omega)]
  · intro hgt
    unfold restoreEEPROMPairing
    rw [if_pos ha]
    dsimp only
    rw [if_pos hgt]
    exact ⟨rfl, rfl, rfl⟩

theorem storeMirror_congr (c c1 : Ctx) (h1 : c1.rx_paircount = c.rx_paircount)
    (h2 : ∀ i j, i < c.rx_paircount → j < 8 → c1.rx_pairs i j = c.rx_pairs i j)
    (h3 : c1.eeprom = c.eeprom) (hm : storeMirror c) : storeMirror c1 := by
  obtain ⟨m1, m2⟩ := hm
  refine ⟨by rw [h3, h1]; exact m1, ?_⟩
  intro i j hi hj
  rw [h1] at hi
  rw [h3, h2 i j hi hj]
  exact m2 i j hi hj

/-- Committing a pair changes no entry of the pair store and raises the count by at
most one. -/
theorem rx_paircommit_count (c : Ctx) :
    (rx_paircommit c).rx_pairs = c.rx_pairs ∧
    ((rx_paircommit c).rx_paircount = c.rx_paircount ∨
      (rx_paircommit c).rx_paircount = (c.rx_paircount + 1) % 256) := by
  by_cases hdup : pairStored c (c.rx_pairs c.rx_paircount)
  · rw [rx_paircommit_dup c hdup]
    exact ⟨rfl, Or.inl rfl⟩
  · rw [rx_paircommit_new c hdup]
    exact ⟨rfl, Or.inr rfl⟩

/-- Committing a pair keeps the persistent store a mirror of the pair store. -/
theorem rx_paircommit_mirror (c : Ctx) (hm : storeMirror c) :
    storeMirror (rx_paircommit c) := by
  obtain ⟨m1, m2⟩ := hm
  by_cases hdup : pairStored c (c.rx_pairs c.rx_paircount)
  · rw [rx_paircommit_dup c hdup]
    exact ⟨m1, m2⟩
  · rw [rx_paircommit_new c hdup]
    refine ⟨?_, ?_⟩
    · dsimp only
      rw [aset_same]
    · intro i j hi hj
      dsimp only at hi ⊢
      have hle : i ≤ c.rx_paircount := by
        have := Nat.mod_le (c.rx_paircount + 1) 256
        omega
      have hne : EEPROMaddr + 1 + 8 * (i : Int) + (j : Int) ≠ EEPROMaddr := by omega
      rw [aset_other _ _ _ _ hne, rx_paircommit_write_get]
      by_cases hic : i = c.rx_paircount
      · subst hic
        rw [if_pos (by omega)]
        congr 1
        omega
      · rw [if_neg (by omega)]
        exact m2 i j (by omega) hj

/-- Committing a candidate written into the row at the pair count, below capacity:
the count stays within the capacity and no other row changes. -/
theorem rx_paircommit_candidate (h : Header) (c : Ctx) (P : Nat → Nat → Nat)
    (hP : ∀ i, i ≠ c.rx_paircount → P i = c.rx_pairs i)
    (hlt : c.rx_paircount < h.rx_maxpairs) :
    (rx_paircommit { c with rx_pairs := P }).rx_paircount ≤ h.rx_maxpairs ∧
    (∀ i, i ≠ c.rx_paircount →
      (rx_paircommit { c with rx_pairs := P }).rx_pairs i = c.rx_pairs i) ∧
    (storeMirror c → storeMirror (rx_paircommit { c with rx_pairs := P })) := by
  obtain ⟨r2, r3⟩ := rx_paircommit_count { c with rx_pairs := P }
  refine ⟨?_, ?_, ?_⟩
  · have := Nat.mod_le (c.rx_paircount + 1) 256
    dsimp only at r3
    omega
  · intro i hi
    rw [r2]
    exact hP i hi
  · intro hm
    refine rx_paircommit_mirror _ (storeMirror_congr c _ rfl ?_ rfl hm)
    intro i j hi _
    dsimp only
    rw [hP i (by omega)]

/-- The pair count, pair store and persistent store after `rx_addpairfrommsg`: the
count stays within the capacity, only the row at the pair count can change, and only
below the capacity; a mirrored persistent store stays mirrored. -/
theorem rx_addpairfrommsg_store (h : Header) (c : Ctx) :
    (c.rx_paircount ≤ h.rx_maxpairs → (rx_addpairfrommsg h c).rx_paircount ≤ h.rx_maxpairs) ∧
    (∀ i, i ≠ c.rx_paircount → (rx_addpairfrommsg h c).rx_pairs i = c.rx_pairs i) ∧
    ((rx_addpairfrommsg h c).rx_pairs ≠ c.rx_pairs → c.rx_paircount < h.rx_maxpairs) ∧
    (storeMirror c → storeMirror (rx_addpairfrommsg h c)) := by
  unfold rx_addpairfrommsg
  by_cases hlt : c.rx_paircount < h.rx_maxpairs
  · rw [if_pos hlt]
    obtain ⟨r1, r2, r3⟩ := rx_paircommit_candidate h c _ (fun i hi => if_neg hi) hlt
    exact ⟨fun _ => r1, r2, fun _ => hlt, r3⟩
  · rw [if_neg hlt]
    exact ⟨fun hle => hle, fun _ _ => rfl, fun hh => absurd rfl hh, fun hm => hm⟩

/-- The pair count, pair store and persistent store after `lwrx_addpair`. -/
theorem lwrx_addpair_store (h : Header) (pairdata : Nat → Nat) (c : Ctx) :
    (c.rx_paircount ≤ h.rx_maxpairs →
      (lwrx_addpair h pairdata c).2.rx_paircount ≤ h.rx_maxpairs) ∧
    (∀ i, i ≠ c.rx_paircount → (lwrx_addpair h pairdata c).2.rx_pairs i = c.rx_pairs i) ∧
    ((lwrx_addpair h pairdata c).2.rx_pairs ≠ c.rx_pairs → c.rx_paircount < h.rx_maxpairs) ∧
    (storeMirror c → storeMirror (lwrx_addpair h pairdata c).2) := by
  unfold lwrx_addpair
  dsimp only
  by_cases hlt : c.rx_paircount < h.rx_maxpairs
  · rw [if_pos hlt]
    have hP : ∀ i, i ≠ c.rx_paircount →
        lwrx_addpair_loop pairdata c.rx_paircount 8 c.rx_pairs i = c.rx_pairs i := by
      intro i hi
      funext j
      rw [lwrx_addpair_loop_get, if_neg (fun hh => hi hh.1)]
    obtain ⟨r1, r2, r3⟩ := rx_paircommit_candidate h c _ hP hlt
    exact ⟨fun _ => r1, r2, fun _ => hlt, r3⟩
  · rw [if_neg hlt]
    exact ⟨fun hle => hle, fun _ _ => rfl, fun hh => absurd rfl hh, fun hm => hm⟩

theorem rx_accept_store (h : Header) (now : Nat) (c : Ctx) :
    ((rx_accept h now c).rx_paircount = c.rx_paircount ∧
      (rx_accept h now c).rx_pairs = c.rx_pairs ∧ (rx_accept h now c).eeprom = c.eeprom) ∨
    ((rx_accept h now c).rx_paircount = (rx_addpairfrommsg h c).rx_paircount ∧
      (rx_accept h now c).rx_pairs = (rx_addpairfrommsg h c).rx_pairs ∧
      (rx_accept h now c).eeprom = (rx_addpairfrommsg h c).eeprom) := by
  unfold rx_accept
  dsimp only
  split_ifs <;> first | exact Or.inl ⟨rfl, rfl, rfl⟩ | exact Or.inr ⟨rfl, rfl, rfl⟩

theorem rx_getbyte_event_store (h : Header) (e d : Nat) (c : Ctx) :
    (rx_getbyte_event h e d c).rx_paircount = c.rx_paircount ∧
    (rx_getbyte_event h e d c).rx_pairs = c.rx_pairs ∧
    (rx_getbyte_event h e d c).eeprom = c.eeprom := by
  unfold rx_getbyte_event
  dsimp only
  split_ifs <;> exact ⟨rfl, rfl, rfl⟩

/-- The pair count, the pair store and the persistent store after one call of the
state machine are those before the call, or those produced by `rx_addpairfrommsg` from
a context with the same three. -/
theorem rx_traced_store (h : Header) (e d m : Nat) (c : Ctx) :
    ∃ c1 : Ctx, c1.rx_paircount = c.rx_paircount ∧ c1.rx_pairs = c.rx_pairs ∧
      c1.eeprom = c.eeprom ∧
      (((rx_transitions_traced h e d m c).1.rx_paircount = c1.rx_paircount ∧
          (rx_transitions_traced h e d m c).1.rx_pairs = c1.rx_pairs ∧
          (rx_transitions_traced h e d m c).1.eeprom = c1.eeprom) ∨
        ((rx_transitions_traced h e d m c).1.rx_paircount = (rx_addpairfrommsg h c1).rx_paircount ∧
          (rx_transitions_traced h e d m c).1.rx_pairs = (rx_addpairfrommsg h c1).rx_pairs ∧
          (rx_transitions_traced h e d m c).1.eeprom = (rx_addpairfrommsg h c1).eeprom)) := by
  by_cases hs3 : c.rx_state = 3
  · obtain ⟨g1, g2, g3⟩ := rx_getbyte_event_store h e d c
    rw [rx_traced_getbyte h e d m c hs3]
    split_ifs
    · rw [rx_finalize_eq]
      refine ⟨rx_candidate_ctx m { rx_getbyte_event h e d c with
          rx_num_bytes := ((rx_getbyte_event h e d c).rx_num_bytes + 1) % 256,
          rx_num_bits := 0 }, g1, g2, g3, ?_⟩
      exact rx_accept_store h m _
    · exact ⟨c, rfl, rfl, rfl, Or.inl ⟨g1, g2, g3⟩⟩
    · exact ⟨c, rfl, rfl, rfl, Or.inl ⟨g1, g2, g3⟩⟩
  · refine ⟨c, rfl, rfl, rfl, Or.inl ?_⟩
    unfold rx_transitions_traced
    unfold rx_state_idle rx_state_msgstartfound rx_state_bytestartfound rx_state_getbyte
    rw [if_neg hs3]
    split_ifs <;> exact ⟨rfl, rfl, rfl⟩

/-- One call of the interrupt routine keeps the pair count within the capacity; it
writes no row of the pair store other than the one at the pair count, and that one
only below the capacity; a mirrored persistent store stays mirrored. -/
theorem rx_process_bits_store (h : Header) (level curr m : Nat) (c : Ctx) :
    (c.rx_paircount ≤ h.rx_maxpairs →
      (rx_process_bits h level curr m c).rx_paircount ≤ h.rx_maxpairs) ∧
    (∀ i, i ≠ c.rx_paircount → (rx_process_bits h level curr m c).rx_pairs i = c.rx_pairs i) ∧
    ((rx_process_bits h level curr m c).rx_pairs ≠ c.rx_pairs →
      c.rx_paircount < h.rx_maxpairs) ∧
    (storeMirror c → storeMirror (rx_process_bits h level curr m c)) := by
  obtain ⟨c1, e1, e2, e3, hc⟩ := rx_traced_store h
    (rx_event level (sub32 curr c.rx_prev % 65536)) (sub32 curr c.rx_prev % 65536) m
    { c with rx_prev := curr }
  dsimp only at e1 e2 e3
  rw [rx_process_bits_eq_traced]
  unfold rx_process_bits_traced
  dsimp only
  rcases hc with ⟨f1, f2, f3⟩ | ⟨f1, f2, f3⟩
  · refine ⟨?_, ?_, ?_, ?_⟩
    · intro hle; rw [f1, e1]; exact hle
    · intro i _; rw [f2, e2]
    · intro hh; exact absurd (f2.trans e2) hh
    · intro hm
      exact storeMirror_congr c _ (f1.trans e1) (fun i j _ _ => by rw [f2, e2])
        (f3.trans e3) hm
  · obtain ⟨r1, r2, r3, r4⟩ := rx_addpairfrommsg_store h c1
    refine ⟨?_, ?_, ?_, ?_⟩
    · intro hle; rw [f1]; exact r1 (by rw [e1]; exact hle)
    · intro i hi; rw [f2, r2 i (by rw [e1]; exact hi), e2]
    · intro hh
      rw [← e1]
      exact r3 (fun hh2 => hh (f2.trans (hh2.trans e2)))
    · intro hm
      have hm1 : storeMirror c1 :=
        storeMirror_congr c c1 e1 (fun i j _ _ => by rw [e2]) e3 hm
      exact storeMirror_congr _ _ f1 (fun i j _ _ => by rw [f2]) f3 (r4 hm1)

/-- Every call keeps the pair count within the capacity, writes no row of the pair
store other than the one at the pair count, and that one only below the capacity; a
mirrored persistent store stays mirrored. -/
theorem rx_op_store (h : Header) (op : Op) (c : Ctx) :
    (c.rx_paircount ≤ h.rx_maxpairs → (rx_op h op c).rx_paircount ≤ h.rx_maxpairs) ∧
    (∀ i, i ≠ c.rx_paircount → (rx_op h op c).rx_pairs i = c.rx_pairs i) ∧
    ((rx_op h op c).rx_pairs ≠ c.rx_pairs → c.rx_paircount < h.rx_maxpairs) ∧
    (storeMirror c → storeMirror (rx_op h op c)) := by
  have hsame : ∀ c1 : Ctx, c1.rx_paircount = c.rx_paircount → c1.rx_pairs = c.rx_pairs →
      c1.eeprom = c.eeprom →
      (c.rx_paircount ≤ h.rx_maxpairs → c1.rx_paircount ≤ h.rx_maxpairs) ∧
      (∀ i, i ≠ c.rx_paircount → c1.rx_pairs i = c.rx_pairs i) ∧
      (c1.rx_pairs ≠ c.rx_pairs → c.rx_paircount < h.rx_maxpairs) ∧
      (storeMirror c → storeMirror c1) := by
    intro c1 e1 e2 e3
    refine ⟨fun hle => by rw [e1]; exact hle, fun i _ => by rw [e2],
      fun hh => absurd e2 hh, fun hm => ?_⟩
    exact storeMirror_congr c c1 e1 (fun i j _ _ => by rw [e2]) e3 hm
  cases op with
  | edge level curr currMillis => exact rx_process_bits_store h level curr currMillis c
  | getmessage len =>
    simp only [rx_op]
    unfold lwrx_getmessage
    split_ifs <;> exact hsame _ rfl rfl rfl
  | settranslate b => exact hsame _ rfl rfl rfl
  | setfilter r t => exact hsame _ rfl rfl rfl
  | addpair pairdata => exact lwrx_addpair_store h pairdata c
  | makepair t m => exact hsame _ rfl rfl rfl
  | clearpairing =>
    simp only [rx_op]
    unfold lwrx_clearpairing
    dsimp only
    rw [if_pos (by decide)]
    refine ⟨fun _ => Nat.zero_le _, fun _ _ => rfl, fun hh => absurd rfl hh, fun _ => ?_⟩
    refine ⟨?_, ?_⟩
    · dsimp only; rw [aset_same]
    · intro i j hi _; exact absurd hi (Nat.not_lt_zero _)
  | setstatsenable b =>
    simp only [rx_op]
    unfold lwrx_setstatsenable
    dsimp only
    split_ifs <;> exact hsame _ rfl rfl rfl
  | capture => exact rx_addpairfrommsg_store h c

/-- A sequence of calls keeps the pair count within the capacity and writes no row of
the pair store from the capacity on; a mirrored persistent store stays mirrored. -/
theorem rx_ops_store (h : Header) (ops : List Op) :
    ∀ c : Ctx,
      (c.rx_paircount ≤ h.rx_maxpairs →
        (rx_ops h ops c).rx_paircount ≤ h.rx_maxpairs ∧
        ∀ i, h.rx_maxpairs ≤ i → (rx_ops h ops c).rx_pairs i = c.rx_pairs i) ∧
      (storeMirror c → storeMirror (rx_ops h ops c)) := by
  induction ops with
  | nil => intro c; exact ⟨fun hle => ⟨hle, fun _ _ => rfl⟩, fun hm => hm⟩
  | cons op ops ih =>
    intro c
    obtain ⟨r1, r2, r3, r4⟩ := rx_op_store h op c
    obtain ⟨i1, i2⟩ := ih (rx_op h op c)
    refine ⟨?_, fun hm => i2 (r4 hm)⟩
    intro hle
    obtain ⟨j1, j2⟩ := i1 (r1 hle)
    refine ⟨j1, ?_⟩
    intro i hi
    rw [show rx_ops h (op :: ops) c = rx_ops h ops (rx_op h op c) from rfl, j2 i hi]
    by_cases hic : i = c.rx_paircount
    · by_contra hne
      have : (rx_op h op c).rx_pairs ≠ c.rx_pairs := fun hh => hne (by rw [hh])
      have := r3 this
      omega
    · exact r2 i hic

/-- C11 (persistence round trip): starting from a cleared store (`lwrx_clearpairing`),
after every sequence of calls - `lwrx_addpair`, pairing captures, `lwrx_clearpairing`
and all the others - the byte of the persistent store at the base offset is the pair
count and the byte at base + 1 + 8 * i + j is byte `j` of entry `i` for all `i` below the
count and `j < 8`; and `restoreEEPROMPairing` run on that persistent store, from any
context, reconstructs the same count and the same entries below the count, and leaves
the persistent store as it is. -/
theorem restoreEEPROMPairing_round_trip (h : Header) (c c1 : Ctx) (ops : List Op) :
    (rx_ops h ops (lwrx_clearpairing c)).eeprom EEPROMaddr =
      (rx_ops h ops (lwrx_clearpairing c)).rx_paircount ∧
    (∀ i j : Nat, i < (rx_ops h ops (lwrx_clearpairing c)).rx_paircount → j < 8 →
      (rx_ops h ops (lwrx_clearpairing c)).eeprom (EEPROMaddr + 1 + 8 * (i : Int) + (j : Int)) =
        (rx_ops h ops (lwrx_clearpairing c)).rx_pairs i j) ∧
    (restoreEEPROMPairing h
        { c1 with eeprom := (rx_ops h ops (lwrx_clearpairing c)).eeprom }).rx_paircount =
      (rx_ops h ops (lwrx_clearpairing c)).rx_paircount ∧
    (∀ i j : Nat, i < (rx_ops h ops (lwrx_clearpairing c)).rx_paircount → j < 8 →
      (restoreEEPROMPairing h
          { c1 with eeprom := (rx_ops h ops (lwrx_clearpairing c)).eeprom }).rx_pairs i j =
        (rx_ops h ops (lwrx_clearpairing c)).rx_pairs i j) ∧
    (restoreEEPROMPairing h
        { c1 with eeprom := (rx_ops h ops (lwrx_clearpairing c)).eeprom }).eeprom =
      (rx_ops h ops (lwrx_clearpairing c)).eeprom := by
  have hclr : storeMirror (lwrx_clearpairing c) ∧ (lwrx_clearpairing c).rx_paircount = 0 := by
    unfold lwrx_clearpairing
    dsimp only
    rw [if_pos (by decide)]
    refine ⟨⟨?_, ?_⟩, rfl⟩
    · dsimp only; rw [aset_same]
    · intro i j hi _; exact absurd hi (Nat.not_lt_zero _)
  obtain ⟨hb, hm⟩ := rx_ops_store h ops (lwrx_clearpairing c)
  obtain ⟨m1, m2⟩ := hm hclr.1
  obtain ⟨hle, _⟩ := hb (by rw [hclr.2]; exact Nat.zero_le _)
  obtain ⟨hr, _⟩ := restoreEEPROMPairing_get h
    { c1 with eeprom := (rx_ops h ops (lwrx_clearpairing c)).eeprom }
  dsimp only at hr
  obtain ⟨r1, r2, r3⟩ := hr (by rw [m1]; exact hle)
  refine ⟨m1, m2, ?_, ?_, r2⟩
  · rw [r1, m1]
  · intro i j hi hj
    rw [r3 i j, if_pos ⟨by rw [m1]; exact hi, hj⟩]
    exact m2 i j hi hj

/-- C11 at a concrete input: from the cleared initial context a pair is added, a
pairing session is opened and a pair is captured from the stored message; restoring
from the persistent store gives the two pairs again. -/
theorem restoreEEPROMPairing_round_trip_witness :
    (rx_ops hdr0 [Op.addpair (fun i => i), Op.makepair 5 1000, Op.capture]
      (lwrx_clearpairing ctx0)).rx_paircount = 2 ∧
    (restoreEEPROMPairing hdr0
        { ctx0 with eeprom := (rx_ops hdr0 [Op.addpair (fun i => i), Op.makepair 5 1000,
            Op.capture] (lwrx_clearpairing ctx0)).eeprom }).rx_paircount =
      (rx_ops hdr0 [Op.addpair (fun i => i), Op.makepair 5 1000, Op.capture]
        (lwrx_clearpairing ctx0)).rx_paircount :=
  ⟨by decide,
   (restoreEEPROMPairing_round_trip hdr0 ctx0 ctx0
      [Op.addpair (fun i => i), Op.makepair 5 1000, Op.capture]).2.2.1⟩

/-! Pulse statistics -/

theorem rx_stats_update_get (s : Nat → Nat) (imax imin iave d : Nat)
    (h1 : imax ≠ imin) (h2 : imax ≠ iave) (h3 : imin ≠ iave) :
    rx_stats_update s imax imin iave d imax = max (s imax) d ∧
    rx_stats_update s imax imin iave d imin = min (s imin) d ∧
    rx_stats_update s imax imin iave d iave = (s iave - (s iave >>> 4) + d) % 65536 ∧
    ∀ k, k ≠ imax → k ≠ imin → k ≠ iave → rx_stats_update s imax imin iave d k = s k := by
  unfold rx_stats_update
  refine ⟨?_, ?_, ?_, ?_⟩
  · rw [aset_other _ _ _ _ h2, aset_other _ _ _ _ h1, aset_same]
  · rw [aset_other _ _ _ _ h3, aset_same, aset_other _ _ _ _ (Ne.symm h1)]
  · rw [aset_same, aset_other _ _ _ _ (Ne.symm h3), aset_other _ _ _ _ (Ne.symm h2)]
  · intro k k1 k2 k3
    rw [aset_other _ _ _ _ k3, aset_other _ _ _ _ k2, aset_other _ _ _ _ k1]

theorem rx_getbyte_event_stats (h : Header) (e d : Nat) (c : Ctx) :
    (rx_getbyte_event h e d c).lwrx_stats_enable = c.lwrx_stats_enable ∧
    (rx_getbyte_event h e d c).lwrx_stats =
      if c.lwrx_stats_enable = true then
        if e = 2 then rx_stats_update c.lwrx_stats h.rx_stat_high_max h.rx_stat_high_min
          h.rx_stat_high_ave d
        else if e = 3 then rx_stats_update c.lwrx_stats h.rx_stat_low1_max h.rx_stat_low1_min
          h.rx_stat_low1_ave d
        else if e = 5 then rx_stats_update c.lwrx_stats h.rx_stat_low0_max h.rx_stat_low0_min
          h.rx_stat_low0_ave d
        else c.lwrx_stats
      else c.lwrx_stats := by
  unfold rx_getbyte_event
  dsimp only
  split_ifs <;> exact ⟨rfl, rfl⟩

/-- The statistics after one call of the state machine: changed by the inner switch of
the state `rx_state_getbyte` only. -/
theorem rx_traced_stats (h : Header) (e d m : Nat) (c : Ctx) :
    (rx_transitions_traced h e d m c).1.lwrx_stats_enable = c.lwrx_stats_enable ∧
    (rx_transitions_traced h e d m c).1.lwrx_stats =
      if c.rx_state = rx_state_getbyte then (rx_getbyte_event h e d c).lwrx_stats
      else c.lwrx_stats := by
  unfold rx_state_getbyte
  by_cases hs3 : c.rx_state = 3
  · rw [if_pos hs3, rx_traced_getbyte h e d m c hs3]
    obtain ⟨g1, _⟩ := rx_getbyte_event_stats h e d c
    split_ifs
    · obtain ⟨_, _, _, _, f5, f6⟩ := rx_finalize_decoder h m
        { rx_getbyte_event h e d c with
          rx_num_bytes := ((rx_getbyte_event h e d c).rx_num_bytes + 1) % 256,
          rx_num_bits := 0 }
      exact ⟨f6.trans g1, f5⟩
    · exact ⟨g1, rfl⟩
    · exact ⟨g1, rfl⟩
  · rw [if_neg hs3]
    unfold rx_transitions_traced
    unfold rx_state_idle rx_state_msgstartfound rx_state_bytestartfound rx_state_getbyte
    rw [if_neg hs3]
    split_ifs <;> exact ⟨rfl, rfl⟩

theorem rx_event_three (level dur : Nat) (hl : level ≤ 1) (he : rx_event level dur = 3) :
    level = 1 ∧ 120 ≤ dur ∧ dur ≤ 499 := by
  unfold rx_event at he
  split_ifs at he <;> omega

/-- Calls other than the interrupt routine and `lwrx_setstatsenable` leave the
statistics alone. -/
theorem rx_op_stats (h : Header) (op : Op) (c : Ctx) (hop : statsOp op)
    (hne : ∀ level curr currMillis, op ≠ Op.edge level curr currMillis) :
    (rx_op h op c).lwrx_stats_enable = c.lwrx_stats_enable ∧
    (rx_op h op c).lwrx_stats = c.lwrx_stats := by
  cases op with
  | edge level curr currMillis => exact absurd rfl (hne level curr currMillis)
  | getmessage len =>
    simp only [rx_op]
    unfold lwrx_getmessage
    split_ifs <;> exact ⟨rfl, rfl⟩
  | settranslate b => exact ⟨rfl, rfl⟩
  | setfilter r t => exact ⟨rfl, rfl⟩
  | addpair pairdata =>
    simp only [rx_op]
    unfold lwrx_addpair
    dsimp only
    split_ifs
    · unfold rx_paircommit
      split_ifs <;> exact ⟨rfl, rfl⟩
    · exact ⟨rfl, rfl⟩
  | makepair t m => exact ⟨rfl, rfl⟩
  | clearpairing =>
    simp only [rx_op]
    unfold lwrx_clearpairing
    dsimp only
    split_ifs <;> exact ⟨rfl, rfl⟩
  | setstatsenable b => exact absurd hop (by unfold statsOp; exact not_false)
  | capture =>
    simp only [rx_op]
    unfold rx_addpairfrommsg
    split_ifs
    · unfold rx_paircommit
      split_ifs <;> exact ⟨rfl, rfl⟩
    · exact ⟨rfl, rfl⟩

theorem foldl_max_spec (ds : List Nat) :
    ∀ a, a ≤ ds.foldl max a ∧ (∀ d, d ∈ ds → d ≤ ds.foldl max a) ∧
      (ds.foldl max a = a ∨ ds.foldl max a ∈ ds) := by
  induction ds with
  | nil => intro a; exact ⟨le_refl _, fun d hd => absurd hd (List.not_mem_nil d), Or.inl rfl⟩
  | cons x ds ih =>
    intro a
    obtain ⟨i1, i2, i3⟩ := ih (max a x)
    rw [List.foldl_cons]
    refine ⟨le_trans (le_max_left a x) i1, ?_, ?_⟩
    · intro d hd
      rcases List.mem_cons.1 hd with rfl | hd
      · exact le_trans (le_max_right a d) i1
      · exact i2 d hd
    · rcases i3 with i3 | i3
      · rcases max_choice a x with hm | hm
        · exact Or.inl (i3.trans hm)
        · exact Or.inr (by rw [i3, hm]; exact List.mem_cons_self _ _)
      · exact Or.inr (List.mem_cons_of_mem _ i3)

theorem foldl_min_spec (ds : List Nat) :
    ∀ a, ds.foldl min a ≤ a ∧ (∀ d, d ∈ ds → ds.foldl min a ≤ d) ∧
      (ds.foldl min a = a ∨ ds.foldl min a ∈ ds) := by
  induction ds with
  | nil => intro a; exact ⟨le_refl _, fun d hd => absurd hd (List.not_mem_nil d), Or.inl rfl⟩
  | cons x ds ih =>
    intro a
    obtain ⟨i1, i2, i3⟩ := ih (min a x)
    rw [List.foldl_cons]
    refine ⟨le_trans i1 (min_le_left a x), ?_, ?_⟩
    · intro d hd
      rcases List.mem_cons.1 hd with rfl | hd
      · exact le_trans i1 (min_le_right a d)
      · exact i2 d hd
    · rcases i3 with i3 | i3
      · rcases min_choice a x with hm | hm
        · exact Or.inl (i3.trans hm)
        · exact Or.inr (by rw [i3, hm]; exact List.mem_cons_self _ _)
      · exact Or.inr (List.mem_cons_of_mem _ i3)

/-- From a start value of at most 20000 and samples of at most 499 the 16-bit average
never wraps: it is the exact recurrence, and stays at most 20000. -/
theorem aveRecurrence_nowrap (ds : List Nat) :
    ∀ a, a ≤ 20000 → (∀ d, d ∈ ds → d ≤ 499) →
      ds.foldl (fun a d => (a - (a >>> 4) + d) % 65536) a = aveRecurrence a ds ∧
      aveRecurrence a ds ≤ 20000 := by
  induction ds with
  | nil => intro a ha _; exact ⟨rfl, ha⟩
  | cons x ds ih =>
    intro a ha hd
    have hx : x ≤ 499 := hd x (List.mem_cons_self _ _)
    have hsh : a >>> 4 = a / 16 := Nat.shiftRight_eq_div_pow a 4
    have hstep : (a - (a >>> 4) + x) % 65536 = a - a / 16 + x := by
      rw [hsh]
      exact Nat.mod_eq_of_lt (by omega)
    obtain ⟨i1, i2⟩ := ih (a - a / 16 + x) (by omega)
      (fun d hdd => hd d (List.mem_cons_of_mem _ hdd))
    unfold aveRecurrence at i1 i2 ⊢
    rw [List.foldl_cons, List.foldl_cons, hstep]
    exact ⟨i1, i2⟩

theorem rx_stats_update_other (s : Nat → Nat) (imax imin iave d k : Nat)
    (k1 : k ≠ imax) (k2 : k ≠ imin) (k3 : k ≠ iave) :
    rx_stats_update s imax imin iave d k = s k := by
  unfold rx_stats_update
  rw [aset_other _ _ _ _ k3, aset_other _ _ _ _ k2, aset_other _ _ _ _ k1]

theorem lwrx_statsdflt_le (k : Nat) : lwrx_statsdflt.getD k 0 ≤ 20000 := by
  by_cases hk : k < 9
  · interval_cases k <;> decide
  · rw [List.getD_eq_default _ _ (by unfold lwrx_statsdflt; simp; omega)]
    exact Nat.zero_le _

/-- One call and the low1 statistics, statistics enabled: the sample taken by the call,
if any, enters the maximum, the minimum and the 16-bit average; no other call changes
them. -/
theorem rx_op_low1 (h : Header) (op : Op) (c : Ctx) (hnd : (statIndices h).Nodup)
    (hen : c.lwrx_stats_enable = true) (hop : statsOp op) :
    (rx_op h op c).lwrx_stats_enable = true ∧
    (rx_op h op c).lwrx_stats h.rx_stat_low1_max =
      (rx_low1_sample op c).foldl max (c.lwrx_stats h.rx_stat_low1_max) ∧
    (rx_op h op c).lwrx_stats h.rx_stat_low1_min =
      (rx_low1_sample op c).foldl min (c.lwrx_stats h.rx_stat_low1_min) ∧
    (rx_op h op c).lwrx_stats h.rx_stat_low1_ave =
      (rx_low1_sample op c).foldl (fun a d => (a - (a >>> 4) + d) % 65536)
        (c.lwrx_stats h.rx_stat_low1_ave) ∧
    (∀ d, d ∈ rx_low1_sample op c → 120 ≤ d ∧ d ≤ 499) := by
  by_cases hedge : ∃ level curr currMillis, op = Op.edge level curr currMillis
  · obtain ⟨level, curr, m, rfl⟩ := hedge
    have hl : level ≤ 1 := hop
    simp only [statIndices, List.nodup_cons, List.mem_cons, List.mem_singleton, not_or,
      List.not_mem_nil, not_false_eq_true, List.nodup_nil, and_true] at hnd
    obtain ⟨⟨_, _, _, _, _, n06, n07, n08⟩, ⟨_, _, _, _, n16, n17, n18⟩,
      ⟨_, _, _, n26, n27, n28⟩, ⟨_, _, n36, n37, n38⟩, ⟨_, n46, n47, n48⟩,
      ⟨n56, n57, n58⟩, ⟨n67, n68⟩, n78⟩ := hnd
    obtain ⟨t1, t2⟩ := rx_traced_stats h (rx_event level (sub32 curr c.rx_prev % 65536))
      (sub32 curr c.rx_prev % 65536) m { c with rx_prev := curr }
    obtain ⟨_, g2⟩ := rx_getbyte_event_stats h (rx_event level (sub32 curr c.rx_prev % 65536))
      (sub32 curr c.rx_prev % 65536) c
    have g3 : (rx_getbyte_event h (rx_event level (sub32 curr c.rx_prev % 65536))
        (sub32 curr c.rx_prev % 65536) { c with rx_prev := curr }).lwrx_stats =
        (rx_getbyte_event h (rx_event level (sub32 curr c.rx_prev % 65536))
          (sub32 curr c.rx_prev % 65536) c).lwrx_stats := by
      rw [rx_getbyte_event_prev]
    have hrx : rx_op h (Op.edge level curr m) c =
        (rx_transitions_traced h (rx_event level (sub32 curr c.rx_prev % 65536))
          (sub32 curr c.rx_prev % 65536) m { c with rx_prev := curr }).1 := rfl
    dsimp only at t1 t2
    rw [hen, if_pos rfl] at g2
    rw [hrx, t1, t2]
    unfold rx_low1_sample
    dsimp only
    by_cases hs : c.rx_state = rx_state_getbyte
    · rw [if_pos hs, g3, g2]
      by_cases h3 : rx_event level (sub32 curr c.rx_prev % 65536) = 3
      · obtain ⟨_, v1, v2⟩ := rx_event_three level _ hl h3
        have hsamp : (if c.rx_state = rx_state_getbyte ∧
            rx_event level (sub32 curr c.rx_prev % 65536) = 3
            then [sub32 curr c.rx_prev % 65536] else []) = [sub32 curr c.rx_prev % 65536] :=
          if_pos ⟨hs, h3⟩
        rw [hsamp, if_neg (show ¬ rx_event level (sub32 curr c.rx_prev % 65536) = 2 by omega),
          if_pos h3]
        obtain ⟨u1, u2, u3, _⟩ := rx_stats_update_get c.lwrx_stats h.rx_stat_low1_max
          h.rx_stat_low1_min h.rx_stat_low1_ave (sub32 curr c.rx_prev % 65536)
          n78 (Ne.symm n67) (Ne.symm n68)
        refine ⟨hen, u1, u2, u3, ?_⟩
        intro d hd
        rw [List.mem_singleton.1 hd]
        exact ⟨v1, v2⟩
      · have hsamp : (if c.rx_state = rx_state_getbyte ∧
            rx_event level (sub32 curr c.rx_prev % 65536) = 3
            then [sub32 curr c.rx_prev % 65536] else []) = [] :=
          if_neg (fun hh => h3 hh.2)
        rw [hsamp, if_neg h3]
        simp only [List.foldl_nil]
        refine ⟨hen, ?_, ?_, ?_, fun d hd => absurd hd (List.not_mem_nil d)⟩
        · split_ifs
          · exact rx_stats_update_other _ _ _ _ _ _ (Ne.symm n17) (Ne.symm n27) (Ne.symm n07)
          · exact rx_stats_update_other _ _ _ _ _ _ (Ne.symm n47) (Ne.symm n57) (Ne.symm n37)
          · rfl
        · split_ifs
          · exact rx_stats_update_other _ _ _ _ _ _ (Ne.symm n18) (Ne.symm n28) (Ne.symm n08)
          · exact rx_stats_update_other _ _ _ _ _ _ (Ne.symm n48) (Ne.symm n58) (Ne.symm n38)
          · rfl
        · split_ifs
          · exact rx_stats_update_other _ _ _ _ _ _ (Ne.symm n16) (Ne.symm n26) (Ne.symm n06)
          · exact rx_stats_update_other _ _ _ _ _ _ (Ne.symm n46) (Ne.symm n56) (Ne.symm n36)
          · rfl
    · rw [if_neg hs, if_neg (fun hh => hs hh.1)]
      exact ⟨hen, rfl, rfl, rfl, fun d hd => absurd hd (List.not_mem_nil d)⟩
  · have hne : ∀ level curr currMillis, op ≠ Op.edge level curr currMillis :=
      fun l cu m he => hedge ⟨l, cu, m, he⟩
    obtain ⟨s1, s2⟩ := rx_op_stats h op c hop hne
    have hs : rx_low1_sample op c = [] := by
      cases op <;> first | rfl | exact absurd rfl (hne _ _ _)
    rw [s1, s2, hs]
    exact ⟨hen, rfl, rfl, rfl, fun d hd => absurd hd (List.not_mem_nil d)⟩

/-- A sequence of calls and the low1 statistics, statistics enabled. -/
theorem rx_ops_low1 (h : Header) (hnd : (statIndices h).Nodup) (ops : List Op) :
    ∀ c : Ctx, c.lwrx_stats_enable = true → (∀ op, op ∈ ops → statsOp op) →
      (rx_ops h ops c).lwrx_stats_enable = true ∧
      (rx_ops h ops c).lwrx_stats h.rx_stat_low1_max =
        (rx_low1_samples h ops c).foldl max (c.lwrx_stats h.rx_stat_low1_max) ∧
      (rx_ops h ops c).lwrx_stats h.rx_stat_low1_min =
        (rx_low1_samples h ops c).foldl min (c.lwrx_stats h.rx_stat_low1_min) ∧
      (rx_ops h ops c).lwrx_stats h.rx_stat_low1_ave =
        (rx_low1_samples h ops c).foldl (fun a d => (a - (a >>> 4) + d) % 65536)
          (c.lwrx_stats h.rx_stat_low1_ave) ∧
      (∀ d, d ∈ rx_low1_samples h ops c → 120 ≤ d ∧ d ≤ 499) := by
  induction ops with
  | nil =>
    intro c hen _
    exact ⟨hen, rfl, rfl, rfl, fun d hd => absurd hd (List.not_mem_nil d)⟩
  | cons op ops ih =>
    intro c hen hops
    obtain ⟨a1, a2, a3, a4, a5⟩ := rx_op_low1 h op c hnd hen (hops op (List.mem_cons_self _ _))
    obtain ⟨b1, b2, b3, b4, b5⟩ := ih (rx_op h op c) a1
      (fun o ho => hops o (List.mem_cons_of_mem _ ho))
    have hr : rx_ops h (op :: ops) c = rx_ops h ops (rx_op h op c) := rfl
    have hsm : rx_low1_samples h (op :: ops) c =
        rx_low1_sample op c ++ rx_low1_samples h ops (rx_op h op c) := rfl
    rw [hr, hsm, List.foldl_append, List.foldl_append, List.foldl_append, ← a2, ← a3, ← a4]
    refine ⟨b1, b2, b3, b4, ?_⟩
    intro d hd
    rcases List.mem_append.1 hd with hd | hd
    · exact a5 d hd
    · exact b5 d hd

theorem lwrx_getstats_get (h : Header) (stats : Nat → Nat) (c : Ctx)
    (hen : c.lwrx_stats_enable = true) :
    (lwrx_getstats h stats c).1 = true ∧
    ∀ k, k < h.rx_stat_count → (lwrx_getstats h stats c).2 k = c.lwrx_stats k := by
  unfold lwrx_getstats
  rw [if_pos hen]
  refine ⟨rfl, ?_⟩
  intro k hk
  dsimp only
  unfold memcpy
  rw [if_pos hk]

/-- C13 (statistics of class low1): with the nine statistics indices distinct and
inside the statistics array, a default low1 maximum of at most 120 and a default low1
minimum of at least 499 (in the published layout they are 0 and 500), statistics
enabled and at their defaults, after any sequence of calls that take at least one
low1 sample - no call to `lwrx_setstatsenable`, pin levels 0 or 1 - every sample lies
in 120..499, `lwrx_getstats` succeeds and reports as low1 maximum the largest sample,
as low1 minimum the smallest sample, and as low1 average the value of the recurrence
`a - floor(a / 16) + d` run over the samples from the default average, no step of
which reaches 65536.  The defaults are the values installed by `lwrx_setup`, and by
disabling and re-enabling the statistics, which also leaves them enabled. -/
theorem lwrx_getstats_low1 (h : Header) (ops : List Op) (c : Ctx) (stats : Nat → Nat)
    (hnd : (statIndices h).Nodup) (hcount : h.rx_stat_count = lwrx_statsdflt.length)
    (hlt : h.rx_stat_low1_max < h.rx_stat_count ∧ h.rx_stat_low1_min < h.rx_stat_count ∧
      h.rx_stat_low1_ave < h.rx_stat_count)
    (hdmax : lwrx_statsdflt.getD h.rx_stat_low1_max 0 ≤ 120)
    (hdmin : 499 ≤ lwrx_statsdflt.getD h.rx_stat_low1_min 0)
    (hen : c.lwrx_stats_enable = true)
    (hdef : ∀ k, k < h.rx_stat_count → c.lwrx_stats k = lwrx_statsdflt.getD k 0)
    (hops : ∀ op, op ∈ ops → statsOp op)
    (hne : rx_low1_samples h ops c ≠ []) :
    (∀ d, d ∈ rx_low1_samples h ops c → 120 ≤ d ∧ d ≤ 499) ∧
    (lwrx_getstats h stats (rx_ops h ops c)).1 = true ∧
    ((lwrx_getstats h stats (rx_ops h ops c)).2 h.rx_stat_low1_max ∈ rx_low1_samples h ops c ∧
      ∀ d, d ∈ rx_low1_samples h ops c →
        d ≤ (lwrx_getstats h stats (rx_ops h ops c)).2 h.rx_stat_low1_max) ∧
    ((lwrx_getstats h stats (rx_ops h ops c)).2 h.rx_stat_low1_min ∈ rx_low1_samples h ops c ∧
      ∀ d, d ∈ rx_low1_samples h ops c →
        (lwrx_getstats h stats (rx_ops h ops c)).2 h.rx_stat_low1_min ≤ d) ∧
    (lwrx_getstats h stats (rx_ops h ops c)).2 h.rx_stat_low1_ave =
      aveRecurrence (lwrx_statsdflt.getD h.rx_stat_low1_ave 0) (rx_low1_samples h ops c) ∧
    (∀ k, aveRecurrence (lwrx_statsdflt.getD h.rx_stat_low1_ave 0)
      ((rx_low1_samples h ops c).take k) < 65536) ∧
    (∀ (c0 : Ctx) (k : Nat), k < h.rx_stat_count →
      (lwrx_setup h c0).lwrx_stats k = lwrx_statsdflt.getD k 0) ∧
    (∀ c0 : Ctx, (lwrx_setstatsenable true (lwrx_setstatsenable false c0)).lwrx_stats_enable =
        true ∧
      ∀ k, k < h.rx_stat_count →
        (lwrx_setstatsenable true (lwrx_setstatsenable false c0)).lwrx_stats k =
          lwrx_statsdflt.getD k 0) := by
  obtain ⟨l1, l2, l3⟩ := hlt
  obtain ⟨a1, a2, a3, a4, a5⟩ := rx_ops_low1 h hnd ops c hen hops
  obtain ⟨g1, g2⟩ := lwrx_getstats_get h stats (rx_ops h ops c) a1
  obtain ⟨d0, hd0⟩ := List.exists_mem_of_ne_nil _ hne
  rw [hdef _ l1] at a2
  rw [hdef _ l2] at a3
  rw [hdef _ l3] at a4
  obtain ⟨x1, x2, x3⟩ := foldl_max_spec (rx_low1_samples h ops c)
    (lwrx_statsdflt.getD h.rx_stat_low1_max 0)
  obtain ⟨y1, y2, y3⟩ := foldl_min_spec (rx_low1_samples h ops c)
    (lwrx_statsdflt.getD h.rx_stat_low1_min 0)
  obtain ⟨z1, z2⟩ := aveRecurrence_nowrap (rx_low1_samples h ops c)
    (lwrx_statsdflt.getD h.rx_stat_low1_ave 0) (lwrx_statsdflt_le _) (fun d hd => (a5 d hd).2)
  refine ⟨a5, g1, ⟨?_, ?_⟩, ⟨?_, ?_⟩, ?_, ?_, ?_, ?_⟩
  · rw [g2 _ l1, a2]
    rcases x3 with x3 | x3
    · have e1 := x2 d0 hd0
      have e2 := (a5 d0 hd0).1
      have : d0 = List.foldl max (lwrx_statsdflt.getD h.rx_stat_low1_max 0)
          (rx_low1_samples h ops c) := by omega
      rw [← this]
      exact hd0
    · exact x3
  · intro d hd
    rw [g2 _ l1, a2]
    exact x2 d hd
  · rw [g2 _ l2, a3]
    rcases y3 with y3 | y3
    · have e1 := y2 d0 hd0
      have e2 := (a5 d0 hd0).2
      have : d0 = List.foldl min (lwrx_statsdflt.getD h.rx_stat_low1_min 0)
          (rx_low1_samples h ops c) := by omega
      rw [← this]
      exact hd0
    · exact y3
  · intro d hd
    rw [g2 _ l2, a3]
    exact y2 d hd
  · rw [g2 _ l3, a4]
    exact z1
  · intro k
    have := (aveRecurrence_nowrap ((rx_low1_samples h ops c).take k)
      (lwrx_statsdflt.getD h.rx_stat_low1_ave 0) (lwrx_statsdflt_le _)
      (fun d hd => (a5 d (List.mem_of_mem_take hd)).2)).2
    omega
  · intro c0 k hk
    unfold lwrx_setup
    dsimp only
    unfold memcpy
    rw [if_pos (by rw [← hcount]; exact hk)]
  · intro c0
    unfold lwrx_setstatsenable
    dsimp only
    refine ⟨by simp, ?_⟩
    intro k hk
    simp only [Bool.not_false, if_true, Bool.not_true]
    unfold memcpy
    simp only [Bool.false_eq_true, if_false]
    rw [if_pos (by rw [← hcount]; exact hk)]

/-- C13 at a concrete input: the published layout, the context after `lwrx_setup`, and
edges that deliver the low1 samples 250, 300 and 200. -/
theorem lwrx_getstats_low1_witness :
    (statIndices hdr0).Nodup ∧ ctxSetup.lwrx_stats_enable = true ∧
    rx_low1_samples hdr0 opsLow1 ctxSetup = [250, 300, 200] ∧
    (lwrx_getstats hdr0 (fun _ => 0) (rx_ops hdr0 opsLow1 ctxSetup)).2 hdr0.rx_stat_low1_ave =
      aveRecurrence (lwrx_statsdflt.getD hdr0.rx_stat_low1_ave 0)
        (rx_low1_samples hdr0 opsLow1 ctxSetup) ∧
    (lwrx_getstats hdr0 (fun _ => 0) (rx_ops hdr0 opsLow1 ctxSetup)).2 hdr0.rx_stat_low1_max =
      300 ∧
    (lwrx_getstats hdr0 (fun _ => 0) (rx_ops hdr0 opsLow1 ctxSetup)).2 hdr0.rx_stat_low1_min =
      200 ∧
    (lwrx_getstats hdr0 (fun _ => 0) (rx_ops hdr0 opsLow1 ctxSetup)).2 hdr0.rx_stat_low1_ave =
      3997 :=
  ⟨by decide, rfl, by decide,
   (lwrx_getstats_low1 hdr0 opsLow1 ctxSetup (fun _ => 0) (by decide) rfl
      ⟨by decide, by decide, by decide⟩ (by decide) (by decide) rfl (by decide)
      (by
        intro op hop
        simp only [opsLow1, List.mem_cons, List.mem_singleton, List.not_mem_nil,
          or_false] at hop
        rcases hop with rfl | rfl | rfl | rfl | rfl | rfl <;> exact Nat.le_refl 1)
      (by decide)).2.2.2.2.1,
   by decide, by decide, by decide⟩

/-! Long runs of repeats -/

/-- C19, the code at the failing input: threshold 2 and timeout 20 units, and a run of
258 candidates with the same bytes, 200 ms apart, the first of which differs from the
stored message and sets the counter to 1.  Message finalization leaves the reception
buffer alone, so every candidate of the run is byte-identical, and each arrives inside
the window of the previous one.  The second candidate is eligible, and so is the
258th: the one-byte counter passes 255, is 0 after the 256th candidate and is 2 again
at the 258th. -/
theorem rx_eligible_run_wraps :
    ctxBuf.rx_repeats = 2 ∧ ctxBuf.rx_timeout = 20 ∧ (runTimes 258).length = 258 ∧
    (rx_finalize hdr0 5000 ctxBuf).rx_repeatcount = 1 ∧
    (∀ (t : Nat) (c : Ctx), (rx_finalize hdr0 t c).rx_buf = c.rx_buf) ∧
    (∀ k, k < 257 →
      sub32 ((runTimes 258).getD (k + 1) 0) ((runTimes 258).getD k 0) / 100 ≤ 20) ∧
    rx_eligible_run hdr0 (runTimes 258) ctxBuf =
      false :: true :: (List.replicate 255 false ++ [true]) ∧
    (rx_finalize_run hdr0 (runTimes 256) ctxBuf).rx_repeatcount = 0 ∧
    (rx_finalize_run hdr0 (runTimes 258) ctxBuf).rx_repeatcount = 2 :=
  ⟨by decide, by decide, by decide!, by decide,
   fun t c => (rx_finalize_decoder hdr0 t c).2.2.2.1,
   by decide!, by decide!, by decide!, by decide!⟩

/-! Rows of the pair store that are read -/

theorem rx_checkPairs_rows (c c1 : Ctx) (buf : Nat → Nat)
    (hcnt : c1.rx_paircount = c.rx_paircount)
    (hrows : ∀ i, i < c.rx_paircount → c1.rx_pairs i = c.rx_pairs i) :
    rx_checkPairs c1 buf = rx_checkPairs c buf := by
  rw [Bool.eq_iff_iff, rx_checkPairs_iff, rx_checkPairs_iff, hcnt]
  constructor
  · rintro (h0 | ⟨i, hi, heq⟩)
    · exact Or.inl h0
    · exact Or.inr ⟨i, hi, fun j hj hj1 => by rw [← hrows i hi]; exact heq j hj hj1⟩
  · rintro (h0 | ⟨i, hi, heq⟩)
    · exact Or.inl h0
    · exact Or.inr ⟨i, hi, fun j hj hj1 => by rw [hrows i hi]; exact heq j hj hj1⟩

/-- Committing a pair below the capacity reads no row of the pair store from the
capacity on. -/
theorem rx_paircommit_rows (h : Header) (c : Ctx) (P : Nat → Nat → Nat)
    (hlt : c.rx_paircount < h.rx_maxpairs)
    (hP : ∀ i, i < h.rx_maxpairs → P i = c.rx_pairs i) :
    rx_paircommit { c with rx_pairs := P } = { rx_paircommit c with rx_pairs := P } := by
  have hrow : P c.rx_paircount = c.rx_pairs c.rx_paircount := hP _ hlt
  have hst : pairStored { c with rx_pairs := P } (P c.rx_paircount) ↔
      pairStored c (c.rx_pairs c.rx_paircount) := by
    refine pairStored_congr c _ _ _ rfl ?_ ?_
    · intro i hi j _
      dsimp only
      rw [hP i (by omega)]
    · intro j _
      rw [hrow]
  by_cases hdup : pairStored c (c.rx_pairs c.rx_paircount)
  · rw [rx_paircommit_dup c hdup, rx_paircommit_dup _ (hst.2 hdup)]
  · rw [rx_paircommit_new c hdup, rx_paircommit_new _ (fun hh => hdup (hst.1 hh))]
    have hw : rx_paircommit_write { c with rx_pairs := P } 8 c.eeprom =
        rx_paircommit_write c 8 c.eeprom := by
      funext a
      rw [rx_paircommit_write_get, rx_paircommit_write_get]
      dsimp only
      rw [hrow]
    dsimp only
    rw [hw]

theorem rx_paircommit_rows2 (h : Header) (c : Ctx) (Pa Pb : Nat → Nat → Nat)
    (hlt : c.rx_paircount < h.rx_maxpairs)
    (hab : ∀ i, i < h.rx_maxpairs → Pa i = Pb i) :
    rx_paircommit { c with rx_pairs := Pa } =
      { rx_paircommit { c with rx_pairs := Pb } with rx_pairs := Pa } :=
  rx_paircommit_rows h { c with rx_pairs := Pb } Pa hlt hab

/-- Capturing a pair with the count within the capacity reads no row of the pair
store from the capacity on. -/
theorem rx_addpairfrommsg_rows (h : Header) (c : Ctx) (P : Nat → Nat → Nat)
    (hP : ∀ i, i < h.rx_maxpairs → P i = c.rx_pairs i) :
    ∃ Q : Nat → Nat → Nat,
      rx_addpairfrommsg h { c with rx_pairs := P } =
        { rx_addpairfrommsg h c with rx_pairs := Q } ∧
      ∀ i, i < h.rx_maxpairs → Q i = (rx_addpairfrommsg h c).rx_pairs i := by
  unfold rx_addpairfrommsg
  dsimp only
  by_cases hlt : c.rx_paircount < h.rx_maxpairs
  · rw [if_pos hlt, if_pos hlt]
    refine ⟨fun k => if k = c.rx_paircount
        then memcpy (P k) (fun j => c.rx_msg (j + 2)) 8 else P k, ?_, ?_⟩
    · refine rx_paircommit_rows2 h c _ _ hlt ?_
      intro i hi
      dsimp only
      rw [hP i hi]
    · intro i hi
      rw [(rx_paircommit_count _).1]
      dsimp only
      rw [hP i hi]
  · rw [if_neg hlt, if_neg hlt]
    exact ⟨P, rfl, hP⟩

/-- Adding a pair with the count within the capacity reads no row of the pair store
from the capacity on. -/
theorem lwrx_addpair_rows (h : Header) (pairdata : Nat → Nat) (c : Ctx)
    (P : Nat → Nat → Nat) (hP : ∀ i, i < h.rx_maxpairs → P i = c.rx_pairs i) :
    ∃ Q : Nat → Nat → Nat,
      (lwrx_addpair h pairdata { c with rx_pairs := P }).2 =
        { (lwrx_addpair h pairdata c).2 with rx_pairs := Q } ∧
      ∀ i, i < h.rx_maxpairs → Q i = (lwrx_addpair h pairdata c).2.rx_pairs i := by
  unfold lwrx_addpair
  dsimp only
  by_cases hlt : c.rx_paircount < h.rx_maxpairs
  · rw [if_pos hlt, if_pos hlt]
    have hrows : ∀ i, i < h.rx_maxpairs →
        lwrx_addpair_loop pairdata c.rx_paircount 8 P i =
          lwrx_addpair_loop pairdata c.rx_paircount 8 c.rx_pairs i := by
      intro i hi
      funext j
      rw [lwrx_addpair_loop_get, lwrx_addpair_loop_get, hP i hi]
    refine ⟨lwrx_addpair_loop pairdata c.rx_paircount 8 P, ?_, ?_⟩
    · exact rx_paircommit_rows2 h c _ _ hlt hrows
    · intro i hi
      rw [(rx_paircommit_count _).1]
      exact hrows i hi
  · rw [if_neg hlt, if_neg hlt]
    exact ⟨P, rfl, hP⟩

/-- The acceptance step with the count within the capacity reads no row of the pair
store from the capacity on. -/
theorem rx_accept_rows (h : Header) (now : Nat) (c : Ctx) (P : Nat → Nat → Nat)
    (hle : c.rx_paircount ≤ h.rx_maxpairs)
    (hP : ∀ i, i < h.rx_maxpairs → P i = c.rx_pairs i) :
    ∃ Q : Nat → Nat → Nat,
      rx_accept h now { c with rx_pairs := P } = { rx_accept h now c with rx_pairs := Q } ∧
      ∀ i, i < h.rx_maxpairs → Q i = (rx_accept h now c).rx_pairs i := by
  have hns : ∀ c0 : Ctx, c0.rx_paircount ≤ h.rx_maxpairs →
      (∀ i, i < h.rx_maxpairs → P i = c0.rx_pairs i) → rx_eligible c0 →
      c0.rx_pairtimeout = 0 →
      rx_accept h now { c0 with rx_pairs := P } = { rx_accept h now c0 with rx_pairs := P } ∧
      ∀ i, i < h.rx_maxpairs → P i = (rx_accept h now c0).rx_pairs i := by
    intro c0 hle0 hP0 he0 hs0
    have hck : rx_checkPairs { c0 with rx_pairs := P } (fun j => c0.rx_msg (j + 2)) =
        rx_checkPairs c0 (fun j => c0.rx_msg (j + 2)) :=
      rx_checkPairs_rows c0 _ _ rfl (fun i hi => hP0 i (by omega))
    rw [rx_accept_no_session h now c0 he0 hs0,
      rx_accept_no_session h now { c0 with rx_pairs := P } he0 hs0]
    dsimp only
    rw [hck]
    exact ⟨rfl, hP0⟩
  by_cases he : rx_eligible c
  · have he1 : rx_eligible { c with rx_pairs := P } := he
    by_cases hs : c.rx_pairtimeout = 0
    · obtain ⟨r1, r2⟩ := hns c hle hP he hs
      exact ⟨P, r1, r2⟩
    · by_cases hwin : sub32 now c.rx_pairstarttime / 100 ≤ c.rx_pairtimeout
      · obtain ⟨Q, q1, q2⟩ := rx_addpairfrommsg_rows h c P hP
        rw [rx_accept_in_window h now c he hs hwin,
          rx_accept_in_window h now { c with rx_pairs := P } he1 hs hwin, q1]
        exact ⟨Q, rfl, q2⟩
      · rw [rx_accept_expired h now c he hs hwin,
          rx_accept_expired h now { c with rx_pairs := P } he1 hs hwin]
        obtain ⟨r1, r2⟩ := hns { c with rx_pairtimeout := 0 } hle hP he rfl
        exact ⟨P, r1, r2⟩
  · have he1 : ¬ rx_eligible { c with rx_pairs := P } := he
    rw [rx_accept_not_eligible h now c he, rx_accept_not_eligible h now _ he1]
    exact ⟨P, rfl, hP⟩

theorem rx_candidate_ctx_rows (now : Nat) (c : Ctx) (P : Nat → Nat → Nat) :
    rx_candidate_ctx now { c with rx_pairs := P } =
      { rx_candidate_ctx now c with rx_pairs := P } := by
  have hcount : (rx_repeat_filter now { c with rx_pairs := P }).rx_repeatcount =
      (rx_repeat_filter now c).rx_repeatcount := by
    rw [rx_repeat_filter_count, rx_repeat_filter_count]
  unfold rx_candidate_ctx
  rw [hcount]

/-- Message finalization with the count within the capacity reads no row of the pair
store from the capacity on. -/
theorem rx_finalize_rows (h : Header) (now : Nat) (c : Ctx) (P : Nat → Nat → Nat)
    (hle : c.rx_paircount ≤ h.rx_maxpairs)
    (hP : ∀ i, i < h.rx_maxpairs → P i = c.rx_pairs i) :
    ∃ Q : Nat → Nat → Nat,
      rx_finalize h now { c with rx_pairs := P } = { rx_finalize h now c with rx_pairs := Q } ∧
      ∀ i, i < h.rx_maxpairs → Q i = (rx_finalize h now c).rx_pairs i := by
  obtain ⟨Q, q1, q2⟩ := rx_accept_rows h now (rx_candidate_ctx now c) P hle hP
  rw [rx_finalize_eq, rx_finalize_eq, rx_candidate_ctx_rows, q1]
  exact ⟨Q, rfl, q2⟩

theorem rx_getbyte_event_rows (h : Header) (e d : Nat) (c : Ctx) (P : Nat → Nat → Nat) :
    rx_getbyte_event h e d { c with rx_pairs := P } =
      { rx_getbyte_event h e d c with rx_pairs := P } := by
  unfold rx_getbyte_event
  dsimp only
  split_ifs <;> rfl

/-- One call of the state machine with the count within the capacity reads no row of
the pair store from the capacity on. -/
theorem rx_traced_rows (h : Header) (e d m : Nat) (c : Ctx) (P : Nat → Nat → Nat)
    (hle : c.rx_paircount ≤ h.rx_maxpairs)
    (hP : ∀ i, i < h.rx_maxpairs → P i = c.rx_pairs i) :
    ∃ Q : Nat → Nat → Nat,
      rx_transitions_traced h e d m { c with rx_pairs := P } =
        ({ (rx_transitions_traced h e d m c).1 with rx_pairs := Q },
          (rx_transitions_traced h e d m c).2) ∧
      ∀ i, i < h.rx_maxpairs → Q i = (rx_transitions_traced h e d m c).1.rx_pairs i := by
  by_cases h3 : c.rx_state = 3
  · have h3a : ({ c with rx_pairs := P } : Ctx).rx_state = 3 := h3
    obtain ⟨g1, g2, _⟩ := rx_getbyte_event_store h e d c
    rw [rx_traced_getbyte h e d m c h3, rx_traced_getbyte h e d m _ h3a,
      rx_getbyte_event_rows]
    dsimp only
    split_ifs
    · obtain ⟨Q, q1, q2⟩ := rx_finalize_rows h m
        { rx_getbyte_event h e d c with
          rx_num_bytes := ((rx_getbyte_event h e d c).rx_num_bytes + 1) % 256,
          rx_num_bits := 0 } P (by dsimp only; rw [g1]; exact hle)
        (by dsimp only; rw [g2]; exact hP)
      exact ⟨Q, Prod.ext q1 rfl, q2⟩
    · exact ⟨P, rfl, by dsimp only; rw [g2]; exact hP⟩
    · exact ⟨P, rfl, by dsimp only; rw [g2]; exact hP⟩
  · refine ⟨P, ?_, ?_⟩
    · unfold rx_transitions_traced
      simp only [rx_state_getbyte, h3, ↓reduceIte]
      split_ifs <;> rfl
    · unfold rx_transitions_traced
      simp only [rx_state_getbyte, h3, ↓reduceIte]
      split_ifs <;> exact hP

/-- Every call with the count within the capacity reads no row of the pair store from
the capacity on: replacing those rows changes nothing but those rows. -/
theorem rx_op_rows (h : Header) (op : Op) (c : Ctx) (P : Nat → Nat → Nat)
    (hle : c.rx_paircount ≤ h.rx_maxpairs)
    (hP : ∀ i, i < h.rx_maxpairs → P i = c.rx_pairs i) :
    ∃ Q : Nat → Nat → Nat,
      rx_op h op { c with rx_pairs := P } = { rx_op h op c with rx_pairs := Q } ∧
      ∀ i, i < h.rx_maxpairs → Q i = (rx_op h op c).rx_pairs i := by
  cases op with
  | edge level curr currMillis =>
    obtain ⟨Q, q1, q2⟩ := rx_traced_rows h
      (rx_event level (sub32 curr c.rx_prev % 65536)) (sub32 curr c.rx_prev % 65536)
      currMillis { c with rx_prev := curr } P hle hP
    exact ⟨Q, congrArg Prod.fst q1, q2⟩
  | getmessage len =>
    simp only [rx_op]
    unfold lwrx_getmessage
    dsimp only
    split_ifs
    · exact ⟨P, rfl, hP⟩
    · exact ⟨P, rfl, hP⟩
  | settranslate b => exact ⟨P, rfl, hP⟩
  | setfilter r t => exact ⟨P, rfl, hP⟩
  | addpair pairdata => exact lwrx_addpair_rows h pairdata c P hP
  | makepair t m => exact ⟨P, rfl, hP⟩
  | clearpairing =>
    simp only [rx_op]
    unfold lwrx_clearpairing
    dsimp only
    split_ifs <;> exact ⟨P, rfl, hP⟩
  | setstatsenable b =>
    simp only [rx_op]
    unfold lwrx_setstatsenable
    dsimp only
    split_ifs <;> exact ⟨P, rfl, hP⟩
  | capture => exact rx_addpairfrommsg_rows h c P hP

theorem lwrx_getpair_loop_rows (c c1 : Ctx) (pairnumber : Nat)
    (hrow : c1.rx_pairs pairnumber = c.rx_pairs pairnumber) (n : Nat) :
    ∀ pairdata, lwrx_getpair_loop c1 pairnumber n pairdata =
      lwrx_getpair_loop c pairnumber n pairdata := by
  induction n with
  | zero => intro pairdata; rfl
  | succ n ih =>
    intro pairdata
    unfold lwrx_getpair_loop
    dsimp only
    rw [hrow, ih]

/-- C12 (pair count never exceeds capacity): for every content of the persistent store
the pair count after `restoreEEPROMPairing` is at most `rx_maxpairs`, and a persisted
count above the capacity gives count 0, the count byte rewritten to 0 and nothing else
changed; every call (`lwrx_addpair`, pairing capture, `lwrx_clearpairing`,
`rx_process_bits` and the others) keeps a count within the capacity within it, also
over any sequence of calls after the restore.  Rows of `rx_pairs` from `rx_maxpairs`
on are never written - by the restore or by a call, which writes no row but the one
at the pair count, and that only below the capacity - and never read: with the count
within the capacity, replacing those rows changes the outcome of no call, of
`rx_checkPairs` or of `lwrx_getpair`, except for those rows themselves. -/
theorem rx_paircount_bounded (h : Header) :
    (∀ c : Ctx, (restoreEEPROMPairing h c).rx_paircount ≤ h.rx_maxpairs) ∧
    (∀ c : Ctx, h.rx_maxpairs < c.eeprom EEPROMaddr →
      (restoreEEPROMPairing h c).rx_paircount = 0 ∧
      (restoreEEPROMPairing h c).eeprom EEPROMaddr = 0 ∧
      (∀ a, a ≠ EEPROMaddr → (restoreEEPROMPairing h c).eeprom a = c.eeprom a) ∧
      (restoreEEPROMPairing h c).rx_pairs = c.rx_pairs) ∧
    (∀ (c : Ctx) (i : Nat), h.rx_maxpairs ≤ i →
      (restoreEEPROMPairing h c).rx_pairs i = c.rx_pairs i) ∧
    (∀ (op : Op) (c : Ctx), c.rx_paircount ≤ h.rx_maxpairs →
      (rx_op h op c).rx_paircount ≤ h.rx_maxpairs ∧
      (∀ i, i ≠ c.rx_paircount → (rx_op h op c).rx_pairs i = c.rx_pairs i) ∧
      ((rx_op h op c).rx_pairs ≠ c.rx_pairs → c.rx_paircount < h.rx_maxpairs) ∧
      (∀ i, h.rx_maxpairs ≤ i → (rx_op h op c).rx_pairs i = c.rx_pairs i)) ∧
    (∀ (ops : List Op) (c : Ctx),
      (rx_ops h ops (restoreEEPROMPairing h c)).rx_paircount ≤ h.rx_maxpairs ∧
      ∀ i, h.rx_maxpairs ≤ i →
        (rx_ops h ops (restoreEEPROMPairing h c)).rx_pairs i = c.rx_pairs i) ∧
    (∀ (op : Op) (c : Ctx) (P : Nat → Nat → Nat), c.rx_paircount ≤ h.rx_maxpairs →
      (∀ i, i < h.rx_maxpairs → P i = c.rx_pairs i) →
      ∃ Q : Nat → Nat → Nat,
        rx_op h op { c with rx_pairs := P } = { rx_op h op c with rx_pairs := Q } ∧
        (∀ i, i < h.rx_maxpairs → Q i = (rx_op h op c).rx_pairs i) ∧
        (∀ i, h.rx_maxpairs ≤ i → Q i = P i)) ∧
    (∀ (c : Ctx) (P : Nat → Nat → Nat) (buf pairdata : Nat → Nat) (pairnumber : Nat),
      c.rx_paircount ≤ h.rx_maxpairs → (∀ i, i < h.rx_maxpairs → P i = c.rx_pairs i) →
      rx_checkPairs { c with rx_pairs := P } buf = rx_checkPairs c buf ∧
      lwrx_getpair pairdata pairnumber { c with rx_pairs := P } =
        lwrx_getpair pairdata pairnumber c) := by
  have hrest : ∀ c : Ctx, (restoreEEPROMPairing h c).rx_paircount ≤ h.rx_maxpairs ∧
      ∀ i, h.rx_maxpairs ≤ i → (restoreEEPROMPairing h c).rx_pairs i = c.rx_pairs i := by
    intro c
    obtain ⟨r1, r2⟩ := restoreEEPROMPairing_get h c
    by_cases hle : c.eeprom EEPROMaddr ≤ h.rx_maxpairs
    · obtain ⟨a1, _, a3⟩ := r1 hle
      refine ⟨by rw [a1]; exact hle, ?_⟩
      intro i hi
      funext j
      rw [a3 i j, if_neg (by omega)]
    · obtain ⟨a1, _, a3⟩ := r2 (by omega)
      exact ⟨by rw [a1]; exact Nat.zero_le _, fun i _ => by rw [a3]⟩
  have hop : ∀ (op : Op) (c : Ctx), c.rx_paircount ≤ h.rx_maxpairs →
      ∀ i, h.rx_maxpairs ≤ i → (rx_op h op c).rx_pairs i = c.rx_pairs i := by
    intro op c hle i hi
    obtain ⟨_, r2, r3, _⟩ := rx_op_store h op c
    by_cases hic : i = c.rx_paircount
    · by_contra hne
      have hch : (rx_op h op c).rx_pairs ≠ c.rx_pairs := fun hh => hne (by rw [hh])
      have := r3 hch
      omega
    · exact r2 i hic
  refine ⟨fun c => (hrest c).1, ?_, fun c => (hrest c).2, ?_, ?_, ?_, ?_⟩
  · intro c hgt
    obtain ⟨a1, a2, a3⟩ := (restoreEEPROMPairing_get h c).2 hgt
    refine ⟨a1, ?_, ?_, a3⟩
    · rw [a2, aset_same]
    · intro a ha
      rw [a2, aset_other _ _ _ _ ha]
  · intro op c hle
    obtain ⟨r1, r2, r3, _⟩ := rx_op_store h op c
    exact ⟨r1 hle, r2, r3, hop op c hle⟩
  · intro ops c
    obtain ⟨s1, s2⟩ := (rx_ops_store h ops (restoreEEPROMPairing h c)).1 (hrest c).1
    refine ⟨s1, ?_⟩
    intro i hi
    rw [s2 i hi, (hrest c).2 i hi]
  · intro op c P hle hP
    obtain ⟨Q, q1, q2⟩ := rx_op_rows h op c P hle hP
    refine ⟨Q, q1, q2, ?_⟩
    intro i hi
    have e1 : (rx_op h op { c with rx_pairs := P }).rx_pairs i = P i :=
      hop op { c with rx_pairs := P } hle i hi
    rw [q1] at e1
    exact e1
  · intro c P buf pairdata pairnumber hle hP
    refine ⟨rx_checkPairs_rows c _ buf rfl (fun i hi => hP i (by omega)), ?_⟩
    unfold lwrx_getpair
    dsimp only
    by_cases hn : pairnumber < c.rx_paircount
    · rw [if_pos hn, if_pos hn,
        lwrx_getpair_loop_rows c { c with rx_pairs := P } pairnumber (hP _ (by omega))]
    · rw [if_neg hn, if_neg hn]

/-- C12 at a concrete input: an erased persistent store (count byte 255) with the
published capacity of 10 pairs, then ten pairs added and one more refused. -/
theorem rx_paircount_bounded_witness :
    hdr0.rx_maxpairs < ctx0.eeprom EEPROMaddr ∧
    (restoreEEPROMPairing hdr0 ctx0).rx_paircount = 0 ∧
    (restoreEEPROMPairing hdr0 ctx0).eeprom EEPROMaddr = 0 ∧
    (rx_ops hdr0 opsEleven (restoreEEPROMPairing hdr0 ctx0)).rx_paircount = 10 ∧
    (rx_ops hdr0 opsEleven (restoreEEPROMPairing hdr0 ctx0)).rx_paircount ≤ hdr0.rx_maxpairs :=
  ⟨by decide,
   ((rx_paircount_bounded hdr0).2.1 ctx0 (by decide)).1,
   ((rx_paircount_bounded hdr0).2.1 ctx0 (by decide)).2.1,
   by decide,
   ((rx_paircount_bounded hdr0).2.2.2.2.1 opsEleven ctx0).1⟩

/-! Calls that complete no candidate, and the pairing session -/

theorem rx_getbyte_event_session (h : Header) (e d : Nat) (c : Ctx) :
    (rx_getbyte_event h e d c).rx_msg = c.rx_msg ∧
    (rx_getbyte_event h e d c).rx_msgcomplete = c.rx_msgcomplete ∧
    (rx_getbyte_event h e d c).rx_pairtimeout = c.rx_pairtimeout ∧
    (rx_getbyte_event h e d c).rx_pairstarttime = c.rx_pairstarttime ∧
    (rx_getbyte_event h e d c).rx_paircount = c.rx_paircount ∧
    (rx_getbyte_event h e d c).rx_pairs = c.rx_pairs ∧
    (rx_getbyte_event h e d c).eeprom = c.eeprom := by
  unfold rx_getbyte_event
  dsimp only
  split_ifs <;> exact ⟨rfl, rfl, rfl, rfl, rfl, rfl, rfl⟩

/-- A call of the state machine that executes no message finalization leaves the
stored message, the message-ready flag, the pairing session and the pair store with
its persistent copy unchanged. -/
theorem rx_traced_nofinal (h : Header) (e d m : Nat) (c : Ctx)
    (hf : (rx_transitions_traced h e d m c).2 = false) :
    (rx_transitions_traced h e d m c).1.rx_msg = c.rx_msg ∧
    (rx_transitions_traced h e d m c).1.rx_msgcomplete = c.rx_msgcomplete ∧
    (rx_transitions_traced h e d m c).1.rx_pairtimeout = c.rx_pairtimeout ∧
    (rx_transitions_traced h e d m c).1.rx_pairstarttime = c.rx_pairstarttime ∧
    (rx_transitions_traced h e d m c).1.rx_paircount = c.rx_paircount ∧
    (rx_transitions_traced h e d m c).1.rx_pairs = c.rx_pairs ∧
    (rx_transitions_traced h e d m c).1.eeprom = c.eeprom := by
  by_cases hs3 : c.rx_state = 3
  · have g := rx_getbyte_event_session h e d c
    rw [rx_traced_getbyte h e d m c hs3] at hf ⊢
    by_cases h8 : (rx_getbyte_event h e d c).rx_num_bits ≥ 8
    · rw [if_pos h8] at hf ⊢
      by_cases h10 : ((rx_getbyte_event h e d c).rx_num_bytes + 1) % 256 ≥ 10
      · rw [if_pos h10] at hf
        exact absurd hf (by simp)
      · rw [if_neg h10]
        exact g
    · rw [if_neg h8]
      exact g
  · unfold rx_transitions_traced
    unfold rx_state_idle rx_state_msgstartfound rx_state_bytestartfound rx_state_getbyte
    rw [if_neg hs3]
    split_ifs <;> exact ⟨rfl, rfl, rfl, rfl, rfl, rfl, rfl⟩

/-- A call of the state machine that executes message finalization leaves the candidate
of the reception buffer in `rx_msg`. -/
theorem rx_traced_final_msg (h : Header) (e d m : Nat) (c : Ctx)
    (hf : (rx_transitions_traced h e d m c).2 = true) :
    ∀ i, i < 10 → (rx_transitions_traced h e d m c).1.rx_msg i =
      (rx_transitions_traced h e d m c).1.rx_buf i := by
  by_cases hs3 : c.rx_state = 3
  · rw [rx_traced_getbyte h e d m c hs3] at hf ⊢
    by_cases h8 : (rx_getbyte_event h e d c).rx_num_bits ≥ 8
    · rw [if_pos h8] at hf ⊢
      by_cases h10 : ((rx_getbyte_event h e d c).rx_num_bytes + 1) % 256 ≥ 10
      · rw [if_pos h10]
        intro i hi
        dsimp only
        rw [(rx_finalize_state_msg h m _).2 i hi, (rx_finalize_decoder h m _).2.2.2.1]
      · rw [if_neg h10] at hf
        exact absurd hf (by simp)
    · rw [if_neg h8] at hf
      exact absurd hf (by simp)
  · exfalso
    unfold rx_transitions_traced at hf
    unfold rx_state_idle rx_state_msgstartfound rx_state_bytestartfound rx_state_getbyte at hf
    rw [if_neg hs3] at hf
    split_ifs at hf

theorem rx_accept_session (h : Header) (now : Nat) (c : Ctx) :
    (rx_accept h now c).rx_pairstarttime = c.rx_pairstarttime ∧
    (rx_eligible c → (rx_accept h now c).rx_pairtimeout = 0) := by
  have hp : (rx_addpairfrommsg h c).rx_pairstarttime = c.rx_pairstarttime := by
    unfold rx_addpairfrommsg
    split_ifs
    · unfold rx_paircommit
      split_ifs <;> rfl
    · rfl
  constructor
  · unfold rx_accept
    dsimp only
    split_ifs <;> first | rfl | exact hp
  · intro he
    unfold rx_accept
    rw [if_pos he]

/-- One call of the state machine and the pairing session: the start time is kept, and
either the timeout and the pair store with its persistent copy are kept, or the
session is ended. -/
theorem rx_traced_session (h : Header) (e d m : Nat) (c : Ctx) :
    (rx_transitions_traced h e d m c).1.rx_pairstarttime = c.rx_pairstarttime ∧
    (((rx_transitions_traced h e d m c).1.rx_pairtimeout = c.rx_pairtimeout ∧
        (rx_transitions_traced h e d m c).1.rx_paircount = c.rx_paircount ∧
        (rx_transitions_traced h e d m c).1.rx_pairs = c.rx_pairs ∧
        (rx_transitions_traced h e d m c).1.eeprom = c.eeprom) ∨
      (rx_transitions_traced h e d m c).1.rx_pairtimeout = 0) := by
  by_cases hf : (rx_transitions_traced h e d m c).2 = false
  · obtain ⟨_, _, a3, a4, a5, a6, a7⟩ := rx_traced_nofinal h e d m c hf
    exact ⟨a4, Or.inl ⟨a3, a5, a6, a7⟩⟩
  · have hs3 : c.rx_state = 3 := by
      by_contra hs3
      apply hf
      unfold rx_transitions_traced
      unfold rx_state_idle rx_state_msgstartfound rx_state_bytestartfound rx_state_getbyte
      rw [if_neg hs3]
      split_ifs <;> rfl
    obtain ⟨_, _, g3, g4, g5, g6, g7⟩ := rx_getbyte_event_session h e d c
    rw [rx_traced_getbyte h e d m c hs3] at hf ⊢
    by_cases h8 : (rx_getbyte_event h e d c).rx_num_bits ≥ 8
    · rw [if_pos h8] at hf ⊢
      by_cases h10 : ((rx_getbyte_event h e d c).rx_num_bytes + 1) % 256 ≥ 10
      · rw [if_pos h10]
        dsimp only
        rw [rx_finalize_eq]
        obtain ⟨s1, s2⟩ := rx_accept_session h m (rx_candidate_ctx m
          { rx_getbyte_event h e d c with
            rx_num_bytes := ((rx_getbyte_event h e d c).rx_num_bytes + 1) % 256,
            rx_num_bits := 0 })
        refine ⟨s1.trans g4, ?_⟩
        by_cases he : rx_eligible (rx_candidate_ctx m
          { rx_getbyte_event h e d c with
            rx_num_bytes := ((rx_getbyte_event h e d c).rx_num_bytes + 1) % 256,
            rx_num_bits := 0 })
        · exact Or.inr (s2 he)
        · rw [rx_accept_not_eligible h m _ he]
          exact Or.inl ⟨g3, g5, g6, g7⟩
      · rw [if_neg h10] at hf
        exact absurd rfl hf
    · rw [if_neg h8] at hf
      exact absurd rfl hf

/-- While the pairing session is still pending after a sequence of calls of the
interrupt routine, the session and the pair store with its persistent copy are as they
were before the calls. -/
theorem rx_calls_session (h : Header) (es : List Edge) :
    ∀ c : Ctx, (rx_calls h es c).rx_pairtimeout ≠ 0 →
      (rx_calls h es c).rx_pairtimeout = c.rx_pairtimeout ∧
      (rx_calls h es c).rx_pairstarttime = c.rx_pairstarttime ∧
      (rx_calls h es c).rx_paircount = c.rx_paircount ∧
      (rx_calls h es c).rx_pairs = c.rx_pairs ∧
      (rx_calls h es c).eeprom = c.eeprom := by
  induction es with
  | nil => intro c _; exact ⟨rfl, rfl, rfl, rfl, rfl⟩
  | cons e es ih =>
    intro c hact
    have hr : rx_calls h (e :: es) c =
        rx_calls h es (rx_process_bits h e.level e.curr e.currMillis c) := rfl
    rw [hr] at hact ⊢
    obtain ⟨i1, i2, i3, i4, i5⟩ := ih _ hact
    obtain ⟨t1, t2⟩ := rx_traced_session h
      (rx_event e.level (sub32 e.curr c.rx_prev % 65536)) (sub32 e.curr c.rx_prev % 65536)
      e.currMillis { c with rx_prev := e.curr }
    have hpb : rx_process_bits h e.level e.curr e.currMillis c =
        (rx_transitions_traced h (rx_event e.level (sub32 e.curr c.rx_prev % 65536))
          (sub32 e.curr c.rx_prev % 65536) e.currMillis { c with rx_prev := e.curr }).1 := rfl
    rw [← hpb] at t1 t2
    rcases t2 with ⟨u1, u2, u3, u4⟩ | u0
    · exact ⟨i1.trans u1, i2.trans t1, i3.trans u2, i4.trans u3, i5.trans u4⟩
    · exact absurd (i1.trans u0) hact

/-! The ready message and the pair filter -/

/-- One call of the interrupt routine keeps the property that a ready message passes
the pair membership test, unless the call completes a candidate that fails the test
while the flag is already set. -/
theorem rx_process_bits_ready_step (h : Header) (level curr m : Nat) (c : Ctx)
    (hinv : c.rx_msgcomplete = true → rx_checkPairs c (fun j => c.rx_msg (j + 2)) = true)
    (hover : c.rx_msgcomplete = true → (rx_process_bits_traced h level curr m c).2 = true →
      rx_checkPairs (rx_process_bits h level curr m c)
        (fun j => (rx_process_bits h level curr m c).rx_buf (j + 2)) = true) :
    (rx_process_bits h level curr m c).rx_msgcomplete = true →
      rx_checkPairs (rx_process_bits h level curr m c)
        (fun j => (rx_process_bits h level curr m c).rx_msg (j + 2)) = true := by
  intro hset
  by_cases hf : (rx_process_bits_traced h level curr m c).2 = true
  · rcases rx_transitions_flag h _ _ m { c with rx_prev := curr } hset with hb | hb
    · have hmsg := rx_traced_final_msg h _ _ m { c with rx_prev := curr } hf
      rw [← hover hb hf]
      refine rx_checkPairs_congr _ _ _ _ rfl rfl ?_
      intro j hj
      exact hmsg (j + 2) (by omega)
    · exact hb
  · have hf0 : (rx_process_bits_traced h level curr m c).2 = false := by
      cases hv : (rx_process_bits_traced h level curr m c).2
      · rfl
      · exact absurd hv hf
    obtain ⟨a1, a2, _, _, a5, a6, _⟩ := rx_traced_nofinal h _ _ m { c with rx_prev := curr } hf0
    have hpb : rx_process_bits h level curr m c =
        (rx_transitions_traced h (rx_event level (sub32 curr c.rx_prev % 65536))
          (sub32 curr c.rx_prev % 65536) m { c with rx_prev := curr }).1 := rfl
    rw [← hpb] at a1 a2 a5 a6
    dsimp only at a1 a2 a5 a6
    rw [a2] at hset
    rw [← hinv hset]
    refine rx_checkPairs_congr _ _ _ _ a5 a6 ?_
    intro j _
    rw [a1]

theorem rx_calls_ready (h : Header) (es : List Edge) :
    ∀ c : Ctx,
      (c.rx_msgcomplete = true → rx_checkPairs c (fun j => c.rx_msg (j + 2)) = true) →
      rx_overwrites_paired h es c = true →
      (rx_calls h es c).rx_msgcomplete = true →
      rx_checkPairs (rx_calls h es c) (fun j => (rx_calls h es c).rx_msg (j + 2)) = true := by
  induction es with
  | nil => intro c hinv _ hset; exact hinv hset
  | cons e es ih =>
    intro c hinv hover
    unfold rx_overwrites_paired at hover
    rw [Bool.and_eq_true] at hover
    obtain ⟨o1, o2⟩ := hover
    refine ih _ (rx_process_bits_ready_step h e.level e.curr e.currMillis c hinv ?_) o2
    intro hb hf
    rw [hb, hf] at o1
    simpa using o1

theorem rx_overwrites_paired_nofinal (h : Header) (es : List Edge) :
    ∀ c : Ctx, rx_calls_finals h es c = 0 → rx_overwrites_paired h es c = true := by
  induction es with
  | nil => intro c _; rfl
  | cons e es ih =>
    intro c hz
    unfold rx_calls_finals at hz
    unfold rx_overwrites_paired
    have hf : (rx_process_bits_traced h e.level e.curr e.currMillis c).2 = false := by
      cases hv : (rx_process_bits_traced h e.level e.curr e.currMillis c).2
      · rfl
      · rw [hv] at hz
        simp at hz
    rw [hf, ih _ (by omega)]
    simp

/-- Without pairing session a call of the state machine neither opens one nor changes
the pair store. -/
theorem rx_traced_no_session (h : Header) (e d m : Nat) (c : Ctx)
    (hs : c.rx_pairtimeout = 0) :
    (rx_transitions_traced h e d m c).1.rx_pairtimeout = 0 ∧
    (rx_transitions_traced h e d m c).1.rx_paircount = c.rx_paircount ∧
    (rx_transitions_traced h e d m c).1.rx_pairs = c.rx_pairs := by
  by_cases hf : (rx_transitions_traced h e d m c).2 = false
  · obtain ⟨_, _, a3, _, a5, a6, _⟩ := rx_traced_nofinal h e d m c hf
    exact ⟨a3.trans hs, a5, a6⟩
  · have hs3 : c.rx_state = 3 := by
      by_contra hs3
      apply hf
      unfold rx_transitions_traced
      unfold rx_state_idle rx_state_msgstartfound rx_state_bytestartfound rx_state_getbyte
      rw [if_neg hs3]
      split_ifs <;> rfl
    obtain ⟨_, _, g3, _, g5, g6, _⟩ := rx_getbyte_event_session h e d c
    rw [rx_traced_getbyte h e d m c hs3] at hf ⊢
    by_cases h8 : (rx_getbyte_event h e d c).rx_num_bits ≥ 8
    · rw [if_pos h8] at hf ⊢
      by_cases h10 : ((rx_getbyte_event h e d c).rx_num_bytes + 1) % 256 ≥ 10
      · rw [if_pos h10]
        dsimp only
        have hfin := rx_finalize_no_session h m
          { rx_getbyte_event h e d c with
            rx_num_bytes := ((rx_getbyte_event h e d c).rx_num_bytes + 1) % 256,
            rx_num_bits := 0 } (g3.trans hs)
        rw [hfin]
        exact ⟨hs ▸ g3, g5, g6⟩
      · rw [if_neg h10] at hf
        exact absurd rfl hf
    · rw [if_neg h8] at hf
      exact absurd rfl hf

theorem rx_calls_no_session (h : Header) (es : List Edge) :
    ∀ c : Ctx, c.rx_pairtimeout = 0 →
      (rx_calls h es c).rx_pairtimeout = 0 ∧
      (rx_calls h es c).rx_paircount = c.rx_paircount ∧
      (rx_calls h es c).rx_pairs = c.rx_pairs := by
  induction es with
  | nil => intro c hs; exact ⟨hs, rfl, rfl⟩
  | cons e es ih =>
    intro c hs
    obtain ⟨t1, t2, t3⟩ := rx_traced_no_session h
      (rx_event e.level (sub32 e.curr c.rx_prev % 65536)) (sub32 e.curr c.rx_prev % 65536)
      e.currMillis { c with rx_prev := e.curr } hs
    obtain ⟨i1, i2, i3⟩ := ih (rx_process_bits h e.level e.curr e.currMillis c) t1
    exact ⟨i1, i2.trans t2, i3.trans t3⟩

/-- C4 as amended: for every sequence of edges processed by `rx_process_bits` from a
context in which a ready message, if any, passes the pair membership test: whenever
the message-ready flag is set after the sequence and every candidate completed while
the flag was already set passed the test, bytes 2..9 of `rx_msg` pass the pair
membership test.  The condition on the candidates holds when no call of the sequence
completes a candidate, and when the flag is clear before the first call and no later
call completes a candidate: from the call that raises the flag up to the next
completed candidate the ready message is a paired one.  Without pairing session the
calls leave the session off and the pair store as it is. -/
theorem rx_calls_ready_paired (h : Header) (c : Ctx) (es : List Edge)
    (hinv : c.rx_msgcomplete = true → rx_checkPairs c (fun j => c.rx_msg (j + 2)) = true) :
    (rx_overwrites_paired h es c = true → (rx_calls h es c).rx_msgcomplete = true →
      rx_checkPairs (rx_calls h es c) (fun j => (rx_calls h es c).rx_msg (j + 2)) = true) ∧
    (rx_calls_finals h es c = 0 → rx_overwrites_paired h es c = true) ∧
    (∀ (e : Edge) (post : List Edge), es = e :: post → c.rx_msgcomplete = false →
      rx_calls_finals h post (rx_process_bits h e.level e.curr e.currMillis c) = 0 →
      rx_overwrites_paired h es c = true) ∧
    (c.rx_pairtimeout = 0 →
      (rx_calls h es c).rx_pairtimeout = 0 ∧
      (rx_calls h es c).rx_paircount = c.rx_paircount ∧
      (rx_calls h es c).rx_pairs = c.rx_pairs) := by
  refine ⟨rx_calls_ready h es c hinv, rx_overwrites_paired_nofinal h es c, ?_,
    rx_calls_no_session h es c⟩
  intro e post hes hclear hz
  rw [hes]
  unfold rx_overwrites_paired
  rw [hclear, rx_overwrites_paired_nofinal h post _ hz]
  simp

/-- C4 as amended, at a concrete input: one stored pair, no session, and the paired
packet received three times; the second candidate raises the flag, the third is
completed while the flag is set and is a paired one. -/
theorem rx_calls_ready_paired_witness :
    ctxOnePair.rx_paircount = 1 ∧ ctxOnePair.rx_pairtimeout = 0 ∧
    ctxOnePair.rx_msgcomplete = false ∧
    rx_calls_finals hdr0 edgesPairedThrice ctxOnePair = 3 ∧
    rx_overwrites_paired hdr0 edgesPairedThrice ctxOnePair = true ∧
    (rx_calls hdr0 edgesPairedThrice ctxOnePair).rx_msgcomplete = true ∧
    rx_checkPairs (rx_calls hdr0 edgesPairedThrice ctxOnePair)
      (fun j => (rx_calls hdr0 edgesPairedThrice ctxOnePair).rx_msg (j + 2)) = true ∧
    rx_checkPairs ctxOnePair (fun _ => 0x6F) = false :=
  ⟨by decide!, by decide!, by decide!, by decide!, by decide!, by decide!,
   (rx_calls_ready_paired hdr0 ctxOnePair edgesPairedThrice
      (fun hh => absurd hh (by decide!))).1 (by decide!) (by decide!),
   by decide!⟩

/-! Pairing capture after `lwrx_makepair` -/

/-- C5 (pairing capture inside the window): a pairing session is begun by
`lwrx_makepair` with timeout `u >= 1` at millisecond `start`, edges are then processed
by `rx_process_bits` and leave the session pending (no eligible candidate has ended
it), and message finalization then runs at millisecond `now` for an eligible candidate
with `(now - start)/100 <= u`, the difference being the 32-bit difference `sub32` of
the two clock values.  The pending session still has the timeout and start time given
to `lwrx_makepair`, and the pair store is the one of the time of the call.  If capacity
remains and no stored entry is equivalent to bytes 2..9 of the candidate, the store
gains exactly one entry, at index count, equal to those 8 bytes, and the count grows
by 1; if an equivalent entry is present, count and stored entries are unchanged.  In
both cases the session is ended and the message-ready flag is left as it was. -/
theorem rx_finalize_pairing_capture (h : Header) (now u start : Nat) (c0 c : Ctx)
    (es : List Edge) (hmax : h.rx_maxpairs ≤ 255) (hu : 1 ≤ u)
    (hc : c = rx_calls h es (lwrx_makepair u start c0))
    (hpending : c.rx_pairtimeout ≠ 0) (hwin : sub32 now start / 100 ≤ u)
    (helig : rx_eligible (rx_repeat_filter now c)) :
    (c.rx_pairtimeout = u ∧ c.rx_pairstarttime = start ∧
      c.rx_paircount = c0.rx_paircount ∧ c.rx_pairs = c0.rx_pairs ∧ c.eeprom = c0.eeprom) ∧
    ((c.rx_paircount < h.rx_maxpairs ∧ ¬ pairStored c (fun j => c.rx_buf (j + 2))) →
      (rx_finalize h now c).rx_paircount = c.rx_paircount + 1 ∧
      (∀ j, j < 8 → (rx_finalize h now c).rx_pairs c.rx_paircount j = c.rx_buf (j + 2)) ∧
      (∀ i, i < c.rx_paircount → ∀ j, (rx_finalize h now c).rx_pairs i j = c.rx_pairs i j)) ∧
    (pairStored c (fun j => c.rx_buf (j + 2)) →
      (rx_finalize h now c).rx_paircount = c.rx_paircount ∧
      (∀ i, i < c.rx_paircount → ∀ j, (rx_finalize h now c).rx_pairs i j = c.rx_pairs i j)) ∧
    (rx_finalize h now c).rx_pairtimeout = 0 ∧
    (rx_finalize h now c).rx_msgcomplete = c.rx_msgcomplete := by
  have hsess : c.rx_pairtimeout = u ∧ c.rx_pairstarttime = start ∧
      c.rx_paircount = c0.rx_paircount ∧ c.rx_pairs = c0.rx_pairs ∧ c.eeprom = c0.eeprom := by
    rw [hc] at hpending ⊢
    exact rx_calls_session h es (lwrx_makepair u start c0) hpending
  exact ⟨hsess,
    rx_finalize_capture_fields h now u start c hmax hu hsess.1 hsess.2.1 hwin helig⟩

/-- C5 at a concrete input: the filter is switched off, a session of 5 units is begun
by `lwrx_makepair` at millisecond 1000, an edge starts a message, and a candidate is
finalized at millisecond 1200 with an empty store of capacity 10. -/
theorem rx_finalize_pairing_capture_witness :
    ctxSession.rx_pairtimeout = 5 ∧ ctxSession.rx_pairstarttime = 1000 ∧
    ctxSession.rx_paircount = 0 ∧
    (rx_finalize hdr0 1200 ctxSession).rx_paircount = ctxSession.rx_paircount + 1 ∧
    (∀ j, j < 8 →
      (rx_finalize hdr0 1200 ctxSession).rx_pairs ctxSession.rx_paircount j =
        ctxSession.rx_buf (j + 2)) ∧
    (rx_finalize hdr0 1200 ctxSession).rx_pairtimeout = 0 ∧
    (rx_finalize hdr0 1200 ctxSession).rx_msgcomplete = ctxSession.rx_msgcomplete :=
  have hthm := rx_finalize_pairing_capture hdr0 1200 5 1000 (lwrx_setfilter 0 20 ctxBuf)
    ctxSession [{ level := 1, curr := 10000, currMillis := 1010 }] (by decide) (by decide)
    rfl (by decide) (by decide) (Or.inl rfl)
  have hnew := hthm.2.1 ⟨by decide, fun hs => by
      obtain ⟨i, hi, _⟩ := hs
      exact absurd hi (Nat.not_lt_zero i)⟩
  ⟨hthm.1.1, hthm.1.2.1, by decide, hnew.1, hnew.2.1, hthm.2.2.2.1, hthm.2.2.2.2⟩

end LwRx
